import Mathlib

/-!
# FortiKonnector: enrichment of pod network-status annotations

A shallow embedding of `main.go`: the owner resolver and instance matcher
(`findVmiForPod`), the address mapper (`getMacToIPMappingForVMI`) and the
enrichment pipeline (`transformPodList`), followed by the properties proved
about them.

Go values are embedded as follows.

* `interface{}` is the inductive type `Value`, one constructor per dynamic type
  that the program can meet.
* A Go map is an association list; only the first binding of a key is visible,
  `mapGet` is the lookup `m[k]` with its `ok` flag and `mapSet` the assignment
  `m[k] = v`.  A map variable that may be nil is an `Option`.
* A runtime panic is the `error` case of `Except`.
* `encoding/json` is a parameter (`JsonLib`) of the pipeline; `encodingJson`
  is a model of the standard library, used to run the pipeline on texts.  Its
  reader is proved to read back what its writer wrote (`Json.readsAs_of_wf`).
-/

namespace FortiKonnector

/-! ## Go values -/

/-- Dynamic values held in an `interface{}`. -/
inductive Value where
  /-- The nil interface, JSON `null`. -/
  | null : Value
  /-- A `bool`. -/
  | bool (b : Bool) : Value
  /-- A number (`float64`), given by the literal that `json.Marshal` writes
  for it; `+Inf` and `-Inf` stand for the infinities. -/
  | number (lit : String) : Value
  /-- A `string`. -/
  | str (s : String) : Value
  /-- A `[]interface{}`. -/
  | slice (xs : List Value) : Value
  /-- A `map[string]interface{}`. -/
  | map (m : List (String × Value)) : Value
  /-- A `[]string`, the type of the value stored at line 264. -/
  | strings (xs : List String) : Value

/-- A `map[string]interface{}`. -/
abbrev Object := List (String × Value)

/-- The lookup `m[k]`: `none` is `ok = false`. -/
def mapGet {β : Type} (m : List (String × β)) (k : String) : Option β :=
  match m with
  | [] => none
  | (k', v) :: rest => if k' = k then some v else mapGet rest k

/-- The assignment `m[k] = v` on a non-nil map. -/
def mapSet {β : Type} (m : List (String × β)) (k : String) (v : β) : List (String × β) :=
  match m with
  | [] => [(k, v)]
  | (k', v') :: rest => if k' = k then (k', v) :: rest else (k', v') :: mapSet rest k v

/-- The type assertion `x.(map[string]interface{})` on the result of a lookup. -/
def asMap : Option Value → Option Object
  | some (Value.map m) => some m
  | _ => none

/-- The type assertion `x.(string)` on the result of a lookup. -/
def asString : Option Value → Option String
  | some (Value.str s) => some s
  | _ => none

/-- The type assertion `x.([]interface{})` on the result of a lookup. -/
def asSlice : Option Value → Option (List Value)
  | some (Value.slice xs) => some xs
  | _ => none

/-! ## Kubernetes objects -/

/-- The fields of `metav1.OwnerReference` that the program reads. -/
structure OwnerReference where
  Kind : String
  Name : String
deriving DecidableEq, Repr

/-- The fields of `v1.Pod` that the program reads or writes.
`Annotations` is `none` for a nil map. -/
structure Pod where
  Name : String
  Namespace : String
  OwnerReferences : List OwnerReference
  Annotations : Option (List (String × String))
deriving DecidableEq, Repr

/-- The items of an `unstructured.UnstructuredList`, each given by its `Object`
map (a nil `Object` reads like the empty map). -/
abbrev UnstructuredList := List Object

/-- The annotation key written at lines 249 and 299. -/
def networkStatusKey : String := "k8s.v1.cni.cncf.io/network-status"

/-! ## findVmiForPod (lines 152-197) -/

/-- Lines 157-164: the name of the first owner reference of kind
`VirtualMachineInstance`, `""` when there is none. -/
def ownerVmiName (ownerRefs : List OwnerReference) : String :=
  match ownerRefs with
  | [] => ""
  | ownerRef :: rest =>
    if ownerRef.Kind = "VirtualMachineInstance" then ownerRef.Name else ownerVmiName rest

/-- Lines 172-194: the search loop over `vmis.Items`. -/
def findVmiLoop (podNamespace ownerName : String) (items : UnstructuredList) : Option Object :=
  match items with
  | [] => none
  | vmiObj :: rest =>
    match asMap (mapGet vmiObj "metadata") with
    | none => findVmiLoop podNamespace ownerName rest
    | some vmiMetadata =>
      match asString (mapGet vmiMetadata "name") with
      | none => findVmiLoop podNamespace ownerName rest
      | some vmiName =>
        match asString (mapGet vmiMetadata "namespace") with
        | none => findVmiLoop podNamespace ownerName rest
        | some vmiNamespace =>
          if podNamespace = vmiNamespace ∧ vmiName = ownerName then some vmiObj
          else findVmiLoop podNamespace ownerName rest

/-- The function `findVmiForPod`; `none` is the nil map. -/
def findVmiForPod (pod : Pod) (vmis : Option UnstructuredList) : Option Object :=
  match vmis with
  | none => none
  | some items =>
    if ownerVmiName pod.OwnerReferences = "" then none
    else findVmiLoop pod.Namespace (ownerVmiName pod.OwnerReferences) items

/-! ## getMacToIPMappingForVMI (lines 199-232) -/

/-- Lines 212-229: the loop over `vmiInterfaces`, threading `mapping`. -/
def macLoop (vmiInterfaces : List Value) (mapping : List (String × String)) :
    List (String × String) :=
  match vmiInterfaces with
  | [] => mapping
  | vmiInterface :: rest =>
    match asMap (some vmiInterface) with
    | none => macLoop rest mapping
    | some vmiInterfaceM =>
      match asString (mapGet vmiInterfaceM "mac") with
      | none => macLoop rest mapping
      | some vmiIfaceMac =>
        if vmiIfaceMac = "" then macLoop rest mapping
        else
          match asString (mapGet vmiInterfaceM "ipAddress") with
          | none => macLoop rest mapping
          | some vmiIp =>
            if vmiIp = "" then macLoop rest mapping
            else macLoop rest (mapSet mapping vmiIfaceMac vmiIp)

/-- The function `getMacToIPMappingForVMI`; `none` is the nil map. -/
def getMacToIPMappingForVMI (vmi : Object) : Option (List (String × String)) :=
  match asMap (mapGet vmi "status") with
  | none => none
  | some vmiStatus =>
    match asSlice (mapGet vmiStatus "interfaces") with
    | none => none
    | some vmiInterfaces => some (macLoop vmiInterfaces [])

/-! ## transformPodList (lines 234-301) -/

/-- The slice `networks` of line 254: `none` is the nil slice, and an element
`none` is a nil map. -/
abbrev Networks := Option (List (Option Object))

/-- The two calls into `encoding/json`.
`Unmarshal data` is `json.Unmarshal([]byte(data), &networks)` on the nil slice
of line 254: the value left in `networks` and the returned error.
`Marshal networks` is `json.Marshal(networks)`. -/
structure JsonLib where
  Unmarshal : String → Networks × Option String
  Marshal : Networks → Except String String

/-- Lines 259-290: the body of the loop over `networks`, for one descriptor.
The result is the map that `network` refers to afterwards.  On a nil map the
lookup of line 259 finds nothing and the assignment of line 264 panics; the
type assertion of line 290 panics when `ips` does not hold a `[]string`. -/
def enrichNetwork (pod : Pod) (vmis : Option UnstructuredList) (network : Option Object) :
    Except String (Option Object) :=
  match network with
  | none => Except.error "assignment to entry in nil map"
  | some m =>
    match mapGet m "ips" with
    | some _ => Except.ok (some m)
    | none =>
      let m1 := mapSet m "ips" (Value.strings [])
      match vmis with
      | none => Except.ok (some m1)
      | some _ =>
        match findVmiForPod pod vmis with
        | none => Except.ok (some m1)
        | some foundVMI =>
          match getMacToIPMappingForVMI foundVMI with
          | none => Except.ok (some m1)
          | some addressMapping =>
            match asString (mapGet m1 "mac") with
            | none => Except.ok (some m1)
            | some networkMac =>
              if networkMac = "" then Except.ok (some m1)
              else
                match mapGet addressMapping networkMac with
                | none => Except.ok (some m1)
                | some vmiIp =>
                  match mapGet m1 "ips" with
                  | some (Value.strings ips) =>
                    Except.ok (some (mapSet m1 "ips" (Value.strings (ips ++ [vmiIp]))))
                  | _ => Except.error "interface conversion: interface {} is not []string"

/-- Lines 258-291: the loop over `networks`. -/
def enrichNetworks (pod : Pod) (vmis : Option UnstructuredList) :
    List (Option Object) → Except String (List (Option Object))
  | [] => Except.ok []
  | network :: rest =>
    match enrichNetwork pod vmis network with
    | Except.error e => Except.error e
    | Except.ok network' =>
      match enrichNetworks pod vmis rest with
      | Except.error e => Except.error e
      | Except.ok rest' => Except.ok (network' :: rest')

/-- The loop of lines 258-291 on the slice `networks`, which is nil when
the decoder stored nothing: ranging over a nil slice runs no iteration. -/
def rangeNetworks (pod : Pod) (vmis : Option UnstructuredList) :
    Networks → Except String Networks
  | none => Except.ok none
  | some networks =>
    match enrichNetworks pod vmis networks with
    | Except.error e => Except.error e
    | Except.ok networks' => Except.ok (some networks')

/-- Lines 293-299: encode `networks` and store the text in the annotation;
when encoding fails the pod keeps its annotations. -/
def storeNetworks (J : JsonLib) (pod : Pod) (annotations : List (String × String))
    (networks : Networks) : Pod :=
  match J.Marshal networks with
  | Except.error _ => pod
  | Except.ok newNetworksJSON =>
    { pod with Annotations := some (mapSet annotations networkStatusKey newNetworksJSON) }

/-- Lines 249-299: the body of the loop over `podList.Items`, for one pod.
The result is the pod as seen through `podList.Items` afterwards.  The error
of `json.Unmarshal` is dropped, as at line 256. -/
def transformPod (J : JsonLib) (vmis : Option UnstructuredList) (pod : Pod) : Except String Pod :=
  match pod.Annotations with
  | none => Except.ok pod
  | some annotations =>
    match mapGet annotations networkStatusKey with
    | none => Except.ok pod
    | some networkStatus =>
      match rangeNetworks pod vmis (J.Unmarshal networkStatus).1 with
      | Except.error e => Except.error e
      | Except.ok networks' => Except.ok (storeNetworks J pod annotations networks')

/-- Lines 248-300: the loop over `podList.Items`. -/
def transformPods (J : JsonLib) (vmis : Option UnstructuredList) :
    List Pod → Except String (List Pod)
  | [] => Except.ok []
  | pod :: rest =>
    match transformPod J vmis pod with
    | Except.error e => Except.error e
    | Except.ok pod' =>
      match transformPods J vmis rest with
      | Except.error e => Except.error e
      | Except.ok rest' => Except.ok (pod' :: rest')

/-- Lines 241-246: the variable `vmis` after the listing call, nil when the
call returned an error. -/
def vmisOf (listed : Except String UnstructuredList) : Option UnstructuredList :=
  match listed with
  | Except.error _ => none
  | Except.ok items => some items

/-- The function `transformPodList`.  `listed` is the result of the instance
listing of line 241 and `podList` is `podList.Items`; the result is the items
after the pass, or the panic that ended it. -/
def transformPodList (J : JsonLib) (listed : Except String UnstructuredList)
    (podList : List Pod) : Except String (List Pod) :=
  transformPods J (vmisOf listed) podList

/-! ## A model of encoding/json

The two library calls of lines 256 and 293, on texts.  The reader follows the
JSON grammar that `json.Unmarshal` checks before it stores anything, and the
writer emits what `json.Marshal` emits: no blanks, object keys in sorted
order, strings with the escapes of the library.  A number is held as a
`float64`: the reader rounds the literal as `strconv.ParseFloat` does and the
writer emits the shortest literal of the `float64`, so that `1500.0` comes
back as `1500` and `12345678901234567890` as `12345678901234567000`; a
literal beyond the largest `float64` is held as `+Inf`, which the writer
refuses.  The depth of nesting is not bounded (the library gives up beyond
10000 levels). -/

namespace Json

/-- The double quote. -/
def quote : Char := Char.ofNat 34

/-- The backslash. -/
def backslash : Char := Char.ofNat 92

/-- The opening brace. -/
def lbrace : Char := Char.ofNat 123

/-- The closing brace. -/
def rbrace : Char := Char.ofNat 125

/-- Blanks between JSON tokens. -/
def isSpace (c : Char) : Bool :=
  c = ' ' || c = '\t' || c = '\n' || c = '\r'

/-- Drop leading blanks. -/
def skipWs : List Char → List Char
  | [] => []
  | c :: cs => if isSpace c then skipWs cs else c :: cs

/-- A decimal digit. -/
def isDigit (c : Char) : Bool := 48 ≤ c.toNat && c.toNat ≤ 57

/-- The value of a hexadecimal digit. -/
def hexVal (c : Char) : Option Nat :=
  if 48 ≤ c.toNat ∧ c.toNat ≤ 57 then some (c.toNat - 48)
  else if 97 ≤ c.toNat ∧ c.toNat ≤ 102 then some (c.toNat - 87)
  else if 65 ≤ c.toNat ∧ c.toNat ≤ 70 then some (c.toNat - 55)
  else none

/-- Four hexadecimal digits, as after a backslash and u. -/
def getu4 : List Char → Option (Nat × List Char)
  | a :: b :: c :: d :: rest =>
    match hexVal a, hexVal b, hexVal c, hexVal d with
    | some x, some y, some z, some w => some (((x * 16 + y) * 16 + z) * 16 + w, rest)
    | _, _, _, _ => none
  | _ => none

/-- The character of a one-letter escape. -/
def simpleEscape (c : Char) : Option Char :=
  if c = quote then some quote
  else if c = backslash then some backslash
  else if c = '/' then some '/'
  else if c = 'b' then some (Char.ofNat 8)
  else if c = 'f' then some (Char.ofNat 12)
  else if c = 'n' then some '\n'
  else if c = 'r' then some '\r'
  else if c = 't' then some '\t'
  else none

/-- The rest of a string literal after its opening quote: the decoded string
and the input after the closing quote.  A surrogate that is not half of a
valid pair decodes to U+FFFD. -/
def parseString : Nat → List Char → List Char → Option (String × List Char)
  | 0, _, _ => none
  | _ + 1, [], _ => none
  | fuel + 1, c :: rest, acc =>
    if c = quote then some (String.mk acc.reverse, rest)
    else if c = backslash then
      match rest with
      | [] => none
      | e :: rest1 =>
        if e = 'u' then
          match getu4 rest1 with
          | none => none
          | some (rr, rest2) =>
            if 0xD800 ≤ rr ∧ rr < 0xE000 then
              match rest2 with
              | b :: u :: rest3 =>
                match getu4 rest3 with
                | some (rr1, rest4) =>
                  if b = backslash ∧ u = 'u' ∧ rr < 0xDC00 ∧ 0xDC00 ≤ rr1 ∧ rr1 < 0xE000 then
                    parseString fuel rest4
                      (Char.ofNat (0x10000 + (rr - 0xD800) * 0x400 + (rr1 - 0xDC00)) :: acc)
                  else parseString fuel rest2 (Char.ofNat 0xFFFD :: acc)
                | none => parseString fuel rest2 (Char.ofNat 0xFFFD :: acc)
              | _ => parseString fuel rest2 (Char.ofNat 0xFFFD :: acc)
            else parseString fuel rest2 (Char.ofNat rr :: acc)
        else
          match simpleEscape e with
          | none => none
          | some d => parseString fuel rest1 (d :: acc)
    else if c.toNat < 32 then none
    else parseString fuel rest (c :: acc)

/-- The longest prefix of digits and the rest. -/
def spanDigits : List Char → List Char × List Char
  | [] => ([], [])
  | c :: cs =>
    if isDigit c then ((spanDigits cs).1.cons c, (spanDigits cs).2) else ([], c :: cs)

/-- An optional minus sign. -/
def takeSign : List Char → List Char × List Char
  | '-' :: r => (['-'], r)
  | cs => ([], cs)

/-- The integer part of a number: digits, without a leading zero unless it is
the single digit zero. -/
def takeInt (cs : List Char) : Option (List Char × List Char) :=
  if (spanDigits cs).1 = [] ∨
      ((spanDigits cs).1.head? = some '0' ∧ (spanDigits cs).1.length ≠ 1) then none
  else some (spanDigits cs)

/-- The optional fraction of a number: a point and at least one digit. -/
def takeFrac : List Char → Option (List Char × List Char)
  | '.' :: r =>
    if (spanDigits r).1 = [] then none else some ('.' :: (spanDigits r).1, (spanDigits r).2)
  | cs => some ([], cs)

/-- The optional sign of an exponent. -/
def takeExpSign : List Char → List Char × List Char
  | '+' :: r => (['+'], r)
  | '-' :: r => (['-'], r)
  | cs => ([], cs)

/-- The optional exponent of a number: `e` or `E`, an optional sign and at
least one digit. -/
def takeExp : List Char → Option (List Char × List Char)
  | [] => some ([], [])
  | e :: r =>
    if e = 'e' ∨ e = 'E' then
      if (spanDigits (takeExpSign r).2).1 = [] then none
      else some (e :: (takeExpSign r).1 ++ (spanDigits (takeExpSign r).2).1,
        (spanDigits (takeExpSign r).2).2)
    else some ([], e :: r)

/-- A number literal at the head of the input: the literal and the rest. -/
def parseNumber (cs : List Char) : Option (List Char × List Char) :=
  match takeInt (takeSign cs).2 with
  | none => none
  | some (intPart, cs2) =>
    match takeFrac cs2 with
    | none => none
    | some (frac, cs3) =>
      match takeExp cs3 with
      | none => none
      | some (ex, cs4) => some ((takeSign cs).1 ++ intPart ++ frac ++ ex, cs4)

/-! ### Numbers as `float64` -/

/-- A `float64`: `finite neg m e` is the number `±m·2^e`, with `m < 2^53`
and `e` between -1074 and 971 (`m < 2^52` only when `e = -1074`, and zero is
`finite neg 0 0`); `inf neg` is `±Inf`. -/
inductive Float64 where
  | finite (neg : Bool) (mant : Nat) (exp : Int) : Float64
  | inf (neg : Bool) : Float64
deriving DecidableEq, Repr

/-- The value `k n`, with `n` computed before `k` is entered. -/
def withNat {α : Type} (n : Nat) (k : Nat → α) : α :=
  match n with
  | 0 => k 0
  | m + 1 => k (m + 1)

/-- The value `k i`, with `i` computed before `k` is entered. -/
def withInt {α : Type} (i : Int) (k : Int → α) : α :=
  match i with
  | Int.ofNat n => withNat n (fun n => k (Int.ofNat n))
  | Int.negSucc n => withNat n (fun n => k (Int.negSucc n))

/-- The value `k b`, with `b` computed before `k` is entered. -/
def withBool {α : Type} (b : Bool) (k : Bool → α) : α :=
  match b with
  | true => k true
  | false => k false

/-- The number that a sequence of digits denotes. -/
def digitsVal (ds : List Char) : Nat :=
  ds.foldl (fun n c => 10 * n + (c.toNat - 48)) 0

/-- The digits of a number, the most significant first; none for zero. -/
def natDigits : Nat → Nat → List Char
  | 0, _ => []
  | fuel + 1, n => if n = 0 then [] else natDigits fuel (n / 10) ++ [Char.ofNat (48 + n % 10)]

/-- The power `b^k` by repeated squaring, for `k < 2^fuel`. -/
def powNat (b : Nat) : Nat → Nat → Nat
  | 0, _ => 1
  | fuel + 1, k =>
    if k = 0 then 1 else powNat b fuel (k / 2) ^ 2 * (if k % 2 = 0 then 1 else b)

/-- The power `b^k`, for `k < 2^64`. -/
def pow (b k : Nat) : Nat := powNat b 64 k

/-- Binary search for the binary logarithm: `b` grows by each step `p` for
which `2^(b+p)` is still at most `n`. -/
def log2Search (n : Nat) : List Nat → Nat → Nat
  | [], b => b
  | p :: ps, b => if pow 2 (b + p) ≤ n then log2Search n ps (b + p) else log2Search n ps b

/-- The steps of the binary search: the powers of two `p` with `2^p ≤ n`,
the largest first. -/
def log2Steps (n : Nat) : Nat → Nat → List Nat → List Nat
  | 0, _, acc => acc
  | fuel + 1, p, acc => if pow 2 p ≤ n then log2Steps n fuel (2 * p) (p :: acc) else acc

/-- The binary logarithm of `n`, rounded down, for `0 < n`. -/
def log2 (n : Nat) : Nat :=
  log2Search n (log2Steps n 64 1 []) 0

/-- A number literal as sign, digits and decimal exponent: the number is
`±digits·10^exponent`. -/
def decimalOf (lit : List Char) : Bool × Nat × Int :=
  let s := takeSign lit
  let i := spanDigits s.2
  let f := match i.2 with
    | '.' :: r => spanDigits r
    | r => ([], r)
  let e : Int := match f.2 with
    | c :: r =>
      if c = 'e' ∨ c = 'E' then
        if (takeExpSign r).1 = ['-'] then - (digitsVal (spanDigits (takeExpSign r).2).1 : Int)
        else (digitsVal (spanDigits (takeExpSign r).2).1 : Int)
      else 0
    | [] => 0
  (decide (s.1 = ['-']), digitsVal (i.1 ++ f.1), e - (f.1.length : Int))

/-- The quotient `num / (den·2^e)`, rounded down. -/
def scaledQuot (num den : Nat) (e : Int) : Nat :=
  if 0 ≤ e then num / (den * pow 2 e.toNat) else (num * pow 2 (-e).toNat) / den

/-- The `float64` nearest to `num / den` (both positive), ties to the even
mantissa, as `strconv.ParseFloat` rounds; `±Inf` beyond the largest
`float64`.  The binary exponent `e2` is the one that brings the quotient
into `[2^52, 2^53)`, and not below -1074. -/
def roundRatio (neg : Bool) (num den : Nat) : Float64 :=
  withInt ((log2 num : Int) - (log2 den : Int) - 52) fun e0 =>
  withNat (scaledQuot num den e0) fun q0 =>
  withInt (if q0 < 2 ^ 52 then e0 - 1 else e0) fun e1 =>
  withInt (if e1 < -1074 then -1074 else e1) fun e2 =>
  withNat (if 0 ≤ e2 then num else num * pow 2 (-e2).toNat) fun n2 =>
  withNat (if 0 ≤ e2 then den * pow 2 e2.toNat else den) fun d2 =>
  withNat (n2 / d2) fun q =>
  withNat (n2 % d2) fun r =>
  withNat (if d2 < 2 * r ∨ (2 * r = d2 ∧ q % 2 = 1) then q + 1 else q) fun q3 =>
  withNat (if q3 = 2 ^ 53 then 2 ^ 52 else q3) fun m =>
  withInt (if q3 = 2 ^ 53 then e2 + 1 else e2) fun e =>
  if 971 < e then Float64.inf neg
  else if m = 0 then Float64.finite neg 0 0
  else Float64.finite neg m e

/-- The `float64` nearest to `±digits·10^e10`.  A number of more than 310
integer digits is beyond every `float64`, and one below `10^-330` rounds to
zero. -/
def roundDecimal (neg : Bool) (digits : Nat) (e10 : Int) : Float64 :=
  withNat digits fun digits =>
  withInt e10 fun e10 =>
  withInt (e10 + ((natDigits (digits + 1) digits).length : Int)) fun top =>
  if digits = 0 then Float64.finite neg 0 0
  else if 310 < top then Float64.inf neg
  else if top < -330 then Float64.finite neg 0 0
  else if 0 ≤ e10 then roundRatio neg (digits * pow 10 e10.toNat) 1
  else roundRatio neg digits (pow 10 (-e10).toNat)

/-- The `float64` that a text denotes when the whole of it is one JSON number
literal, as `strconv.ParseFloat` converts it. -/
def readFloat (t : List Char) : Option Float64 :=
  match parseNumber t with
  | some (lit, []) =>
    some (roundDecimal (decimalOf lit).1 (decimalOf lit).2.1 (decimalOf lit).2.2)
  | _ => none

/-- Whether `m·2^e < m2·2^e2`. -/
def ltScaled (m : Nat) (e : Int) (m2 : Nat) (e2 : Int) : Bool :=
  if e ≤ e2 then decide (m < m2 * pow 2 (e2 - e).toNat) else decide (m * pow 2 (e - e2).toNat < m2)

/-- Whether `10^k ≤ num / den`. -/
def pow10Le (k : Int) (num den : Nat) : Bool :=
  if 0 ≤ k then decide (pow 10 k.toNat * den ≤ num) else decide (den ≤ num * pow 10 (-k).toNat)

/-- The decimal exponent of `num / den`: the `k` with
`10^k ≤ num / den < 10^(k+1)`, found next to an estimate from the binary
logarithms. -/
def decimalExponent (num den : Nat) : Int :=
  withInt ((((log2 num : Int) - (log2 den : Int)) * 30103) / 100000) fun k0 =>
  withInt (if pow10Le k0 num den then k0 else if pow10Le (k0 - 1) num den then k0 - 1
    else k0 - 2) fun k1 =>
  if pow10Le (k1 + 2) num den then k1 + 2 else if pow10Le (k1 + 1) num den then k1 + 1 else k1

/-- Drop the zeros at the end of a number: the digits that are left and how
many were dropped. -/
def stripZeros : Nat → Nat → Nat → Nat × Nat
  | 0, d, z => (d, z)
  | fuel + 1, d, z => if d ≠ 0 ∧ d % 10 = 0 then stripZeros fuel (d / 10) (z + 1) else (d, z)

/-- The text of `±d·10^s` as `json.Marshal` lays a `float64` out: format `e`
when `useE`, with an exponent that is not padded, and format `f` otherwise. -/
def layout (neg : Bool) (d : Nat) (s : Int) (useE : Bool) : List Char :=
  let ds := natDigits (d + 1) d
  let dp : Int := (ds.length : Int) + s
  let sign := if neg then ['-'] else []
  if useE then
    sign ++ ds.take 1 ++ (if 1 < ds.length then '.' :: ds.drop 1 else []) ++
      ['e', if dp - 1 < 0 then '-' else '+'] ++
      (if dp - 1 = 0 then ['0'] else natDigits ((dp - 1).natAbs + 1) (dp - 1).natAbs)
  else if dp ≤ 0 then
    sign ++ ['0', '.'] ++ List.replicate (-dp).toNat '0' ++ ds
  else if (ds.length : Int) ≤ dp then
    sign ++ ds ++ List.replicate (dp - ds.length).toNat '0'
  else
    sign ++ ds.take dp.toNat ++ '.' :: ds.drop dp.toNat

/-- The text of the decimal `c·10^s`, zeros at the end of `c` dropped. -/
def decimalText (neg : Bool) (useE : Bool) (s : Int) (c : Nat) : List Char :=
  layout neg (stripZeros 20 c 0).1 (s + ((stripZeros 20 c 0).2 : Int)) useE

/-- The text `t` when it reads back as `f`. -/
def checked (f : Float64) (t : List Char) : Option (List Char) :=
  if readFloat t = some f then some t else none

/-- Of two texts, one that reads back as `f`: `lo` when both do and
`preferLo` holds, `hi` when both do and it does not. -/
def choose (f : Float64) (lo hi : List Char) (preferLo : Bool) : Option (List Char) :=
  match checked f lo, checked f hi with
  | some a, some b => if preferLo then some a else some b
  | some a, none => some a
  | none, some b => some b
  | none, none => none

/-- The candidate with `n` digits for the shortest text of `f = ±num / den`,
of decimal exponent `k`: of the two decimals of `n` digits next to the
number, one whose text reads back as `f`, the nearer one when both do (the
even one when the number lies in the middle). -/
def candidate (f : Float64) (neg : Bool) (num den : Nat) (k : Int) (useE : Bool) (n : Nat) :
    Option (List Char) :=
  withInt (k - ((n : Int) - 1)) fun s =>
  withNat (if 0 ≤ s then num / (den * pow 10 s.toNat) else (num * pow 10 (-s).toNat) / den)
    fun d =>
  withBool (if 0 ≤ s then decide (2 * num < (2 * d + 1) * pow 10 s.toNat * den)
    else decide (2 * num * pow 10 (-s).toNat < (2 * d + 1) * den)) fun below =>
  withBool (if 0 ≤ s then decide (2 * num = (2 * d + 1) * pow 10 s.toNat * den)
    else decide (2 * num * pow 10 (-s).toNat = (2 * d + 1) * den)) fun middle =>
  choose f (decimalText neg useE s d) (decimalText neg useE s (d + 1))
    (below || (middle && decide (d % 2 = 0)))

/-- The first candidate among those of `n`, `n + 1`, ... digits, `fuel` of
them. -/
def firstCandidate (f : Float64) (neg : Bool) (num den : Nat) (k : Int) (useE : Bool) :
    Nat → Nat → Option (List Char)
  | 0, _ => none
  | fuel + 1, n =>
    match candidate f neg num den k useE n with
    | some t => some t
    | none => firstCandidate f neg num den k useE fuel (n + 1)

/-- The text that `json.Marshal` writes for a finite `float64`: the shortest
decimal that reads back as the same `float64` (`strconv.AppendFloat` with
precision -1), which has 17 digits at most, in format `e` below `1e-6` and
from `1e21` on. -/
def shortest (f : Float64) : Option (List Char) :=
  match f with
  | Float64.inf _ => none
  | Float64.finite neg m e =>
    withBool neg fun neg =>
    withNat m fun m =>
    withInt e fun e =>
    if m = 0 then checked (Float64.finite neg m e) (if neg then ['-', '0'] else ['0'])
    else
      withNat (if 0 ≤ e then m * pow 2 e.toNat else m) fun num =>
      withNat (if 0 ≤ e then 1 else pow 2 (-e).toNat) fun den =>
      withBool
        ((match roundDecimal false 1 (-6) with
          | Float64.finite _ m6 e6 => ltScaled m e m6 e6
          | Float64.inf _ => false) || pow10Le 21 num den) fun useE =>
      withInt (decimalExponent num den) fun k =>
      firstCandidate (Float64.finite neg m e) neg num den k useE 17 1

/-- The text under which a `float64` is kept: what `json.Marshal` writes for
it, and `+Inf` or `-Inf` for an infinity.  Every finite `float64` has a text
of 17 digits at most that reads back as itself; were there none, the
literal `lit` that was read would stand for it. -/
def floatText (lit : List Char) (f : Float64) : List Char :=
  match f with
  | Float64.inf neg => if neg then "-Inf".toList else "+Inf".toList
  | Float64.finite _ _ _ => (shortest f).getD lit

/-- A number literal as `json.Unmarshal` stores it in an `interface{}`: the
`float64` it converts to, given by its text. -/
def canonNumber (lit : List Char) : List Char :=
  match readFloat lit with
  | none => lit
  | some f => floatText lit f

/-- Whether `cs` starts with `pre`; the rest of the input if so. -/
def stripLit (pre cs : List Char) : Option (List Char) :=
  match pre, cs with
  | [], cs => some cs
  | _ :: _, [] => none
  | p :: ps, c :: cs => if p = c then stripLit ps cs else none

mutual
/-- One JSON value at the head of the input, decoded as into an `interface{}`. -/
def parseValue : Nat → List Char → Option (Value × List Char)
  | 0, _ => none
  | fuel + 1, cs =>
    match skipWs cs with
    | [] => none
    | c :: rest =>
      if c = lbrace then
        match skipWs rest with
        | d :: rest1 => if d = rbrace then some (Value.map [], rest1) else parseMembers fuel rest []
        | [] => none
      else if c = '[' then
        match skipWs rest with
        | ']' :: rest1 => some (Value.slice [], rest1)
        | _ => parseElems fuel rest []
      else if c = quote then
        match parseString rest.length rest [] with
        | some (s, rest1) => some (Value.str s, rest1)
        | none => none
      else if c = 't' then (stripLit "rue".toList rest).map (fun r => (Value.bool true, r))
      else if c = 'f' then (stripLit "alse".toList rest).map (fun r => (Value.bool false, r))
      else if c = 'n' then (stripLit "ull".toList rest).map (fun r => (Value.null, r))
      else
        match parseNumber (c :: rest) with
        | some (lit, rest1) => some (Value.number (String.mk (canonNumber lit)), rest1)
        | none => none
/-- The elements of an array after its opening bracket. -/
def parseElems : Nat → List Char → List Value → Option (Value × List Char)
  | 0, _, _ => none
  | fuel + 1, cs, acc =>
    match parseValue fuel cs with
    | none => none
    | some (v, rest) =>
      match skipWs rest with
      | ',' :: rest1 => parseElems fuel rest1 (acc ++ [v])
      | ']' :: rest1 => some (Value.slice (acc ++ [v]), rest1)
      | _ => none
/-- The members of an object after its opening brace; a repeated key keeps
its last value. -/
def parseMembers : Nat → List Char → Object → Option (Value × List Char)
  | 0, _, _ => none
  | fuel + 1, cs, acc =>
    match skipWs cs with
    | [] => none
    | q :: rest =>
      if q = quote then
        match parseString rest.length rest [] with
        | none => none
        | some (k, rest1) =>
          match skipWs rest1 with
          | ':' :: rest2 =>
            match parseValue fuel rest2 with
            | none => none
            | some (v, rest3) =>
              match skipWs rest3 with
              | [] => none
              | d :: rest4 =>
                if d = ',' then parseMembers fuel rest4 (mapSet acc k v)
                else if d = rbrace then some (Value.map (mapSet acc k v), rest4)
                else none
          | _ => none
      else none
end

/-- The whole text as one JSON value, `none` for a syntax error. -/
def parse (data : String) : Option Value :=
  match parseValue (2 * data.length + 2) data.toList with
  | none => none
  | some (v, rest) => if skipWs rest = [] then some v else none

/-- What decoding one array element into a `map[string]interface{}` leaves
in the slice: the map for an object, the nil map for anything else. -/
def elemToMap : Value → Option Object
  | Value.map m => some m
  | _ => none

/-- Whether decoding an array element into a map reports a type error:
every element but an object and `null` does. -/
def elemMismatch : Value → Bool
  | Value.map _ => false
  | Value.null => false
  | _ => true

mutual
/-- The first infinite number held in a value, if there is one. -/
def findInf : Value → Option String
  | Value.null => none
  | Value.bool _ => none
  | Value.number lit => if lit = "+Inf" ∨ lit = "-Inf" then some lit else none
  | Value.str _ => none
  | Value.slice xs => findInfValues xs
  | Value.map m => findInfFields m
  | Value.strings _ => none
/-- The first infinite number held in the elements of a slice. -/
def findInfValues : List Value → Option String
  | [] => none
  | v :: vs =>
    match findInf v with
    | some lit => some lit
    | none => findInfValues vs
/-- The first infinite number held in the entries of a map. -/
def findInfFields : List (String × Value) → Option String
  | [] => none
  | (_, v) :: rest =>
    match findInf v with
    | some lit => some lit
    | none => findInfFields rest
end

/-- The first infinite number held in `networks`. -/
def findInfNetworks : List (Option Object) → Option String
  | [] => none
  | none :: rest => findInfNetworks rest
  | some m :: rest =>
    match findInfFields m with
    | some lit => some lit
    | none => findInfNetworks rest

/-- The call `json.Unmarshal([]byte(data), &networks)` with `networks` nil.
A text that is not JSON is rejected before anything is stored.  An array
gives a slice with one element for each of its elements (the empty array the
empty, non-nil slice); `null` and every other value leave `networks` nil, the
other values with a type error.  A number beyond the range of `float64` is
reported as an error as well. -/
def Unmarshal (data : String) : Networks × Option String :=
  match parse data with
  | none => (none, some "invalid character")
  | some (Value.slice xs) =>
    (some (xs.map elemToMap),
      if xs.any elemMismatch then some "cannot unmarshal into Go value of type map"
      else if (findInfNetworks (xs.map elemToMap)).isSome then
        some "cannot unmarshal number into Go value of type float64"
      else none)
  | some Value.null => (none, none)
  | some _ => (none, some "cannot unmarshal into Go value of type slice")

/-- A lower-case hexadecimal digit. -/
def hexDigit (n : Nat) : Char :=
  if n < 10 then Char.ofNat (48 + n) else Char.ofNat (87 + n)

/-- One character of a string as `json.Marshal` writes it. -/
def escapeChar (c : Char) : List Char :=
  if c = quote ∨ c = backslash then [backslash, c]
  else if c = Char.ofNat 8 then [backslash, 'b']
  else if c = Char.ofNat 12 then [backslash, 'f']
  else if c = '\n' then [backslash, 'n']
  else if c = '\r' then [backslash, 'r']
  else if c = '\t' then [backslash, 't']
  else if c.toNat < 32 ∨ c = '<' ∨ c = '>' ∨ c = '&' then
    [backslash, 'u', '0', '0', hexDigit (c.toNat / 16), hexDigit (c.toNat % 16)]
  else if c.toNat = 0x2028 then [backslash, 'u', '2', '0', '2', '8']
  else if c.toNat = 0x2029 then [backslash, 'u', '2', '0', '2', '9']
  else [c]

/-- A string literal. -/
def writeString (s : String) : List Char :=
  quote :: (s.toList.flatMap escapeChar) ++ [quote]

/-- Texts separated by commas. -/
def commaSep : List (List Char) → List Char
  | [] => []
  | [x] => x
  | x :: y :: rest => x ++ ',' :: commaSep (y :: rest)

/-- The order in which keys are sorted: lexicographic by code point. -/
def keyLt : List Char → List Char → Bool
  | _, [] => false
  | [], _ :: _ => true
  | a :: as, b :: bs => a.toNat < b.toNat || (a.toNat = b.toNat && keyLt as bs)

/-- Insert a member into a list of members sorted by key. -/
def insertMember {β : Type} (p : String × β) : List (String × β) → List (String × β)
  | [] => [p]
  | q :: rest =>
    if keyLt p.1.toList q.1.toList then p :: q :: rest else q :: insertMember p rest

/-- Sort members by key. -/
def sortMembers {β : Type} : List (String × β) → List (String × β)
  | [] => []
  | p :: rest => insertMember p (sortMembers rest)

/-- An object from its written members. -/
def writeMembers (ms : List (String × List Char)) : List Char :=
  lbrace :: commaSep ((sortMembers ms).map (fun p => writeString p.1 ++ ':' :: p.2)) ++ [rbrace]

mutual
/-- A value as `json.Marshal` writes it. -/
def writeValue : Value → List Char
  | Value.null => "null".toList
  | Value.bool b => if b then "true".toList else "false".toList
  | Value.number lit => lit.toList
  | Value.str s => writeString s
  | Value.slice xs => '[' :: commaSep (writeValues xs) ++ [']']
  | Value.map m => writeMembers (writeFields m)
  | Value.strings xs => '[' :: commaSep (xs.map writeString) ++ [']']
/-- The elements of a slice, each written. -/
def writeValues : List Value → List (List Char)
  | [] => []
  | v :: vs => writeValue v :: writeValues vs
/-- The entries of a map, each value written. -/
def writeFields : List (String × Value) → List (String × List Char)
  | [] => []
  | (k, v) :: rest => (k, writeValue v) :: writeFields rest
end

/-- An element of `networks`: a nil map is written `null`. -/
def writeNetwork : Option Object → List Char
  | none => "null".toList
  | some m => writeValue (Value.map m)

/-- The call `json.Marshal(networks)`: a nil slice is written `null`, and a
slice that holds an infinite number is not written at all. -/
def Marshal (networks : Networks) : Except String String :=
  match networks with
  | none => Except.ok "null"
  | some xs =>
    match findInfNetworks xs with
    | some lit => Except.error ("json: unsupported value: " ++ lit)
    | none => Except.ok (String.mk ('[' :: commaSep (xs.map writeNetwork) ++ [']']))

/-! ### Reading back what was written -/

/-- The input is empty or starts with a character that `p` rejects. -/
def NoHead (p : Char → Bool) : List Char → Prop
  | [] => True
  | c :: _ => p c = false

/-- The input is empty or starts with a separator that follows a written
value: a comma, a closing bracket or a closing brace. -/
def Delim : List Char → Prop
  | [] => True
  | c :: _ => c = ',' ∨ c = ']' ∨ c = rbrace

/-- A literal that `parseNumber` accepts starts with a minus sign or a digit,
and is read back whole when a separator follows it. -/
def ValidNumber (lit : List Char) : Prop :=
  (∃ c t, lit = c :: t ∧ (c = '-' ∨ isDigit c = true)) ∧
  ∀ rest, Delim rest → parseNumber (lit ++ rest) = some (lit, rest)

/-- Members in strictly increasing order of their keys. -/
def Sorted {β : Type} : List (String × β) → Prop
  | [] => True
  | [_] => True
  | p :: q :: rest => keyLt p.1.toList q.1.toList = true ∧ Sorted (q :: rest)

mutual
/-- The value that reading the written form of a value gives: a `[]string`
comes back as a `[]interface{}` of strings, and the entries of a map come
back in the order of their keys. -/
def reread : Value → Value
  | Value.null => Value.null
  | Value.bool b => Value.bool b
  | Value.number lit => Value.number lit
  | Value.str s => Value.str s
  | Value.slice xs => Value.slice (rereadValues xs)
  | Value.map m => Value.map (sortMembers (rereadFields m))
  | Value.strings xs => Value.slice (xs.map Value.str)
/-- The elements of a slice, each read back. -/
def rereadValues : List Value → List Value
  | [] => []
  | v :: vs => reread v :: rereadValues vs
/-- The entries of a map, each value read back. -/
def rereadFields : List (String × Value) → List (String × Value)
  | [] => []
  | (k, v) :: rest => (k, reread v) :: rereadFields rest
end

/-- Values that the reader can produce or the pass can store: a number is
infinite or is given by a literal that reads back as itself, and no map has
a key twice. -/
inductive Stored : Value → Prop
  | null : Stored Value.null
  | bool (b : Bool) : Stored (Value.bool b)
  | number (lit : String) :
      ((lit = "+Inf" ∨ lit = "-Inf") ∨
        (ValidNumber lit.toList ∧ canonNumber lit.toList = lit.toList)) →
      Stored (Value.number lit)
  | str (s : String) : Stored (Value.str s)
  | slice (xs : List Value) : (∀ x ∈ xs, Stored x) → Stored (Value.slice xs)
  | map (m : List (String × Value)) :
      (∀ p ∈ m, Stored p.2) → (m.map Prod.fst).Nodup → Stored (Value.map m)
  | strings (xs : List String) : Stored (Value.strings xs)

/-- Stored values that the writer accepts: those without an infinite
number. -/
inductive Wf : Value → Prop
  | null : Wf Value.null
  | bool (b : Bool) : Wf (Value.bool b)
  | number (lit : String) :
      ValidNumber lit.toList → canonNumber lit.toList = lit.toList → Wf (Value.number lit)
  | str (s : String) : Wf (Value.str s)
  | slice (xs : List Value) : (∀ x ∈ xs, Wf x) → Wf (Value.slice xs)
  | map (m : List (String × Value)) :
      (∀ p ∈ m, Wf p.2) → (m.map Prod.fst).Nodup → Wf (Value.map m)
  | strings (xs : List String) : Wf (Value.strings xs)

/-- Reading the written form of `v`, followed by a separator, gives `reread v`
and stops at the separator. -/
def ReadsAs (v : Value) : Prop :=
  ∀ (fuel : Nat) (rest : List Char), 2 * (writeValue v).length ≤ fuel → Delim rest →
    parseValue fuel (writeValue v ++ rest) = some (reread v, rest)

/-- A member as written: the key, a colon and the value. -/
def memberText (p : String × Value) : List Char :=
  writeString p.1 ++ ':' :: writeValue p.2

end Json

/-- The standard library's `encoding/json`, as modelled in `Json`. -/
def encodingJson : JsonLib where
  Unmarshal := Json.Unmarshal
  Marshal := Json.Marshal

/-! ## Conditions named in the statements -/

/-- The address that lines 266-288 find for a descriptor without `ips`:
`none` when one of the five guards takes its `continue`. -/
def lookupIp (pod : Pod) (vmis : Option UnstructuredList) (m : Object) : Option String :=
  match vmis with
  | none => none
  | some _ =>
    match findVmiForPod pod vmis with
    | none => none
    | some foundVMI =>
      match getMacToIPMappingForVMI foundVMI with
      | none => none
      | some addressMapping =>
        match asString (mapGet m "mac") with
        | none => none
        | some networkMac => if networkMac = "" then none else mapGet addressMapping networkMac

/-- The instance list is available, `findVmiForPod` finds an owning instance
for the pod, the descriptor `m` has a non-empty string `mac`, and
`getMacToIPMappingForVMI` of that instance maps that mac to `ip`. -/
def Resolves (vmis : Option UnstructuredList) (pod : Pod) (m : Object) (ip : String) : Prop :=
  ∃ items vmi mapping mac,
    vmis = some items ∧ findVmiForPod pod vmis = some vmi ∧
    getMacToIPMappingForVMI vmi = some mapping ∧
    mapGet m "mac" = some (Value.str mac) ∧ mac ≠ "" ∧ mapGet mapping mac = some ip

/-- Two elements of `networks` are both nil, or both maps with the same
keys. -/
def SameKeys : Option Object → Option Object → Prop
  | some m, some m2 => ∀ k, (mapGet m2 k).isSome = (mapGet m k).isSome
  | none, none => True
  | _, _ => False

/-- The library reads back the text `t` it wrote for `networks`: decoding `t`
gives a slice that is nil when `networks` is, has otherwise the same length
with the same keys in each descriptor, and encodes to `t` again. -/
def ReadsBack (J : JsonLib) (networks : Networks) (t : String) : Prop :=
  J.Marshal (J.Unmarshal t).1 = Except.ok t ∧
  match networks, (J.Unmarshal t).1 with
  | none, none => True
  | some xs, some ys => List.Forall₂ SameKeys xs ys
  | _, _ => False

/-- Every element of `networks` is a map that has an `ips` key. -/
def AllHaveIps (networks : List (Option Object)) : Prop :=
  ∀ n ∈ networks, ∃ m v, n = some m ∧ mapGet m "ips" = some v

/-! ## Sample data -/

/-- A pod in `ns1` owned by the instance `vmi-a`, with one other annotation
and the given network-status text. -/
def samplePod (networkStatus : String) : Pod where
  Name := "virt-launcher-a"
  Namespace := "ns1"
  OwnerReferences := [⟨"VirtualMachineInstance", "vmi-a"⟩]
  Annotations := some [("app", "demo"), (networkStatusKey, networkStatus)]

/-- The instance `vmi-a` of `ns1`, reporting one interface. -/
def sampleVmi : Object :=
  [("metadata", Value.map [("name", Value.str "vmi-a"), ("namespace", Value.str "ns1")]),
   ("status", Value.map [("interfaces",
      Value.slice [Value.map [("mac", Value.str "aa:bb"), ("ipAddress", Value.str "10.0.0.5")]])])]

/-- The annotations of `samplePod networkStatus`. -/
def sampleAnnotations (networkStatus : String) : List (String × String) :=
  [("app", "demo"), (networkStatusKey, networkStatus)]

/-- A network-status text with two descriptors, one whose mac the instance
reports and one whose mac it does not. -/
def twoMacsText : String :=
  "[\x7b\"mac\":\"aa:bb\"\x7d,\x7b\"mac\":\"cc:dd\"\x7d]"

/-- The descriptors that `twoMacsText` decodes to. -/
def twoMacs : List Object :=
  [[("mac", Value.str "aa:bb")], [("mac", Value.str "cc:dd")]]

/-- The object `vmiObj` is well formed and named `name` in namespace `ns`:
its `metadata` is a map whose `name` and `namespace` are these strings. -/
def VmiNamed (ns name : String) (vmiObj : Object) : Prop :=
  ∃ md, mapGet vmiObj "metadata" = some (Value.map md) ∧
    mapGet md "name" = some (Value.str name) ∧ mapGet md "namespace" = some (Value.str ns)

/-- The interface entry `v` is an object with the non-empty string `mac` as
its `mac` and the non-empty string `ip` as its `ipAddress`. -/
def ReportsPair (v : Value) (mac ip : String) : Prop :=
  ∃ e, v = Value.map e ∧ mapGet e "mac" = some (Value.str mac) ∧
    mapGet e "ipAddress" = some (Value.str ip) ∧ mac ≠ "" ∧ ip ≠ ""

/-- A network-status text with the one descriptor of the scenario. -/
def oneMacText : String := "[\x7b\"mac\":\"aa:bb\"\x7d]"

/-- A network-status text whose descriptor already has an empty `ips`. -/
def emptyIpsText : String := "[\x7b\"ips\":[],\"mac\":\"aa:bb\"\x7d]"

/-- A pod without annotations (a nil map). -/
def barePod : Pod where
  Name := "web-0"
  Namespace := "ns1"
  OwnerReferences := []
  Annotations := none

/-- A pod whose annotations lack the network-status key. -/
def otherPod : Pod where
  Name := "web-1"
  Namespace := "ns1"
  OwnerReferences := [⟨"ReplicaSet", "web"⟩]
  Annotations := some [("app", "demo")]

/-- The text that the pass writes for `oneMacText` when `sampleVmi` is
listed. -/
def oneMacEnriched : String := "[\x7b\"ips\":[\"10.0.0.5\"],\"mac\":\"aa:bb\"\x7d]"

/-- A pod in `ns1` with three owner references: the first of kind
VirtualMachineInstance names no listed instance, the second names `vmi-a`. -/
def twoOwnersPod : Pod where
  Name := "virt-launcher-b"
  Namespace := "ns1"
  OwnerReferences :=
    [⟨"ReplicaSet", "rs"⟩, ⟨"VirtualMachineInstance", "vmi-x"⟩,
      ⟨"VirtualMachineInstance", "vmi-a"⟩]
  Annotations := none

/-- Instance objects that do not match `vmi-a` in `ns1`: no metadata, a
metadata that is no map, a name that is no string, no namespace, and another
namespace. -/
def malformedVmis : UnstructuredList :=
  [[],
   [("metadata", Value.str "vmi-a")],
   [("metadata", Value.map [("name", Value.number "1"), ("namespace", Value.str "ns1")])],
   [("metadata", Value.map [("name", Value.str "vmi-a")])],
   [("metadata", Value.map [("name", Value.str "vmi-a"), ("namespace", Value.str "ns2")])]]

/-- Interface entries of mixed shape: `aa:bb` is reported twice, and the
other entries miss a field, hold an empty string or are no objects. -/
def mixedInterfaces : List Value :=
  [Value.map [("mac", Value.str "aa:bb"), ("ipAddress", Value.str "10.0.0.5")],
   Value.null,
   Value.str "eth0",
   Value.map [("mac", Value.str ""), ("ipAddress", Value.str "10.0.0.6")],
   Value.map [("mac", Value.str "cc:dd")],
   Value.map [("mac", Value.str "aa:bb"), ("ipAddress", Value.str "10.0.0.7")],
   Value.map [("mac", Value.str "ee:ff"), ("ipAddress", Value.str "")],
   Value.map [("mac", Value.number "1"), ("ipAddress", Value.str "10.0.0.8")]]

/-- An instance that reports `mixedInterfaces`. -/
def mixedVmi : Object :=
  [("metadata", Value.map [("name", Value.str "vmi-m"), ("namespace", Value.str "ns1")]),
   ("status", Value.map [("interfaces", Value.slice mixedInterfaces)])]

/-! ## checkAuth (lines 21-32)

A Go `string` is a sequence of bytes, not necessarily UTF-8; `len` and
slicing count bytes.  The functions of `unicode/utf8`, `unicode` and `strings`
that `checkAuth` calls are given by their Go definitions. -/

/-- A Go `string`, byte by byte. -/
abbrev Bytes := List Nat

namespace Utf8

/-- The rune `utf8.RuneError`, U+FFFD. -/
def RuneError : Nat := 0xFFFD

/-- The table `first`, read as the length of the sequence that a leading
byte starts: 1 for ASCII, 0 for a byte that starts none. -/
def firstSize (s0 : Nat) : Nat :=
  if s0 < 0x80 then 1
  else if s0 < 0xC2 then 0
  else if s0 < 0xE0 then 2
  else if s0 < 0xF0 then 3
  else if s0 < 0xF5 then 4
  else 0

/-- The lower bound of `acceptRanges` for the second byte. -/
def acceptLo (s0 : Nat) : Nat :=
  if s0 = 0xE0 then 0xA0 else if s0 = 0xF0 then 0x90 else 0x80

/-- The upper bound of `acceptRanges` for the second byte. -/
def acceptHi (s0 : Nat) : Nat :=
  if s0 = 0xED then 0x9F else if s0 = 0xF4 then 0x8F else 0xBF

/-- The function `utf8.DecodeRuneInString`, which is also how `range` walks
a string: the first rune and its width in bytes, `(RuneError, 1)` for a byte
that starts no valid sequence. -/
def DecodeRuneInString (s : Bytes) : Nat × Nat :=
  match s with
  | [] => (RuneError, 0)
  | s0 :: rest =>
    if s0 < 0x80 then (s0, 1)
    else if firstSize s0 = 0 then (RuneError, 1)
    else
      match rest with
      | [] => (RuneError, 1)
      | s1 :: rest1 =>
        if s.length < firstSize s0 then (RuneError, 1)
        else if s1 < acceptLo s0 ∨ acceptHi s0 < s1 then (RuneError, 1)
        else if firstSize s0 ≤ 2 then ((s0 % 0x20) * 0x40 + s1 % 0x40, 2)
        else
          match rest1 with
          | [] => (RuneError, 1)
          | s2 :: rest2 =>
            if s2 < 0x80 ∨ 0xBF < s2 then (RuneError, 1)
            else if firstSize s0 ≤ 3 then
              ((s0 % 0x10) * 0x1000 + (s1 % 0x40) * 0x40 + s2 % 0x40, 3)
            else
              match rest2 with
              | [] => (RuneError, 1)
              | s3 :: _ =>
                if s3 < 0x80 ∨ 0xBF < s3 then (RuneError, 1)
                else
                  ((s0 % 0x08) * 0x40000 + (s1 % 0x40) * 0x1000 + (s2 % 0x40) * 0x40
                    + s3 % 0x40, 4)

/-- The function `utf8.AppendRune` on an empty buffer, for a rune that is
not negative: surrogates and values above U+10FFFF are written as U+FFFD. -/
def AppendRune (r : Nat) : Bytes :=
  if r ≤ 0x7F then [r]
  else if r ≤ 0x7FF then [0xC0 + r / 0x40, 0x80 + r % 0x40]
  else if 0x10FFFF < r ∨ (0xD800 ≤ r ∧ r ≤ 0xDFFF) then [0xEF, 0xBF, 0xBD]
  else if r ≤ 0xFFFF then [0xE0 + r / 0x1000, 0x80 + (r / 0x40) % 0x40, 0x80 + r % 0x40]
  else
    [0xF0 + r / 0x40000, 0x80 + (r / 0x1000) % 0x40, 0x80 + (r / 0x40) % 0x40,
      0x80 + r % 0x40]

/-- The function `utf8.RuneLen` on a rune that `DecodeRuneInString` returned
from a valid sequence (never a surrogate, never above U+10FFFF). -/
def RuneLen (r : Nat) : Nat :=
  if r ≤ 0x7F then 1 else if r ≤ 0x7FF then 2 else if r ≤ 0xFFFF then 3 else 4

end Utf8

/-- The function `unicode.ToLower`: ASCII is handled in place, every other
rune is looked up in the case tables, here `caseTable`. -/
def unicodeToLower (caseTable : Nat → Nat) (r : Nat) : Nat :=
  if r ≤ 0x7F then (if 0x41 ≤ r ∧ r ≤ 0x5A then r + 0x20 else r)
  else caseTable r

namespace Strings

/-- The step `c += 'a' - 'A'` of the ASCII path of `strings.ToLower`, applied
to the bytes from `A` to `Z` only. -/
def lowerByte (c : Nat) : Nat :=
  if 0x41 ≤ c ∧ c ≤ 0x5A then c + 0x20 else c

/-- The second loop of `strings.Map`: every rune of what is left of `s` is
mapped and written. -/
def mapRest (mapping : Nat → Nat) : Nat → Bytes → Bytes
  | 0, _ => []
  | fuel + 1, s =>
    match s with
    | [] => []
    | _ :: _ =>
      Utf8.AppendRune (mapping (Utf8.DecodeRuneInString s).1) ++
        mapRest mapping fuel (s.drop (Utf8.DecodeRuneInString s).2)

/-- The first loop of `strings.Map`, at offset `i` with `kept = s[:i]` and
`rest = s[i:]`: runes that the mapping leaves alone are skipped; at the
first one it changes, and at the first invalid byte, `s[:i]` and the mapped
rune are written and the second loop takes over.  When the loop ends without
a change the string is returned as it is. -/
def mapFirst (mapping : Nat → Nat) : Nat → Bytes → Bytes → Bytes
  | 0, kept, _ => kept
  | fuel + 1, kept, rest =>
    match rest with
    | [] => kept
    | _ :: _ =>
      let c := (Utf8.DecodeRuneInString rest).1
      let r := mapping c
      if r = c ∧ c ≠ Utf8.RuneError then
        mapFirst mapping fuel (kept ++ rest.take (Utf8.DecodeRuneInString rest).2)
          (rest.drop (Utf8.DecodeRuneInString rest).2)
      else
        let width := if c = Utf8.RuneError then (Utf8.DecodeRuneInString rest).2
          else Utf8.RuneLen c
        if c = Utf8.RuneError ∧ width ≠ 1 ∧ r = c then
          mapFirst mapping fuel (kept ++ rest.take (Utf8.DecodeRuneInString rest).2)
            (rest.drop (Utf8.DecodeRuneInString rest).2)
        else kept ++ Utf8.AppendRune r ++ mapRest mapping fuel (rest.drop width)

/-- The function `strings.Map` for a mapping that returns no negative rune.
Each iteration consumes a byte at least, so `len(s)` iterations suffice. -/
def Map (mapping : Nat → Nat) (s : Bytes) : Bytes :=
  mapFirst mapping s.length [] s

/-- The function `strings.ToLower`: a string of ASCII bytes is lowered byte
by byte (and returned as it is when it has no upper-case letter), any other
string goes through `Map(unicode.ToLower, s)`. -/
def ToLower (caseTable : Nat → Nat) (s : Bytes) : Bytes :=
  if s.all (fun c => decide (c < 0x80)) then
    if s.any (fun c => decide (0x41 ≤ c ∧ c ≤ 0x5A)) then s.map lowerByte else s
  else Map (unicodeToLower caseTable) s

/-- The function `strings.HasPrefix`:
`len(s) >= len(p) && s[:len(p)] == p`. -/
def HasPrefix (s p : Bytes) : Bool :=
  decide (p.length ≤ s.length ∧ s.take p.length = p)

end Strings

/-- The string `"bearer "` of line 24, seven bytes. -/
def bearerPrefix : Bytes := [0x62, 0x65, 0x61, 0x72, 0x65, 0x72, 0x20]

/-- The call `r.Header.Get("Authorization")` on the values that the request
holds under that key: the first one, `""` when there is none. -/
def headerGet (values : List Bytes) : Bytes :=
  match values with
  | [] => []
  | v :: _ => v

/-- The function `checkAuth` for a request with the given `Authorization`
values, `apiKey` being the value of the environment variable `API_KEY`.  The
slice expression `bearer[len(prefix):]` panics when `bearer` is shorter than
the seven bytes of the prefix. -/
def checkAuth (caseTable : Nat → Nat) (apiKey : Bytes) (authorization : List Bytes) :
    Except String Bool :=
  let authKey := apiKey
  let bearer := headerGet authorization
  if Strings.HasPrefix (Strings.ToLower caseTable bearer) bearerPrefix = true then
    if bearerPrefix.length ≤ bearer.length then
      Except.ok (decide (bearer.drop bearerPrefix.length = authKey))
    else Except.error "slice bounds out of range"
  else Except.ok (decide (([] : Bytes) = authKey))

/-- The output of a lowering, seen from the front of the input: an ASCII
byte gives its lower-case byte and the rest is lowered in turn; any other
byte starts a piece of output whose first byte is not ASCII, or is `i` or
`k`. -/
inductive LowerOut : Bytes → Bytes → Prop
  | nil : LowerOut [] []
  | ascii (b : Nat) (t out : Bytes) :
      b < 0x80 → LowerOut t out → LowerOut (b :: t) (Strings.lowerByte b :: out)
  | other (b : Nat) (t : Bytes) (x : Nat) (out : Bytes) :
      0x80 ≤ b → (0x80 ≤ x ∨ x = 0x69 ∨ x = 0x6B) → LowerOut (b :: t) (x :: out)

/-- A case table with the two runes that lower to ASCII, U+0130 and U+212A,
and the upper-case letters of Latin-1; every other rune is left alone. -/
def sampleCaseTable (r : Nat) : Nat :=
  if r = 0x130 then 0x69
  else if r = 0x212A then 0x6B
  else if 0xC0 ≤ r ∧ r ≤ 0xDE ∧ r ≠ 0xD7 then r + 0x20
  else r

/-- The key `sÉ`, three bytes. -/
def sampleKey : Bytes := [0x73, 0xC3, 0x89]

/-- The header `BeArEr sÉ`. -/
def sampleHeader : Bytes := [0x42, 0x65, 0x41, 0x72, 0x45, 0x72, 0x20, 0x73, 0xC3, 0x89]

/-- The header `bearer` followed by U+212A in place of a space, then `sÉ`. -/
def kelvinHeader : Bytes := [0x62, 0x65, 0x61, 0x72, 0x65, 0x72, 0xE2, 0x84, 0xAA, 0x73, 0xC3, 0x89]

/-- An annotation with one descriptor that holds the number `1e400`, which
is beyond every `float64`. -/
def overflowText : String := "[\x7b\"mac\":\"aa:bb\",\"n\":1e400\x7d]"

/-- An annotation with one descriptor without `mac` that holds `-1e999`. -/
def negOverflowText : String := "[\x7b\"name\":\"eth0\",\"mtu\":-1e999\x7d]"

/-- An annotation with one descriptor of mac `cc:dd` that holds `1E+500`. -/
def bigCostText : String := "[\x7b\"mac\":\"cc:dd\",\"cost\":1E+500\x7d]"

/-- Equality of two results of a pass can be decided. -/
instance instDecidableEqExcept {ε α : Type} [DecidableEq ε] [DecidableEq α] :
    DecidableEq (Except ε α) := fun a b =>
  match a, b with
  | Except.ok x, Except.ok y =>
    if h : x = y then isTrue (congrArg Except.ok h)
    else isFalse (fun h2 => h (Except.ok.inj h2))
  | Except.error x, Except.error y =>
    if h : x = y then isTrue (congrArg Except.error h)
    else isFalse (fun h2 => h (Except.error.inj h2))
  | Except.ok _, Except.error _ => isFalse (fun h => Except.noConfusion h)
  | Except.error _, Except.ok _ => isFalse (fun h => Except.noConfusion h)

/-! ## Maps -/

theorem mapGet_mapSet_self {β : Type} (m : List (String × β)) (k : String) (v : β) :
    mapGet (mapSet m k v) k = some v := by
  induction m with
  | nil => simp [mapSet, mapGet]
  | cons p rest ih =>
    obtain ⟨k', v'⟩ := p
    by_cases h : k' = k
    · simp [mapSet, mapGet, h]
    · simp [mapSet, mapGet, h, ih]

theorem mapGet_mapSet_ne {β : Type} (m : List (String × β)) (k k2 : String) (v : β)
    (hne : k2 ≠ k) : mapGet (mapSet m k v) k2 = mapGet m k2 := by
  induction m with
  | nil =>
    have h : ¬ k = k2 := fun h => hne h.symm
    simp [mapSet, mapGet, h]
  | cons p rest ih =>
    obtain ⟨k', v'⟩ := p
    by_cases h : k' = k
    · have h2 : ¬ k' = k2 := fun e => hne (e.symm.trans h)
      subst h
      simp [mapSet, mapGet, h2]
    · by_cases h2 : k' = k2
      · subst h2
        simp [mapSet, mapGet, h]
      · simp [mapSet, mapGet, h, h2, ih]

theorem mapSet_mapSet {β : Type} (m : List (String × β)) (k : String) (v w : β) :
    mapSet (mapSet m k v) k w = mapSet m k w := by
  induction m with
  | nil => simp [mapSet]
  | cons p rest ih =>
    obtain ⟨k', v'⟩ := p
    by_cases h : k' = k
    · simp [mapSet, h]
    · simp [mapSet, h, ih]

/-! ## The loop body on one descriptor -/

theorem enrichNetwork_of_ips (pod : Pod) (vmis : Option UnstructuredList) (m : Object) (v : Value)
    (h : mapGet m "ips" = some v) : enrichNetwork pod vmis (some m) = Except.ok (some m) := by
  simp [enrichNetwork, h]

/-- The list that ends in `ips` for a descriptor that had none. -/
theorem enrichNetwork_of_no_ips (pod : Pod) (vmis : Option UnstructuredList) (m : Object)
    (h : mapGet m "ips" = none) :
    enrichNetwork pod vmis (some m) =
      Except.ok (some (mapSet m "ips" (Value.strings
        (match lookupIp pod vmis m with
         | some ip => [ip]
         | none => [])))) := by
  have hmac : mapGet (mapSet m "ips" (Value.strings [])) "mac" = mapGet m "mac" :=
    mapGet_mapSet_ne m "ips" "mac" _ (by decide)
  have hips : mapGet (mapSet m "ips" (Value.strings [])) "ips" = some (Value.strings []) :=
    mapGet_mapSet_self m "ips" _
  unfold enrichNetwork lookupIp
  simp only [h, hmac, hips]
  cases vmis with
  | none => rfl
  | some items =>
    simp only []
    cases findVmiForPod pod (some items) with
    | none => rfl
    | some foundVMI =>
      simp only []
      cases getMacToIPMappingForVMI foundVMI with
      | none => rfl
      | some addressMapping =>
        simp only []
        cases asString (mapGet m "mac") with
        | none => rfl
        | some networkMac =>
          simp only []
          by_cases hm : networkMac = ""
          · simp [hm]
          · simp only [hm, if_false]
            cases mapGet addressMapping networkMac with
            | none => rfl
            | some vmiIp => simp [mapSet_mapSet]

theorem lookupIp_eq_some_iff (pod : Pod) (vmis : Option UnstructuredList) (m : Object)
    (ip : String) : lookupIp pod vmis m = some ip ↔ Resolves vmis pod m ip := by
  unfold lookupIp Resolves
  constructor
  · intro h
    cases vmis with
    | none => simp at h
    | some items =>
      simp only [] at h
      cases hf : findVmiForPod pod (some items) with
      | none => simp [hf] at h
      | some foundVMI =>
        simp only [hf] at h
        cases hg : getMacToIPMappingForVMI foundVMI with
        | none => simp [hg] at h
        | some addressMapping =>
          simp only [hg] at h
          cases hv : mapGet m "mac" with
          | none => simp [hv, asString] at h
          | some v =>
            cases v with
            | str mac =>
              simp only [hv, asString] at h
              by_cases hm : mac = ""
              · simp [hm] at h
              · simp only [hm, if_false] at h
                exact ⟨items, foundVMI, addressMapping, mac, rfl, rfl, hg, rfl, hm, h⟩
            | _ => simp [hv, asString] at h
  · rintro ⟨items, vmi, mapping, mac, rfl, hf, hg, hv, hm, hl⟩
    simp [hf, hg, hv, asString, hm, hl]

/-! ## The loops -/

theorem forall₂_getElem? {α β : Type} {R : α → β → Prop} {xs : List α} {ys : List β}
    (h : List.Forall₂ R xs ys) (i : Nat) (x : α) (hx : xs[i]? = some x) :
    ∃ y, ys[i]? = some y ∧ R x y := by
  induction h generalizing i with
  | nil => simp at hx
  | cons hr _ ih =>
    cases i with
    | zero =>
      simp only [List.getElem?_cons_zero, Option.some.injEq] at hx
      subst hx
      exact ⟨_, by simp, hr⟩
    | succ n =>
      simp only [List.getElem?_cons_succ] at hx
      simpa using ih n hx

theorem enrichNetworks_ok_iff (pod : Pod) (vmis : Option UnstructuredList)
    (nets nets' : List (Option Object)) :
    enrichNetworks pod vmis nets = Except.ok nets' ↔
      List.Forall₂ (fun n n' => enrichNetwork pod vmis n = Except.ok n') nets nets' := by
  induction nets generalizing nets' with
  | nil =>
    simp only [enrichNetworks, Except.ok.injEq, List.forall₂_nil_left_iff]
    exact eq_comm
  | cons n rest ih =>
    simp only [enrichNetworks, List.forall₂_cons_left_iff]
    cases hn : enrichNetwork pod vmis n with
    | error e => simp
    | ok n' =>
      cases hr : enrichNetworks pod vmis rest with
      | error e =>
        simp only [false_iff, not_exists, not_and, Except.ok.injEq, reduceCtorEq]
        intro b u hb hu
        exact absurd ((ih u).mpr hu) (by simp [hr])
      | ok rest' =>
        simp only [Except.ok.injEq]
        constructor
        · rintro rfl
          exact ⟨n', rest', rfl, (ih rest').mp hr, rfl⟩
        · rintro ⟨b, u, hb, hu, rfl⟩
          have := (ih u).mpr hu
          rw [hr] at this
          simp only [Except.ok.injEq] at this
          subst hb this
          rfl

theorem transformPods_ok_iff (J : JsonLib) (vmis : Option UnstructuredList)
    (pods out : List Pod) :
    transformPods J vmis pods = Except.ok out ↔
      List.Forall₂ (fun p q => transformPod J vmis p = Except.ok q) pods out := by
  induction pods generalizing out with
  | nil =>
    simp only [transformPods, Except.ok.injEq, List.forall₂_nil_left_iff]
    exact eq_comm
  | cons p rest ih =>
    simp only [transformPods, List.forall₂_cons_left_iff]
    cases hn : transformPod J vmis p with
    | error e => simp
    | ok p' =>
      cases hr : transformPods J vmis rest with
      | error e =>
        simp only [false_iff, not_exists, not_and, Except.ok.injEq, reduceCtorEq]
        intro b u hb hu
        exact absurd ((ih u).mpr hu) (by simp [hr])
      | ok rest' =>
        simp only [Except.ok.injEq]
        constructor
        · rintro rfl
          exact ⟨p', rest', rfl, (ih rest').mp hr, rfl⟩
        · rintro ⟨b, u, hb, hu, rfl⟩
          have := (ih u).mpr hu
          rw [hr] at this
          simp only [Except.ok.injEq] at this
          subst hb this
          rfl

/-- In a pass that completes, each pod of the result is what the loop body
makes of the pod at the same index. -/
theorem transformPodList_getElem? (J : JsonLib) (listed : Except String UnstructuredList)
    (podList out : List Pod) (i : Nat) (pod pod' : Pod)
    (hrun : transformPodList J listed podList = Except.ok out)
    (hpod : podList[i]? = some pod)
    (hbody : transformPod J (vmisOf listed) pod = Except.ok pod') :
    out[i]? = some pod' := by
  obtain ⟨q, hq, hr⟩ :=
    forall₂_getElem? ((transformPods_ok_iff J (vmisOf listed) podList out).mp hrun) i pod hpod
  rw [hbody] at hr
  simp only [Except.ok.injEq] at hr
  rw [hq, hr]

theorem transformPodList_singleton (J : JsonLib) (listed : Except String UnstructuredList)
    (pod pod' : Pod) (hbody : transformPod J (vmisOf listed) pod = Except.ok pod') :
    transformPodList J listed [pod] = Except.ok [pod'] := by
  simp [transformPodList, transformPods, hbody]

/-- The loop over descriptors never fails on non-nil maps, and treats each
one on its own. -/
theorem enrichNetworks_objects (pod : Pod) (vmis : Option UnstructuredList) (objs : List Object) :
    ∃ objs' : List Object,
      enrichNetworks pod vmis (objs.map some) = Except.ok (objs'.map some) ∧
      List.Forall₂ (fun m m' => enrichNetwork pod vmis (some m) = Except.ok (some m'))
        objs objs' := by
  induction objs with
  | nil => exact ⟨[], rfl, List.Forall₂.nil⟩
  | cons m rest ih =>
    obtain ⟨rest', hrest, hall⟩ := ih
    cases hi : mapGet m "ips" with
    | some v =>
      have hm := enrichNetwork_of_ips pod vmis m v hi
      refine ⟨m :: rest', ?_, List.Forall₂.cons hm hall⟩
      simp [enrichNetworks, hm, hrest]
    | none =>
      have hm := enrichNetwork_of_no_ips pod vmis m hi
      refine ⟨_ :: rest', ?_, List.Forall₂.cons hm hall⟩
      simp [enrichNetworks, hm, hrest]

/-- The loop body on a pod whose annotation decodes to non-nil maps. -/
theorem transformPod_of_objects (J : JsonLib) (vmis : Option UnstructuredList) (pod : Pod)
    (anns : List (String × String)) (text : String) (objs objs' : List Object)
    (hann : pod.Annotations = some anns) (htext : mapGet anns networkStatusKey = some text)
    (hdec : (J.Unmarshal text).1 = some (objs.map some))
    (hloop : enrichNetworks pod vmis (objs.map some) = Except.ok (objs'.map some)) :
    transformPod J vmis pod = Except.ok (storeNetworks J pod anns (some (objs'.map some))) := by
  simp [transformPod, hann, htext, hdec, rangeNetworks, hloop]

theorem findVmiForPod_no_owner (pod : Pod) (vmis : Option UnstructuredList)
    (h : pod.OwnerReferences = []) : findVmiForPod pod vmis = none := by
  cases vmis with
  | none => rfl
  | some items => simp [findVmiForPod, h, ownerVmiName]

/-! ## Owner resolution, instance matching and the address mapping -/

theorem asString_eq_some (x : Option Value) (s : String) :
    asString x = some s ↔ x = some (Value.str s) := by
  unfold asString
  split <;> simp_all

theorem asMap_eq_some (x : Option Value) (m : Object) :
    asMap x = some m ↔ x = some (Value.map m) := by
  unfold asMap
  split <;> simp_all

theorem ownerVmiName_first (before after : List OwnerReference) (name : String)
    (hbefore : ∀ r ∈ before, r.Kind ≠ "VirtualMachineInstance") :
    ownerVmiName (before ++ ⟨"VirtualMachineInstance", name⟩ :: after) = name := by
  induction before with
  | nil => simp [ownerVmiName]
  | cons r rest ih =>
    have hr : r.Kind ≠ "VirtualMachineInstance" := hbefore r (by simp)
    simp only [List.cons_append, ownerVmiName, hr, if_false]
    exact ih (fun r' hr' => hbefore r' (by simp [hr']))

theorem findVmiLoop_cons_of_named (ns name : String) (vmiObj : Object) (rest : UnstructuredList)
    (h : VmiNamed ns name vmiObj) : findVmiLoop ns name (vmiObj :: rest) = some vmiObj := by
  obtain ⟨md, hmd, hname, hns⟩ := h
  simp [findVmiLoop, hmd, asMap, hname, hns, asString]

theorem findVmiLoop_cons_of_not_named (ns name : String) (vmiObj : Object)
    (rest : UnstructuredList) (h : ¬ VmiNamed ns name vmiObj) :
    findVmiLoop ns name (vmiObj :: rest) = findVmiLoop ns name rest := by
  rw [findVmiLoop]
  cases hmd : asMap (mapGet vmiObj "metadata") with
  | none => rfl
  | some md =>
    simp only []
    cases hname : asString (mapGet md "name") with
    | none => rfl
    | some vmiName =>
      simp only []
      cases hns : asString (mapGet md "namespace") with
      | none => rfl
      | some vmiNamespace =>
        simp only []
        by_cases hc : ns = vmiNamespace ∧ vmiName = name
        · exfalso
          obtain ⟨h1, h2⟩ := hc
          subst h1 h2
          exact h ⟨md, (asMap_eq_some _ _).mp hmd, (asString_eq_some _ _).mp hname,
            (asString_eq_some _ _).mp hns⟩
        · simp only [hc, if_false]

theorem findVmiLoop_first (ns name : String) (earlier later : UnstructuredList) (vmiObj : Object)
    (hvmi : VmiNamed ns name vmiObj) (hearlier : ∀ o ∈ earlier, ¬ VmiNamed ns name o) :
    findVmiLoop ns name (earlier ++ vmiObj :: later) = some vmiObj := by
  induction earlier with
  | nil => exact findVmiLoop_cons_of_named ns name vmiObj later hvmi
  | cons o rest ih =>
    rw [List.cons_append, findVmiLoop_cons_of_not_named ns name o _ (hearlier o (by simp))]
    exact ih (fun o' ho' => hearlier o' (by simp [ho']))

/-- One iteration of the loop of lines 212-229: an entry that reports a pair
is written into the mapping, every other entry is skipped. -/
theorem macLoop_cons (v : Value) (rest : List Value) (mapping : List (String × String)) :
    (∃ mac ip, ReportsPair v mac ip ∧
        macLoop (v :: rest) mapping = macLoop rest (mapSet mapping mac ip)) ∨
      ((∀ mac ip, ¬ ReportsPair v mac ip) ∧ macLoop (v :: rest) mapping = macLoop rest mapping) := by
  cases v with
  | map e =>
    cases hm : asString (mapGet e "mac") with
    | none =>
      right
      refine ⟨?_, by simp [macLoop, asMap, hm]⟩
      rintro mac ip ⟨e', he, hmac, -⟩
      cases he
      simp [hmac, asString] at hm
    | some mac =>
      have hmac := (asString_eq_some _ _).mp hm
      by_cases hmac0 : mac = ""
      · right
        refine ⟨?_, by simp [macLoop, asMap, hm, hmac0]⟩
        rintro mac' ip ⟨e', he, hmac', -, hne, -⟩
        cases he
        rw [hmac] at hmac'
        simp only [Option.some.injEq, Value.str.injEq] at hmac'
        exact hne (hmac' ▸ hmac0)
      · cases hi : asString (mapGet e "ipAddress") with
        | none =>
          right
          refine ⟨?_, by simp [macLoop, asMap, hm, hmac0, hi]⟩
          rintro mac' ip ⟨e', he, -, hip, -⟩
          cases he
          simp [hip, asString] at hi
        | some ip =>
          have hip := (asString_eq_some _ _).mp hi
          by_cases hip0 : ip = ""
          · right
            refine ⟨?_, by simp [macLoop, asMap, hm, hmac0, hi, hip0]⟩
            rintro mac' ip' ⟨e', he, -, hip', -, hne⟩
            cases he
            rw [hip] at hip'
            simp only [Option.some.injEq, Value.str.injEq] at hip'
            exact hne (hip' ▸ hip0)
          · left
            exact ⟨mac, ip, ⟨e, rfl, hmac, hip, hmac0, hip0⟩,
              by simp [macLoop, asMap, hm, hmac0, hi, hip0]⟩
  | null => exact Or.inr ⟨fun _ _ h => (by obtain ⟨e', he, -⟩ := h; cases he), by simp [macLoop, asMap]⟩
  | bool b => exact Or.inr ⟨fun _ _ h => (by obtain ⟨e', he, -⟩ := h; cases he), by simp [macLoop, asMap]⟩
  | number l => exact Or.inr ⟨fun _ _ h => (by obtain ⟨e', he, -⟩ := h; cases he), by simp [macLoop, asMap]⟩
  | str s => exact Or.inr ⟨fun _ _ h => (by obtain ⟨e', he, -⟩ := h; cases he), by simp [macLoop, asMap]⟩
  | slice xs => exact Or.inr ⟨fun _ _ h => (by obtain ⟨e', he, -⟩ := h; cases he), by simp [macLoop, asMap]⟩
  | strings xs => exact Or.inr ⟨fun _ _ h => (by obtain ⟨e', he, -⟩ := h; cases he), by simp [macLoop, asMap]⟩

theorem ReportsPair_unique (v : Value) (mac mac' ip ip' : String)
    (h : ReportsPair v mac ip) (h' : ReportsPair v mac' ip') : mac' = mac ∧ ip' = ip := by
  obtain ⟨e, he, hm, hi, -⟩ := h
  obtain ⟨e', he', hm', hi', -⟩ := h'
  subst he
  cases he'
  rw [hm] at hm'
  rw [hi] at hi'
  simp only [Option.some.injEq, Value.str.injEq] at hm' hi'
  exact ⟨hm'.symm, hi'.symm⟩

theorem macLoop_append (xs ys : List Value) (mapping : List (String × String)) :
    macLoop (xs ++ ys) mapping = macLoop ys (macLoop xs mapping) := by
  induction xs generalizing mapping with
  | nil => simp [macLoop]
  | cons v rest ih =>
    rcases macLoop_cons v (rest ++ ys) mapping with ⟨mac, ip, hp, h⟩ | ⟨hn, h⟩
    · rcases macLoop_cons v rest mapping with ⟨mac', ip', hp', h'⟩ | ⟨hn', -⟩
      · obtain ⟨rfl, rfl⟩ := ReportsPair_unique v mac mac' ip ip' hp hp'
        rw [List.cons_append, h, h', ih]
      · exact absurd hp (hn' mac ip)
    · rcases macLoop_cons v rest mapping with ⟨mac', ip', hp', -⟩ | ⟨-, h'⟩
      · exact absurd hp' (hn mac' ip')
      · rw [List.cons_append, h, h', ih]

/-- A binding of `mac` survives the rest of the loop when no later entry
reports another address for `mac`. -/
theorem macLoop_keeps (later : List Value) (mapping : List (String × String)) (mac ip : String)
    (hlater : ∀ v ∈ later, ∀ ip', ReportsPair v mac ip' → ip' = ip)
    (hcur : mapGet mapping mac = some ip) : mapGet (macLoop later mapping) mac = some ip := by
  induction later generalizing mapping with
  | nil => simpa [macLoop] using hcur
  | cons v rest ih =>
    have hrest : ∀ v' ∈ rest, ∀ ip', ReportsPair v' mac ip' → ip' = ip :=
      fun v' hv' => hlater v' (by simp [hv'])
    rcases macLoop_cons v rest mapping with ⟨mac', ip', hp, h⟩ | ⟨-, h⟩
    · rw [h]
      apply ih _ hrest
      by_cases hm : mac' = mac
      · subst hm
        rw [hlater v (by simp) ip' hp]
        exact mapGet_mapSet_self mapping mac' ip
      · rw [mapGet_mapSet_ne mapping mac' mac ip' (fun e => hm e.symm)]
        exact hcur
    · rw [h]
      exact ih _ hrest hcur

/-- Last write wins: the mapping sends `mac` to the address of an entry that
reports `mac`, when no later entry reports another address for it. -/
theorem getMacToIPMappingForVMI_of_pair (vmi status : Object) (before after : List Value)
    (entry : Value) (mac ip : String)
    (hstatus : mapGet vmi "status" = some (Value.map status))
    (hifs : mapGet status "interfaces" = some (Value.slice (before ++ entry :: after)))
    (hentry : ReportsPair entry mac ip)
    (hafter : ∀ v ∈ after, ∀ ip', ReportsPair v mac ip' → ip' = ip) :
    ∃ mapping, getMacToIPMappingForVMI vmi = some mapping ∧ mapGet mapping mac = some ip := by
  refine ⟨macLoop (before ++ entry :: after) [],
    by simp [getMacToIPMappingForVMI, hstatus, asMap, hifs, asSlice], ?_⟩
  rw [macLoop_append]
  rcases macLoop_cons entry after (macLoop before []) with ⟨mac', ip', hp, h⟩ | ⟨hn, -⟩
  · obtain ⟨rfl, rfl⟩ := ReportsPair_unique entry mac mac' ip ip' hentry hp
    rw [h]
    exact macLoop_keeps after _ mac' ip' hafter (mapGet_mapSet_self _ _ _)
  · exact absurd hentry (hn mac ip)

theorem eq_singleton_of_getElem? {α : Type} (xs : List α) (x : α)
    (hlen : xs.length = 1) (h0 : xs[0]? = some x) : xs = [x] := by
  match xs, hlen, h0 with
  | [y], _, h0 =>
    simp only [List.getElem?_cons_zero, Option.some.injEq] at h0
    rw [h0]

theorem mapGet_eq_none_of_keys {β : Type} (m : List (String × β)) (k : String)
    (h : ∀ p ∈ m, p.1 ≠ k) : mapGet m k = none := by
  induction m with
  | nil => rfl
  | cons p rest ih =>
    obtain ⟨k', v'⟩ := p
    have hk : k' ≠ k := h (k', v') (by simp)
    simp only [mapGet, hk, if_false]
    exact ih (fun q hq => h q (by simp [hq]))

/-- What a completed loop body made of a pod whose annotation was decoded. -/
theorem transformPod_of_decoded (J : JsonLib) (vmis : Option UnstructuredList) (pod q : Pod)
    (anns : List (String × String)) (text : String) (nets : List (Option Object))
    (hann : pod.Annotations = some anns) (htext : mapGet anns networkStatusKey = some text)
    (hdec : (J.Unmarshal text).1 = some nets)
    (h : transformPod J vmis pod = Except.ok q) :
    ∃ nets', enrichNetworks pod vmis nets = Except.ok nets' ∧
      q = storeNetworks J pod anns (some nets') := by
  simp only [transformPod, hann, htext, hdec, rangeNetworks] at h
  cases hloop : enrichNetworks pod vmis nets with
  | error e => simp [hloop] at h
  | ok nets' =>
    simp only [hloop, Except.ok.injEq] at h
    exact ⟨nets', rfl, h.symm⟩

/-- The owning instance and its mapping, found as the second claim describes
them. -/
theorem lookupIp_of_owner (pod : Pod) (name : String) (before after : List OwnerReference)
    (earlier later : UnstructuredList) (vmi status : Object)
    (ifsBefore ifsAfter : List Value) (entry : Value) (mac ip : String) (d : Object)
    (hown : pod.OwnerReferences = before ++ ⟨"VirtualMachineInstance", name⟩ :: after)
    (hfirst : ∀ r ∈ before, r.Kind ≠ "VirtualMachineInstance")
    (hname : name ≠ "")
    (hvmi : VmiNamed pod.Namespace name vmi)
    (hearlier : ∀ o ∈ earlier, ¬ VmiNamed pod.Namespace name o)
    (hstatus : mapGet vmi "status" = some (Value.map status))
    (hifs : mapGet status "interfaces" = some (Value.slice (ifsBefore ++ entry :: ifsAfter)))
    (hentry : ReportsPair entry mac ip)
    (hafter : ∀ v ∈ ifsAfter, ∀ ip', ReportsPair v mac ip' → ip' = ip)
    (hmac : mapGet d "mac" = some (Value.str mac)) :
    lookupIp pod (some (earlier ++ vmi :: later)) d = some ip := by
  obtain ⟨mapping, hmap, hget⟩ :=
    getMacToIPMappingForVMI_of_pair vmi status ifsBefore ifsAfter entry mac ip
      hstatus hifs hentry hafter
  have hmac0 : mac ≠ "" := by
    obtain ⟨_, _, _, _, h, _⟩ := hentry
    exact h
  have hfind : findVmiForPod pod (some (earlier ++ vmi :: later)) = some vmi := by
    simp only [findVmiForPod, hown, ownerVmiName_first before after name hfirst, hname, if_false]
    exact findVmiLoop_first pod.Namespace name earlier later vmi hvmi hearlier
  exact (lookupIp_eq_some_iff pod _ d ip).mpr
    ⟨_, vmi, mapping, mac, rfl, hfind, hmap, hmac, hmac0, hget⟩

theorem enrichNetwork_other_fields (pod : Pod) (vmis : Option UnstructuredList)
    (m m' : Object) (h : enrichNetwork pod vmis (some m) = Except.ok (some m'))
    (k : String) (hk : k ≠ "ips") : mapGet m' k = mapGet m k := by
  cases hi : mapGet m "ips" with
  | some v =>
    rw [enrichNetwork_of_ips pod vmis m v hi] at h
    simp only [Except.ok.injEq, Option.some.injEq] at h
    rw [h]
  | none =>
    rw [enrichNetwork_of_no_ips pod vmis m hi] at h
    simp only [Except.ok.injEq, Option.some.injEq] at h
    rw [← h]
    exact mapGet_mapSet_ne m "ips" k _ hk

theorem transformPod_of_no_key (J : JsonLib) (vmis : Option UnstructuredList) (pod : Pod)
    (hno : ∀ anns, pod.Annotations = some anns → mapGet anns networkStatusKey = none) :
    transformPod J vmis pod = Except.ok pod := by
  unfold transformPod
  cases ha : pod.Annotations with
  | none => rfl
  | some anns => simp [hno anns ha]

/-! ## The model of encoding/json reads back what it writes -/

namespace Json

theorem hexVal_hexDigit : ∀ k, k < 16 → hexVal (hexDigit k) = some k := by
  decide

theorem getu4_hex (a b c d : Nat) (ha : a < 16) (hb : b < 16) (hc : c < 16) (hd : d < 16)
    (tail : List Char) :
    getu4 (hexDigit a :: hexDigit b :: hexDigit c :: hexDigit d :: tail) =
      some (((a * 16 + b) * 16 + c) * 16 + d, tail) := by
  simp [getu4, hexVal_hexDigit, ha, hb, hc, hd]

theorem parseString_unicode (n : Nat) (hn : n < 0xD800) (f : Nat) (tail acc : List Char)
    (a b c d : Nat) (ha : a < 16) (hb : b < 16) (hc : c < 16) (hd : d < 16)
    (hval : ((a * 16 + b) * 16 + c) * 16 + d = n) :
    parseString (f + 1)
        (backslash :: 'u' :: hexDigit a :: hexDigit b :: hexDigit c :: hexDigit d :: tail) acc =
      parseString f tail (Char.ofNat n :: acc) := by
  have h1 : ¬ backslash = quote := by decide
  have h2 : ¬ (0xD800 ≤ n ∧ n < 0xE000) := by omega
  simp only [parseString, h1, if_false, if_true, getu4_hex a b c d ha hb hc hd, hval, h2]

theorem parseString_simple (e d : Char) (he : simpleEscape e = some d) (hu : e ≠ 'u')
    (f : Nat) (tail acc : List Char) :
    parseString (f + 1) (backslash :: e :: tail) acc = parseString f tail (d :: acc) := by
  have h1 : ¬ backslash = quote := by decide
  simp only [parseString, h1, if_false, if_true, hu, he]

theorem parseString_escapeChar (c : Char) (f : Nat) (tail acc : List Char) :
    parseString (f + 1) (escapeChar c ++ tail) acc = parseString f tail (c :: acc) := by
  unfold escapeChar
  split
  · rename_i h
    rcases h with rfl | rfl
    · exact parseString_simple _ _ (by decide) (by decide) f tail acc
    · exact parseString_simple _ _ (by decide) (by decide) f tail acc
  split
  · rename_i h
    subst h
    exact parseString_simple 'b' _ (by decide) (by decide) f tail acc
  split
  · rename_i h
    subst h
    exact parseString_simple 'f' _ (by decide) (by decide) f tail acc
  split
  · rename_i h
    subst h
    exact parseString_simple 'n' _ (by decide) (by decide) f tail acc
  split
  · rename_i h
    subst h
    exact parseString_simple 'r' _ (by decide) (by decide) f tail acc
  split
  · rename_i h
    subst h
    exact parseString_simple 't' _ (by decide) (by decide) f tail acc
  split
  · rename_i h
    have hlt : c.toNat < 64 := by
      rcases h with h | rfl | rfl | rfl
      · omega
      · decide
      · decide
      · decide
    have := parseString_unicode c.toNat (by omega) f tail acc 0 0 (c.toNat / 16) (c.toNat % 16)
      (by omega) (by omega) (by omega) (by omega) (by omega)
    rw [Char.ofNat_toNat] at this
    exact this
  split
  · rename_i h
    have := parseString_unicode c.toNat (by omega) f tail acc 2 0 2 8
      (by omega) (by omega) (by omega) (by omega) (by omega)
    rw [Char.ofNat_toNat] at this
    exact this
  split
  · rename_i h
    have := parseString_unicode c.toNat (by omega) f tail acc 2 0 2 9
      (by omega) (by omega) (by omega) (by omega) (by omega)
    rw [Char.ofNat_toNat] at this
    exact this
  · rename_i h1 h2 h3 h4 h5 h6 h7 h8 h9
    have hq : ¬ c = quote := fun h => h1 (Or.inl h)
    have hb : ¬ c = backslash := fun h => h1 (Or.inr h)
    have hc : ¬ c.toNat < 32 := fun h => h7 (Or.inl h)
    show parseString (f + 1) (c :: tail) acc = _
    simp only [parseString, hq, hb, hc, if_false]

theorem escapeChar_length_pos (c : Char) : 0 < (escapeChar c).length := by
  unfold escapeChar
  repeat' split
  all_goals simp

theorem parseString_escaped (cs : List Char) (fuel : Nat) (acc rest : List Char)
    (hfuel : (cs.flatMap escapeChar).length + 1 ≤ fuel) :
    parseString fuel (cs.flatMap escapeChar ++ quote :: rest) acc =
      some (String.mk (acc.reverse ++ cs), rest) := by
  induction cs generalizing fuel acc with
  | nil =>
    obtain ⟨f, rfl⟩ : ∃ f, fuel = f + 1 := ⟨fuel - 1, by simp at hfuel; omega⟩
    simp [parseString]
  | cons c cs ih =>
    obtain ⟨f, rfl⟩ : ∃ f, fuel = f + 1 := ⟨fuel - 1, by omega⟩
    have hpos := escapeChar_length_pos c
    simp only [List.flatMap_cons, List.append_assoc, List.length_append] at hfuel ⊢
    rw [parseString_escapeChar, ih f (c :: acc) (by omega)]
    simp

/-- A written string literal is read back as the string. -/
theorem parseString_writeString (s : String) (rest : List Char) (fuel : Nat)
    (hfuel : (writeString s).length ≤ fuel + 1) :
    ∃ tail, writeString s ++ rest = quote :: tail ∧
      parseString fuel tail [] = some (s, rest) := by
  refine ⟨s.toList.flatMap escapeChar ++ quote :: rest, by simp [writeString], ?_⟩
  have := parseString_escaped s.toList fuel [] rest (by
    simp only [writeString, List.length_cons, List.length_append, List.length_singleton,
      List.length_nil] at hfuel
    omega)
  simpa using this

/-! Numbers -/

theorem NoHead_append_of_ne_nil (p : Char → Bool) (xs ys : List Char) (h : xs ≠ [])
    (hx : NoHead p xs) : NoHead p (xs ++ ys) := by
  cases xs with
  | nil => exact absurd rfl h
  | cons c r => exact hx

theorem spanDigits_append_eq (cs : List Char) :
    (spanDigits cs).1 ++ (spanDigits cs).2 = cs := by
  induction cs with
  | nil => rfl
  | cons c r ih =>
    by_cases h : isDigit c = true
    · simp [spanDigits, h, ih]
    · simp [spanDigits, h]

theorem spanDigits_digits (cs : List Char) : ∀ d ∈ (spanDigits cs).1, isDigit d = true := by
  induction cs with
  | nil => simp [spanDigits]
  | cons c r ih =>
    by_cases h : isDigit c = true
    · intro d hd
      simp only [spanDigits, h, if_true, List.cons_eq_cons, List.mem_cons] at hd
      rcases hd with rfl | hd
      · exact h
      · exact ih d hd
    · simp [spanDigits, h]

theorem spanDigits_rest (cs : List Char) : NoHead isDigit (spanDigits cs).2 := by
  induction cs with
  | nil => simp [spanDigits, NoHead]
  | cons c r ih =>
    by_cases h : isDigit c = true
    · simpa [spanDigits, h] using ih
    · simp [spanDigits, h, NoHead]

theorem spanDigits_append (ds rest : List Char) (hds : ∀ d ∈ ds, isDigit d = true)
    (hrest : NoHead isDigit rest) : spanDigits (ds ++ rest) = (ds, rest) := by
  induction ds with
  | nil =>
    cases rest with
    | nil => rfl
    | cons c r =>
      have hc : isDigit c = false := hrest
      simp [spanDigits, hc]
  | cons d r ih =>
    have hd : isDigit d = true := hds d (by simp)
    have := ih (fun x hx => hds x (by simp [hx]))
    simp [spanDigits, hd, this]

theorem Delim.noHead (p : Char → Bool) (hp : p ',' = false ∧ p ']' = false ∧ p rbrace = false)
    (rest : List Char) (h : Delim rest) : NoHead p rest := by
  cases rest with
  | nil => trivial
  | cons c r =>
    rcases h with rfl | rfl | rfl
    · exact hp.1
    · exact hp.2.1
    · exact hp.2.2

theorem takeSign_stable (cs : List Char) :
    ((takeSign cs).1 = [] ∨ (takeSign cs).1 = ['-']) ∧
    (takeSign cs).1 ++ (takeSign cs).2 = cs ∧
    ∀ rest, ((takeSign cs).1 = [] → NoHead (fun c => decide (c = '-')) rest) →
      takeSign ((takeSign cs).1 ++ rest) = ((takeSign cs).1, rest) := by
  unfold takeSign
  split
  · refine ⟨Or.inr rfl, rfl, fun rest _ => rfl⟩
  · rename_i hne
    refine ⟨Or.inl rfl, rfl, fun rest h => ?_⟩
    cases rest with
    | nil => rfl
    | cons c r =>
      have hc : decide (c = '-') = false := h rfl
      have hc' : c ≠ '-' := by simpa using hc
      simp only [List.nil_append]
      split
      · rename_i heq
        simp only [List.cons.injEq] at heq
        exact absurd heq.1.symm (fun e => hc' e.symm)
      · rfl

theorem takeInt_stable (cs i r : List Char) (h : takeInt cs = some (i, r)) :
    i ≠ [] ∧ (∀ d ∈ i, isDigit d = true) ∧ i ++ r = cs ∧
    ∀ rest, NoHead isDigit rest → takeInt (i ++ rest) = some (i, rest) := by
  unfold takeInt at h
  split at h
  · exact absurd h (by simp)
  · rename_i hc
    simp only [Option.some.injEq] at h
    have hi : (spanDigits cs).1 = i := congrArg Prod.fst h
    have hr : (spanDigits cs).2 = r := congrArg Prod.snd h
    have hd : ∀ d ∈ i, isDigit d = true := hi ▸ spanDigits_digits cs
    refine ⟨fun e => hc (Or.inl (hi.trans e)), hd, ?_, ?_⟩
    · rw [← hi, ← hr]
      exact spanDigits_append_eq cs
    · intro rest hrest
      unfold takeInt
      rw [spanDigits_append i rest hd hrest]
      rw [hi] at hc
      simp only [hc, if_false]

theorem takeFrac_stable (cs fr r : List Char) (h : takeFrac cs = some (fr, r)) :
    NoHead isDigit fr ∧ fr ++ r = cs ∧ (fr = [] → NoHead (fun c => decide (c = '.')) cs) ∧
    ∀ rest, NoHead isDigit rest → (fr = [] → NoHead (fun c => decide (c = '.')) rest) →
      takeFrac (fr ++ rest) = some (fr, rest) := by
  unfold takeFrac at h
  split at h
  · rename_i r0
    split at h
    · exact absurd h (by simp)
    · rename_i hne
      simp only [Option.some.injEq, Prod.mk.injEq] at h
      obtain ⟨rfl, rfl⟩ := h
      refine ⟨by simp [NoHead, isDigit], ?_, by simp, ?_⟩
      · simp [spanDigits_append_eq]
      · intro rest hrest _
        simp only [List.cons_append, takeFrac]
        rw [spanDigits_append _ rest (spanDigits_digits r0) hrest]
        simp only [hne, if_false]
  · rename_i hne
    simp only [Option.some.injEq, Prod.mk.injEq] at h
    obtain ⟨rfl, rfl⟩ := h
    refine ⟨trivial, rfl, fun _ => ?_, fun rest _ hdot => ?_⟩
    · cases cs with
      | nil => trivial
      | cons c t =>
        simp only [NoHead, decide_eq_false_iff_not]
        intro hc
        exact hne t (by rw [hc])
    · have hd := hdot rfl
      cases rest with
      | nil => rfl
      | cons c t =>
        have hc : c ≠ '.' := by simpa [NoHead] using hd
        simp only [List.nil_append]
        unfold takeFrac
        split
        · rename_i heq
          simp only [List.cons.injEq] at heq
          exact absurd heq.1 hc
        · rfl

theorem NoHead_append (p : Char → Bool) (xs ys : List Char) (hx : NoHead p xs)
    (hy : NoHead p ys) : NoHead p (xs ++ ys) := by
  cases xs with
  | nil => exact hy
  | cons c r => exact hx

theorem NoHead_of_digits (p : Char → Bool) (hp : ∀ c, isDigit c = true → p c = false)
    (ds : List Char) (hd : ∀ d ∈ ds, isDigit d = true) : NoHead p ds := by
  cases ds with
  | nil => trivial
  | cons c r => exact hp c (hd c (by simp))

theorem takeExpSign_stable (cs : List Char) :
    (takeExpSign cs).1 ++ (takeExpSign cs).2 = cs ∧
    ∀ rest, ((takeExpSign cs).1 = [] →
        NoHead (fun c => decide (c = '+' ∨ c = '-')) rest) →
      takeExpSign ((takeExpSign cs).1 ++ rest) = ((takeExpSign cs).1, rest) := by
  unfold takeExpSign
  split
  · exact ⟨rfl, fun rest _ => rfl⟩
  · exact ⟨rfl, fun rest _ => rfl⟩
  · rename_i hp hm
    refine ⟨rfl, fun rest h => ?_⟩
    cases rest with
    | nil => rfl
    | cons c r =>
      have hc : ¬ (c = '+' ∨ c = '-') := by simpa [NoHead] using h rfl
      simp only [List.nil_append]
      split
      · rename_i heq
        simp only [List.cons.injEq] at heq
        exact absurd (Or.inl heq.1) hc
      · rename_i heq
        simp only [List.cons.injEq] at heq
        exact absurd (Or.inr heq.1) hc
      · rfl

theorem takeExp_nil_stable (rest : List Char)
    (h : NoHead (fun c => decide (c = 'e' ∨ c = 'E')) rest) :
    takeExp rest = some ([], rest) := by
  cases rest with
  | nil => rfl
  | cons c t =>
    have hc : ¬ (c = 'e' ∨ c = 'E') := by simpa [NoHead] using h
    simp only [takeExp, hc, if_false]

theorem takeExp_stable (cs ex r : List Char) (h : takeExp cs = some (ex, r)) :
    NoHead isDigit ex ∧ NoHead (fun c => decide (c = '.')) ex ∧ ex ++ r = cs ∧
    ∀ rest, NoHead isDigit rest →
      (ex = [] → NoHead (fun c => decide (c = 'e' ∨ c = 'E')) rest) →
      takeExp (ex ++ rest) = some (ex, rest) := by
  cases cs with
  | nil =>
    simp only [takeExp, Option.some.injEq, Prod.mk.injEq] at h
    obtain ⟨rfl, rfl⟩ := h
    exact ⟨trivial, trivial, rfl, fun rest _ he => takeExp_nil_stable rest (he rfl)⟩
  | cons e r0 =>
    by_cases he : e = 'e' ∨ e = 'E'
    · simp only [takeExp, he, if_true] at h
      split at h
      · exact absurd h (by simp)
      · rename_i hne
        simp only [Option.some.injEq, Prod.mk.injEq] at h
        obtain ⟨rfl, rfl⟩ := h
        have hsign := takeExpSign_stable r0
        refine ⟨?_, ?_, ?_, ?_⟩
        · rcases he with rfl | rfl <;> simp [NoHead, isDigit]
        · rcases he with rfl | rfl <;> simp [NoHead]
        · simp only [List.cons_append, List.append_assoc, spanDigits_append_eq, hsign.1]
        · intro rest hrest _
          have hds := spanDigits_digits (takeExpSign r0).2
          have hhead : NoHead (fun c => decide (c = '+' ∨ c = '-'))
              ((spanDigits (takeExpSign r0).2).1 ++ rest) := by
            apply NoHead_append_of_ne_nil _ _ _ hne
            apply NoHead_of_digits _ _ _ hds
            intro c hc
            simp only [decide_eq_false_iff_not, not_or]
            constructor <;> (rintro rfl; simp [isDigit] at hc)
          simp only [List.cons_append, List.append_assoc, takeExp, he, if_true]
          rw [hsign.2 _ (fun _ => hhead)]
          simp only [spanDigits_append _ rest hds hrest, hne, if_false]
    · simp only [takeExp, he, if_false, Option.some.injEq, Prod.mk.injEq] at h
      obtain ⟨rfl, rfl⟩ := h
      exact ⟨trivial, trivial, rfl, fun rest _ hx => takeExp_nil_stable rest (hx rfl)⟩

theorem parseNumber_valid (cs lit r : List Char) (h : parseNumber cs = some (lit, r)) :
    ValidNumber lit := by
  unfold parseNumber at h
  cases hi : takeInt (takeSign cs).2 with
  | none => simp [hi] at h
  | some pi =>
    obtain ⟨i, r1⟩ := pi
    simp only [hi] at h
    cases hf : takeFrac r1 with
    | none => simp [hf] at h
    | some pf =>
      obtain ⟨fr, r2⟩ := pf
      simp only [hf] at h
      cases hx : takeExp r2 with
      | none => simp [hx] at h
      | some px =>
        obtain ⟨ex, r3⟩ := px
        simp only [hx, Option.some.injEq, Prod.mk.injEq] at h
        obtain ⟨hlit, -⟩ := h
        obtain ⟨hs1, -, hs3⟩ := takeSign_stable cs
        obtain ⟨hi1, hi2, -, hi4⟩ := takeInt_stable _ i r1 hi
        obtain ⟨hf1, -, -, hf4⟩ := takeFrac_stable r1 fr r2 hf
        obtain ⟨hx1, hx2, -, hx4⟩ := takeExp_stable r2 ex r3 hx
        subst hlit
        constructor
        · obtain ⟨d, t, rfl⟩ : ∃ d t, i = d :: t := by
            cases i with
            | nil => exact absurd rfl hi1
            | cons d t => exact ⟨d, t, rfl⟩
          rcases hs1 with hs | hs
          · exact ⟨d, t ++ fr ++ ex, by simp [hs], Or.inr (hi2 d (by simp))⟩
          · exact ⟨'-', d :: t ++ fr ++ ex, by simp [hs], Or.inl rfl⟩
        · intro rest hrest
          have hdig : NoHead isDigit rest := Delim.noHead _ (by decide) rest hrest
          have hdot : NoHead (fun c => decide (c = '.')) rest :=
            Delim.noHead _ (by decide) rest hrest
          have hee : NoHead (fun c => decide (c = 'e' ∨ c = 'E')) rest :=
            Delim.noHead _ (by decide) rest hrest
          have hminus : NoHead (fun c => decide (c = '-')) (i ++ (fr ++ (ex ++ rest))) := by
            apply NoHead_append_of_ne_nil _ _ _ hi1
            apply NoHead_of_digits _ _ _ hi2
            intro c hc
            simp only [decide_eq_false_iff_not]
            rintro rfl
            simp [isDigit] at hc
          have e1 : takeSign ((takeSign cs).1 ++ (i ++ (fr ++ (ex ++ rest)))) =
              ((takeSign cs).1, i ++ (fr ++ (ex ++ rest))) := hs3 _ (fun _ => hminus)
          have e2 : takeInt (i ++ (fr ++ (ex ++ rest))) = some (i, fr ++ (ex ++ rest)) :=
            hi4 _ (NoHead_append _ _ _ hf1 (NoHead_append _ _ _ hx1 hdig))
          have e3 : takeFrac (fr ++ (ex ++ rest)) = some (fr, ex ++ rest) :=
            hf4 _ (NoHead_append _ _ _ hx1 hdig) (fun _ => NoHead_append _ _ _ hx2 hdot)
          have e4 : takeExp (ex ++ rest) = some (ex, rest) := hx4 _ hdig (fun _ => hee)
          unfold parseNumber
          simp only [List.append_assoc, e1, e2, e3, e4]

/-- The literal that the scanner returns and the input it leaves make up the
input. -/
theorem parseNumber_append (cs lit r : List Char) (h : parseNumber cs = some (lit, r)) :
    lit ++ r = cs := by
  unfold parseNumber at h
  cases hi : takeInt (takeSign cs).2 with
  | none => simp [hi] at h
  | some pi =>
    obtain ⟨i, r1⟩ := pi
    simp only [hi] at h
    cases hf : takeFrac r1 with
    | none => simp [hf] at h
    | some pf =>
      obtain ⟨fr, r2⟩ := pf
      simp only [hf] at h
      cases hx : takeExp r2 with
      | none => simp [hx] at h
      | some px =>
        obtain ⟨ex, r3⟩ := px
        simp only [hx, Option.some.injEq, Prod.mk.injEq] at h
        obtain ⟨hlit, hr⟩ := h
        obtain ⟨-, hs2, -⟩ := takeSign_stable cs
        obtain ⟨-, -, hi3, -⟩ := takeInt_stable _ i r1 hi
        obtain ⟨-, hf2, -, -⟩ := takeFrac_stable r1 fr r2 hf
        obtain ⟨-, -, hx3, -⟩ := takeExp_stable r2 ex r3 hx
        rw [← hlit, ← hr, List.append_assoc, List.append_assoc, List.append_assoc, hx3, hf2, hi3,
          hs2]

/-- A text that reads as a `float64` is a number literal. -/
theorem validNumber_of_readFloat (t : List Char) (f : Float64) (h : readFloat t = some f) :
    ValidNumber t := by
  unfold readFloat at h
  split at h
  · rename_i lit hnum
    have hlit := parseNumber_append t lit [] hnum
    rw [List.append_nil] at hlit
    rw [← hlit]
    exact parseNumber_valid t lit [] hnum
  · exact absurd h (by simp)

theorem withNat_eq {α : Type} (n : Nat) (k : Nat → α) : withNat n k = k n := by
  cases n <;> rfl

theorem withInt_eq {α : Type} (i : Int) (k : Int → α) : withInt i k = k i := by
  cases i <;> simp [withInt, withNat_eq]

theorem withBool_eq {α : Type} (b : Bool) (k : Bool → α) : withBool b k = k b := by
  cases b <;> rfl

theorem checked_reads (f : Float64) (t u : List Char) (h : checked f t = some u) :
    readFloat u = some f := by
  unfold checked at h
  split at h
  · rename_i hr
    simp only [Option.some.injEq] at h
    rw [← h]
    exact hr
  · exact absurd h (by simp)

theorem choose_reads (f : Float64) (lo hi t : List Char) (preferLo : Bool)
    (h : choose f lo hi preferLo = some t) : readFloat t = some f := by
  unfold choose at h
  split at h
  · rename_i a b ha hb
    split at h
    · simp only [Option.some.injEq] at h
      rw [← h]
      exact checked_reads f lo a ha
    · simp only [Option.some.injEq] at h
      rw [← h]
      exact checked_reads f hi b hb
  · rename_i a ha _
    simp only [Option.some.injEq] at h
    rw [← h]
    exact checked_reads f lo a ha
  · rename_i b _ hb
    simp only [Option.some.injEq] at h
    rw [← h]
    exact checked_reads f hi b hb
  · exact absurd h (by simp)

theorem firstCandidate_reads (f : Float64) (neg : Bool) (num den : Nat) (k : Int)
    (useE : Bool) : ∀ (fuel n : Nat) (t : List Char),
      firstCandidate f neg num den k useE fuel n = some t → readFloat t = some f := by
  intro fuel
  induction fuel with
  | zero => intro n t h; simp [firstCandidate] at h
  | succ fuel ih =>
    intro n t h
    simp only [firstCandidate] at h
    split at h
    · rename_i t1 hc
      simp only [Option.some.injEq] at h
      subst h
      simp only [candidate, withInt_eq, withNat_eq, withBool_eq] at hc
      exact choose_reads f _ _ _ _ hc
    · exact ih _ _ h

/-- The text found for a finite `float64` reads back as that `float64`. -/
theorem shortest_reads (f : Float64) (t : List Char) (h : shortest f = some t) :
    readFloat t = some f := by
  cases f with
  | inf neg => simp [shortest] at h
  | finite neg m e =>
    simp only [shortest, withInt_eq, withNat_eq, withBool_eq] at h
    split at h
    · exact checked_reads _ _ _ h
    · exact firstCandidate_reads _ _ _ _ _ _ _ _ _ h

/-- The text under which a number literal is stored is `+Inf` or `-Inf`, or
is a number literal that is stored as itself. -/
theorem canonNumber_spec (lit : List Char) (h : ValidNumber lit) :
    (canonNumber lit = "+Inf".toList ∨ canonNumber lit = "-Inf".toList) ∨
    (ValidNumber (canonNumber lit) ∧ canonNumber (canonNumber lit) = canonNumber lit) := by
  cases hr : readFloat lit with
  | none =>
    have hc : canonNumber lit = lit := by simp [canonNumber, hr]
    rw [hc]
    exact Or.inr ⟨h, hc⟩
  | some f =>
    cases f with
    | inf neg =>
      left
      cases neg
      · left; simp [canonNumber, hr, floatText]
      · right; simp [canonNumber, hr, floatText]
    | finite neg m e =>
      right
      cases hs : shortest (Float64.finite neg m e) with
      | none =>
        have hc : canonNumber lit = lit := by simp [canonNumber, hr, floatText, hs]
        rw [hc]
        exact ⟨h, hc⟩
      | some t =>
        have hc : canonNumber lit = t := by simp [canonNumber, hr, floatText, hs]
        have ht := shortest_reads _ t hs
        rw [hc]
        exact ⟨validNumber_of_readFloat t _ ht, by simp [canonNumber, ht, floatText, hs]⟩



/-! Sorting of members -/

theorem keyLt_irrefl (a : List Char) : keyLt a a = false := by
  induction a with
  | nil => rfl
  | cons c r ih => simp [keyLt, ih]

theorem keyLt_total (a b : List Char) (hne : a ≠ b) (h : keyLt a b = false) :
    keyLt b a = true := by
  induction a generalizing b with
  | nil =>
    cases b with
    | nil => exact absurd rfl hne
    | cons d s => simp [keyLt] at h
  | cons c r ih =>
    cases b with
    | nil => simp [keyLt]
    | cons d s =>
      simp only [keyLt, Bool.or_eq_false_iff, decide_eq_false_iff_not, Bool.and_eq_false_imp,
        decide_eq_true_eq] at h
      obtain ⟨h1, h2⟩ := h
      simp only [keyLt, Bool.or_eq_true, decide_eq_true_eq, Bool.and_eq_true]
      by_cases hcd : c.toNat = d.toNat
      · right
        refine ⟨hcd.symm, ih s ?_ (h2 hcd)⟩
        intro hrs
        apply hne
        have : c = d := by
          rw [← Char.ofNat_toNat c, ← Char.ofNat_toNat d, hcd]
        rw [this, hrs]
      · left
        omega

theorem insertMember_perm {β : Type} (p : String × β) (l : List (String × β)) :
    (insertMember p l).Perm (p :: l) := by
  induction l with
  | nil => exact List.Perm.refl _
  | cons q r ih =>
    unfold insertMember
    split
    · exact List.Perm.refl _
    · exact (List.Perm.cons q ih).trans (List.Perm.swap p q r)

theorem sortMembers_perm {β : Type} (l : List (String × β)) : (sortMembers l).Perm l := by
  induction l with
  | nil => exact List.Perm.refl _
  | cons p r ih => exact (insertMember_perm p _).trans (List.Perm.cons p ih)

theorem Sorted.tail {β : Type} (p : String × β) (l : List (String × β))
    (h : Sorted (p :: l)) : Sorted l := by
  cases l with
  | nil => trivial
  | cons q r => exact h.2

theorem sortMembers_of_sorted {β : Type} (l : List (String × β)) (h : Sorted l) :
    sortMembers l = l := by
  induction l with
  | nil => rfl
  | cons p r ih =>
    rw [sortMembers, ih (Sorted.tail p r h)]
    cases r with
    | nil => rfl
    | cons q s =>
      have hlt := h.1
      simp only [insertMember, hlt, if_true]

theorem insertMember_sorted {β : Type} (p : String × β) (l : List (String × β))
    (hl : Sorted l) (hp : ∀ q ∈ l, q.1 ≠ p.1) : Sorted (insertMember p l) := by
  induction l with
  | nil => trivial
  | cons q r ih =>
    unfold insertMember
    by_cases hlt : keyLt p.1.toList q.1.toList = true
    · simp only [hlt, if_true]
      exact ⟨hlt, hl⟩
    · simp only [hlt]
      have hqp : keyLt q.1.toList p.1.toList = true := by
        apply keyLt_total _ _ _ (by simpa using hlt)
        intro he
        exact hp q (by simp) (String.ext he).symm
      have hr := ih (Sorted.tail q r hl) (fun x hx => hp x (by simp [hx]))
      cases r with
      | nil => exact ⟨hqp, trivial⟩
      | cons s t =>
        unfold insertMember at hr ⊢
        by_cases hps : keyLt p.1.toList s.1.toList = true
        · simp only [hps, if_true] at hr ⊢
          exact ⟨hqp, hr⟩
        · simp only [hps] at hr ⊢
          exact ⟨hl.1, hr⟩

theorem sortMembers_sorted {β : Type} (l : List (String × β))
    (h : (l.map Prod.fst).Nodup) : Sorted (sortMembers l) := by
  induction l with
  | nil => trivial
  | cons p r ih =>
    simp only [List.map_cons, List.nodup_cons, List.mem_map, not_exists, not_and] at h
    apply insertMember_sorted p _ (ih h.2)
    intro q hq he
    exact h.1 q ((sortMembers_perm r).mem_iff.mp hq) he

theorem insertMember_map {β γ : Type} (f : β → γ) (p : String × β) (l : List (String × β)) :
    (insertMember p l).map (fun q => (q.1, f q.2)) =
      insertMember (p.1, f p.2) (l.map (fun q => (q.1, f q.2))) := by
  induction l with
  | nil => rfl
  | cons q r ih =>
    by_cases hlt : keyLt p.1.toList q.1.toList = true
    · simp only [insertMember, hlt, if_true, List.map_cons]
    · simp only [insertMember, hlt, Bool.false_eq_true, if_false, List.map_cons, ih]

theorem sortMembers_map {β γ : Type} (f : β → γ) (l : List (String × β)) :
    (sortMembers l).map (fun q => (q.1, f q.2)) = sortMembers (l.map (fun q => (q.1, f q.2))) := by
  induction l with
  | nil => rfl
  | cons p r ih => simp [sortMembers, insertMember_map, ih]

theorem sortMembers_keys_nodup {β : Type} (l : List (String × β))
    (h : (l.map Prod.fst).Nodup) : ((sortMembers l).map Prod.fst).Nodup :=
  (((sortMembers_perm l).map Prod.fst).nodup_iff).mpr h

theorem sortMembers_sortMembers {β : Type} (l : List (String × β))
    (h : (l.map Prod.fst).Nodup) : sortMembers (sortMembers l) = sortMembers l :=
  sortMembers_of_sorted _ (sortMembers_sorted l h)

/-! Reading back a written value -/

theorem rereadValues_eq (xs : List Value) : rereadValues xs = xs.map reread := by
  induction xs with
  | nil => rfl
  | cons v vs ih => simp [rereadValues, ih]

theorem rereadFields_eq (m : List (String × Value)) :
    rereadFields m = m.map (fun p => (p.1, reread p.2)) := by
  induction m with
  | nil => rfl
  | cons p rest ih =>
    obtain ⟨k, v⟩ := p
    simp [rereadFields, ih]

theorem writeValues_eq (xs : List Value) : writeValues xs = xs.map writeValue := by
  induction xs with
  | nil => rfl
  | cons v vs ih => simp [writeValues, ih]

theorem writeFields_eq (m : List (String × Value)) :
    writeFields m = m.map (fun p => (p.1, writeValue p.2)) := by
  induction m with
  | nil => rfl
  | cons p rest ih =>
    obtain ⟨k, v⟩ := p
    simp [writeFields, ih]

theorem skipWs_cons (c : Char) (cs : List Char) (h : isSpace c = false) :
    skipWs (c :: cs) = c :: cs := by
  simp [skipWs, h]

theorem Delim.skipWs (rest : List Char) (h : Delim rest) : skipWs rest = rest := by
  cases rest with
  | nil => rfl
  | cons c r =>
    apply skipWs_cons
    rcases h with rfl | rfl | rfl <;> decide

theorem readsAs_null : ReadsAs Value.null := by
  intro fuel rest hfuel _
  obtain ⟨f, rfl⟩ : ∃ f, fuel = f + 1 := ⟨fuel - 1, by simp [writeValue] at hfuel; omega⟩
  rfl

theorem readsAs_bool (b : Bool) : ReadsAs (Value.bool b) := by
  intro fuel rest hfuel _
  obtain ⟨f, rfl⟩ : ∃ f, fuel = f + 1 := ⟨fuel - 1, by
    cases b <;> simp [writeValue] at hfuel <;> omega⟩
  cases b <;> rfl

theorem parseString_written (s : String) (rest : List Char) :
    parseString (s.toList.flatMap escapeChar ++ quote :: rest).length
        (s.toList.flatMap escapeChar ++ quote :: rest) [] = some (s, rest) := by
  have := parseString_escaped s.toList
    (s.toList.flatMap escapeChar ++ quote :: rest).length [] rest (by simp)
  simpa using this

theorem writeString_append (s : String) (rest : List Char) :
    writeString s ++ rest = quote :: (s.toList.flatMap escapeChar ++ quote :: rest) := by
  simp [writeString]

theorem parseValue_quote (f : Nat) (tail : List Char) :
    parseValue (f + 1) (quote :: tail) =
      match parseString tail.length tail [] with
      | some (s, rest1) => some (Value.str s, rest1)
      | none => none := rfl

theorem readsAs_str (s : String) : ReadsAs (Value.str s) := by
  intro fuel rest hfuel _
  obtain ⟨f, rfl⟩ : ∃ f, fuel = f + 1 := ⟨fuel - 1, by
    simp [writeValue, writeString] at hfuel; omega⟩
  simp only [writeValue, writeString_append, parseValue_quote, parseString_written, reread]

theorem parseValue_number (f : Nat) (c : Char) (t : List Char)
    (hc : c = '-' ∨ isDigit c = true) :
    parseValue (f + 1) (c :: t) =
      match parseNumber (c :: t) with
      | some (lit, rest1) => some (Value.number (String.mk (canonNumber lit)), rest1)
      | none => none := by
  have hs : isSpace c = false := by
    rcases hc with rfl | hc
    · decide
    · simp only [isDigit, Bool.and_eq_true, decide_eq_true_eq] at hc
      simp only [isSpace, Bool.or_eq_false_iff, decide_eq_false_iff_not]
      refine ⟨⟨⟨?_, ?_⟩, ?_⟩, ?_⟩ <;> (rintro rfl; simp at hc)
  have h1 : c ≠ lbrace := by
    rcases hc with rfl | hc
    · decide
    · rintro rfl; simp [isDigit, lbrace] at hc
  have h2 : c ≠ '[' := by
    rcases hc with rfl | hc
    · decide
    · rintro rfl; simp [isDigit] at hc
  have h3 : c ≠ quote := by
    rcases hc with rfl | hc
    · decide
    · rintro rfl; simp [isDigit, quote] at hc
  have h4 : c ≠ 't' := by
    rcases hc with rfl | hc
    · decide
    · rintro rfl; simp [isDigit] at hc
  have h5 : c ≠ 'f' := by
    rcases hc with rfl | hc
    · decide
    · rintro rfl; simp [isDigit] at hc
  have h6 : c ≠ 'n' := by
    rcases hc with rfl | hc
    · decide
    · rintro rfl; simp [isDigit] at hc
  simp only [parseValue, skipWs_cons c t hs, h1, h2, h3, h4, h5, h6, if_false]

theorem readsAs_number (lit : String) (h : ValidNumber lit.toList)
    (hcanon : canonNumber lit.toList = lit.toList) :
    ReadsAs (Value.number lit) := by
  intro fuel rest hfuel hrest
  obtain ⟨⟨c, t, hct, hc⟩, hread⟩ := h
  have hpos : 0 < (writeValue (Value.number lit)).length := by
    simp only [writeValue, hct, List.length_cons]
    omega
  obtain ⟨f, rfl⟩ : ∃ f, fuel = f + 1 := ⟨fuel - 1, by omega⟩
  have h2 := hread rest hrest
  simp only [writeValue]
  rw [hct] at h2 ⊢
  rw [List.cons_append, parseValue_number f c _ hc]
  rw [List.cons_append] at h2
  simp only [h2, reread]
  rw [← hct, hcanon]
  rfl

/-! Arrays -/

theorem commaSep_cons_cons (x y : List Char) (rest : List (List Char)) :
    commaSep (x :: y :: rest) = x ++ ',' :: commaSep (y :: rest) := rfl

theorem parseElems_last (f : Nat) (cs rest : List Char) (acc : List Value) (v : Value)
    (h : parseValue f cs = some (v, ']' :: rest)) :
    parseElems (f + 1) cs acc = some (Value.slice (acc ++ [v]), rest) := by
  simp only [parseElems, h]
  rfl

theorem parseElems_more (f : Nat) (cs rest : List Char) (acc : List Value) (v : Value)
    (h : parseValue f cs = some (v, ',' :: rest)) :
    parseElems (f + 1) cs acc = parseElems f rest (acc ++ [v]) := by
  simp only [parseElems, h]
  rfl

theorem parseElems_written (xs : List Value) (hx : ∀ x ∈ xs, ReadsAs x) (hne : xs ≠ []) :
    ∀ (fuel : Nat) (acc : List Value) (rest : List Char),
      2 * (commaSep (xs.map writeValue)).length + 1 ≤ fuel →
      parseElems fuel (commaSep (xs.map writeValue) ++ ']' :: rest) acc =
        some (Value.slice (acc ++ xs.map reread), rest) := by
  induction xs with
  | nil => exact absurd rfl hne
  | cons x ys ih =>
    intro fuel acc rest hfuel
    obtain ⟨f, rfl⟩ : ∃ f, fuel = f + 1 := ⟨fuel - 1, by omega⟩
    cases ys with
    | nil =>
      simp only [List.map_cons, List.map_nil, commaSep] at hfuel ⊢
      exact parseElems_last f _ rest acc _
        (hx x (by simp) f (']' :: rest) (by omega) (Or.inr (Or.inl rfl)))
    | cons y zs =>
      simp only [List.map_cons, commaSep_cons_cons, List.length_append, List.length_cons,
        List.append_assoc, List.cons_append] at hfuel ⊢
      rw [parseElems_more f _ _ acc _
        (hx x (by simp) f (',' :: _) (by omega) (Or.inl rfl))]
      have := ih (fun v hv => hx v (by simp [hv])) (by simp) f (acc ++ [reread x]) rest
        (by simp only [List.map_cons]; omega)
      simpa using this

theorem parseValue_bracket_nil (f : Nat) (rest : List Char) :
    parseValue (f + 1) ('[' :: ']' :: rest) = some (Value.slice [], rest) := rfl

/-- The written form of a well-formed value starts with a character that is
neither a blank nor a closing bracket. -/
theorem writeValue_head (v : Value) (h : Wf v) :
    ∃ c t, writeValue v = c :: t ∧ isSpace c = false ∧ c ≠ ']' := by
  cases h with
  | null => exact ⟨'n', _, rfl, by decide, by decide⟩
  | bool b => cases b <;> exact ⟨_, _, rfl, by decide, by decide⟩
  | number lit hv =>
    obtain ⟨⟨c, t, hct, hc⟩, -⟩ := hv
    refine ⟨c, t, hct, ?_, ?_⟩
    · rcases hc with rfl | hc
      · decide
      · simp only [isDigit, Bool.and_eq_true, decide_eq_true_eq] at hc
        simp only [isSpace, Bool.or_eq_false_iff, decide_eq_false_iff_not]
        refine ⟨⟨⟨?_, ?_⟩, ?_⟩, ?_⟩ <;> (rintro rfl; simp at hc)
    · rcases hc with rfl | hc
      · decide
      · rintro rfl; simp [isDigit] at hc
  | str s =>
    exact ⟨quote, s.toList.flatMap escapeChar ++ [quote], by simp [writeValue, writeString],
      by decide, by decide⟩
  | slice xs _ =>
    exact ⟨'[', commaSep (writeValues xs) ++ [']'], by simp [writeValue], by decide, by decide⟩
  | map m _ _ =>
    exact ⟨lbrace, commaSep ((sortMembers (writeFields m)).map
        (fun p => writeString p.1 ++ ':' :: p.2)) ++ [rbrace],
      by simp [writeValue, writeMembers], by decide, by decide⟩
  | strings xs =>
    exact ⟨'[', commaSep (xs.map writeString) ++ [']'], by simp [writeValue],
      by decide, by decide⟩

theorem parseValue_bracket (f : Nat) (c : Char) (t : List Char) (hs : isSpace c = false)
    (hc : c ≠ ']') :
    parseValue (f + 1) ('[' :: c :: t) = parseElems f (c :: t) [] := by
  have h1 : ¬ '[' = lbrace := by decide
  simp only [parseValue, skipWs_cons '[' _ (by decide), h1, if_false, if_true,
    skipWs_cons c t hs]
  split
  · rename_i heq
    simp only [List.cons.injEq] at heq
    exact absurd heq.1 hc
  · rfl

/-- A written slice is read back as the slice of the elements read back. -/
theorem readsAs_slice (xs : List Value) (hwf : ∀ x ∈ xs, Wf x) (hx : ∀ x ∈ xs, ReadsAs x) :
    ReadsAs (Value.slice xs) := by
  intro fuel rest hfuel _
  simp only [writeValue, writeValues_eq, List.length_cons, List.length_append,
    List.length_singleton] at hfuel
  obtain ⟨f, rfl⟩ : ∃ f, fuel = f + 1 := ⟨fuel - 1, by omega⟩
  simp only [writeValue, writeValues_eq, reread, rereadValues_eq]
  cases xs with
  | nil => rfl
  | cons x ys =>
    obtain ⟨c, t, hct, hs, hc⟩ := writeValue_head x (hwf x (by simp))
    have hbody : ∃ t', commaSep ((x :: ys).map writeValue) = c :: t' := by
      cases ys with
      | nil => exact ⟨t, by simp [commaSep, hct]⟩
      | cons y zs => exact ⟨_, by simp only [List.map_cons, commaSep_cons_cons, hct]; rfl⟩
    obtain ⟨t', ht'⟩ := hbody
    have hp := parseElems_written (x :: ys) hx (by simp) f [] rest (by omega)
    rw [ht'] at hp
    simp only [List.cons_append, List.append_assoc, List.singleton_append, ht']
    rw [parseValue_bracket f c _ hs hc]
    simpa using hp

theorem readsAs_strings (xs : List String) : ReadsAs (Value.strings xs) := by
  have h := readsAs_slice (xs.map Value.str)
    (by intro x hx; obtain ⟨s, -, rfl⟩ := List.mem_map.mp hx; exact Wf.str s)
    (by intro x hx; obtain ⟨s, -, rfl⟩ := List.mem_map.mp hx; exact readsAs_str s)
  have hw : writeValue (Value.slice (xs.map Value.str)) = writeValue (Value.strings xs) := by
    simp [writeValue, writeValues_eq, Function.comp_def]
  have hr : reread (Value.slice (xs.map Value.str)) = reread (Value.strings xs) := by
    simp [reread, rereadValues_eq, Function.comp_def]
  intro fuel rest hfuel hrest
  rw [← hw, ← hr]
  exact h fuel rest (by rw [hw]; exact hfuel) hrest

/-! Objects -/

theorem mapSet_of_none {β : Type} (m : List (String × β)) (k : String) (v : β)
    (h : mapGet m k = none) : mapSet m k v = m ++ [(k, v)] := by
  induction m with
  | nil => rfl
  | cons p rest ih =>
    obtain ⟨k', v'⟩ := p
    by_cases hk : k' = k
    · simp [mapGet, hk] at h
    · simp only [mapGet, hk, if_false] at h
      simp [mapSet, hk, ih h]

theorem mapGet_append_of_none {β : Type} (m : List (String × β)) (k k2 : String) (v : β)
    (h : mapGet m k2 = none) (hne : k ≠ k2) : mapGet (m ++ [(k, v)]) k2 = none := by
  induction m with
  | nil => simp [mapGet, hne]
  | cons p rest ih =>
    obtain ⟨k', v'⟩ := p
    by_cases hk : k' = k2
    · simp [mapGet, hk] at h
    · simp only [mapGet, hk, if_false] at h
      simp [mapGet, hk, ih h]

theorem parseMembers_step (f : Nat) (k : String) (tail : List Char) (acc : Object) :
    parseMembers (f + 1) (writeString k ++ ':' :: tail) acc =
      match parseValue f tail with
      | none => none
      | some (v, rest3) =>
        match skipWs rest3 with
        | [] => none
        | d :: rest4 =>
          if d = ',' then parseMembers f rest4 (mapSet acc k v)
          else if d = rbrace then some (Value.map (mapSet acc k v), rest4)
          else none := by
  rw [writeString_append]
  simp only [parseMembers, skipWs_cons quote _ (by decide), if_true, parseString_written,
    skipWs_cons ':' _ (by decide)]

theorem parseMembers_written (l : List (String × Value)) (hx : ∀ p ∈ l, ReadsAs p.2)
    (hne : l ≠ []) (hnodup : (l.map Prod.fst).Nodup) :
    ∀ (fuel : Nat) (acc : Object) (rest : List Char),
      2 * (commaSep (l.map memberText)).length + 1 ≤ fuel →
      (∀ p ∈ l, mapGet acc p.1 = none) →
      parseMembers fuel (commaSep (l.map memberText) ++ rbrace :: rest) acc =
        some (Value.map (acc ++ l.map (fun p => (p.1, reread p.2))), rest) := by
  induction l with
  | nil => exact absurd rfl hne
  | cons p ps ih =>
    intro fuel acc rest hfuel hacc
    obtain ⟨f, rfl⟩ : ∃ f, fuel = f + 1 := ⟨fuel - 1, by omega⟩
    have hk : mapGet acc p.1 = none := hacc p (by simp)
    cases ps with
    | nil =>
      simp only [List.map_cons, List.map_nil, commaSep, memberText, List.length_append,
        List.length_cons, List.append_assoc, List.cons_append] at hfuel ⊢
      rw [parseMembers_step, hx p (by simp) f (rbrace :: rest) (by omega)
        (Or.inr (Or.inr rfl))]
      have h1 : ¬ rbrace = ',' := by decide
      simp only [skipWs_cons rbrace _ (by decide), h1, if_false, if_true,
        mapSet_of_none acc p.1 _ hk]
    | cons q qs =>
      simp only [List.map_cons, commaSep_cons_cons, memberText, List.length_append,
        List.length_cons, List.append_assoc, List.cons_append] at hfuel ⊢
      rw [parseMembers_step, hx p (by simp) f (',' :: _) (by omega) (Or.inl rfl)]
      simp only [skipWs_cons ',' _ (by decide), if_true, mapSet_of_none acc p.1 _ hk]
      have hnd := List.nodup_cons.mp (by simpa using hnodup :
        (p.1 :: (q :: qs).map Prod.fst).Nodup)
      have := ih (fun v hv => hx v (by simp [hv])) (by simp)
        hnd.2 f (acc ++ [(p.1, reread p.2)]) rest
        (by simp only [List.map_cons, commaSep_cons_cons, memberText, List.length_append,
              List.length_cons]; omega)
        (by
          intro r hr
          apply mapGet_append_of_none _ _ _ _ (hacc r (by simp [hr]))
          exact fun he => hnd.1 (List.mem_map.mpr ⟨r, hr, he.symm⟩))
      simpa [memberText] using this

theorem parseValue_brace_nil (f : Nat) (rest : List Char) :
    parseValue (f + 1) (lbrace :: rbrace :: rest) = some (Value.map [], rest) := rfl

theorem parseValue_brace (f : Nat) (tail : List Char) :
    parseValue (f + 1) (lbrace :: quote :: tail) = parseMembers f (quote :: tail) [] := rfl

/-- A written map is read back as the map of its entries read back, in the
order of their keys. -/
theorem readsAs_map (m : List (String × Value)) (hnodup : (m.map Prod.fst).Nodup)
    (hx : ∀ p ∈ m, ReadsAs p.2) : ReadsAs (Value.map m) := by
  intro fuel rest hfuel _
  have hbody : writeValue (Value.map m) =
      lbrace :: commaSep ((sortMembers m).map memberText) ++ [rbrace] := by
    simp only [writeValue, writeMembers, writeFields_eq, ← sortMembers_map, List.map_map]
    rfl
  have hre : reread (Value.map m) =
      Value.map ((sortMembers m).map (fun p => (p.1, reread p.2))) := by
    simp only [reread, rereadFields_eq, ← sortMembers_map]
  rw [hbody] at hfuel ⊢
  rw [hre]
  simp only [List.length_cons, List.length_append, List.length_singleton] at hfuel
  obtain ⟨f, rfl⟩ : ∃ f, fuel = f + 1 := ⟨fuel - 1, by omega⟩
  cases hs : sortMembers m with
  | nil => rfl
  | cons p ps =>
    have hmem : ∀ q ∈ p :: ps, ReadsAs q.2 := by
      intro q hq
      exact hx q ((sortMembers_perm m).mem_iff.mp (hs ▸ hq))
    have hnd : ((p :: ps).map Prod.fst).Nodup := hs ▸ sortMembers_keys_nodup m hnodup
    rw [hs] at hfuel
    have hp := parseMembers_written (p :: ps) hmem (by simp) hnd f [] rest (by omega)
      (fun _ _ => rfl)
    have hhead : ∃ t, commaSep ((p :: ps).map memberText) = quote :: t := by
      cases ps with
      | nil => exact ⟨_, rfl⟩
      | cons q qs => exact ⟨_, rfl⟩
    obtain ⟨t, ht⟩ := hhead
    rw [ht] at hp
    simp only [List.cons_append, List.append_assoc, List.singleton_append, ht]
    rw [parseValue_brace]
    simpa using hp

/-- Every well-formed value is read back from its written form. -/
theorem readsAs_of_wf (v : Value) (h : Wf v) : ReadsAs v := by
  induction h with
  | null => exact readsAs_null
  | bool b => exact readsAs_bool b
  | number lit hv hc => exact readsAs_number lit hv hc
  | str s => exact readsAs_str s
  | slice xs hwf ih => exact readsAs_slice xs hwf ih
  | map m _ hnodup ih => exact readsAs_map m hnodup ih
  | strings xs => exact readsAs_strings xs

/-! What the reader produces is well formed, and writing what was read back
gives the same text -/

theorem writeValue_strings_eq (xs : List String) :
    writeValue (Value.slice (xs.map Value.str)) = writeValue (Value.strings xs) := by
  simp [writeValue, writeValues_eq, Function.comp_def]

theorem writeValue_reread (v : Value) (h : Wf v) : writeValue (reread v) = writeValue v := by
  induction h with
  | null => rfl
  | bool b => rfl
  | number lit _ _ => rfl
  | str s => rfl
  | slice xs _ ih =>
    simp only [reread, writeValue, rereadValues_eq, writeValues_eq, List.map_map]
    rw [List.map_congr_left (fun x hx => by simpa using ih x hx)]
  | map m _ hnodup ih =>
    have h1 : (m.map (fun p => (p.1, reread p.2))).map (fun p => (p.1, writeValue p.2)) =
        m.map (fun p => (p.1, writeValue p.2)) := by
      rw [List.map_map]
      exact List.map_congr_left (fun p hp => by simp [ih p hp])
    have h2 : ((writeFields m).map Prod.fst).Nodup := by
      simpa [writeFields_eq, List.map_map, Function.comp_def] using hnodup
    have e1 : writeFields (sortMembers (rereadFields m)) = sortMembers (writeFields m) := by
      rw [writeFields_eq, rereadFields_eq, sortMembers_map, h1, writeFields_eq]
    simp only [reread, writeValue, writeMembers, e1, sortMembers_sortMembers _ h2]
  | strings xs => exact writeValue_strings_eq xs

theorem mem_mapSet {β : Type} (m : List (String × β)) (k : String) (v : β) (p : String × β)
    (hp : p ∈ mapSet m k v) : p ∈ m ∨ p = (k, v) := by
  induction m with
  | nil => simpa [mapSet] using hp
  | cons q rest ih =>
    obtain ⟨k', v'⟩ := q
    by_cases hk : k' = k
    · subst hk
      simp only [mapSet, if_true, List.mem_cons] at hp
      rcases hp with rfl | hp
      · exact Or.inr rfl
      · exact Or.inl (by simp [hp])
    · simp only [mapSet, hk, if_false, List.mem_cons] at hp
      rcases hp with rfl | hp
      · exact Or.inl (by simp)
      · rcases ih hp with h | h
        · exact Or.inl (by simp [h])
        · exact Or.inr h

theorem mapSet_keys_nodup {β : Type} (m : List (String × β)) (k : String) (v : β)
    (h : (m.map Prod.fst).Nodup) : ((mapSet m k v).map Prod.fst).Nodup := by
  induction m with
  | nil => simp [mapSet]
  | cons q rest ih =>
    obtain ⟨k', v'⟩ := q
    have hc := List.nodup_cons.mp (by simpa using h : (k' :: rest.map Prod.fst).Nodup)
    by_cases hk : k' = k
    · simpa [mapSet, hk] using h
    · simp only [mapSet, hk, if_false, List.map_cons, List.nodup_cons]
      refine ⟨?_, ih hc.2⟩
      intro hmem
      obtain ⟨p, hp, hpk⟩ := List.mem_map.mp hmem
      rcases mem_mapSet rest k v p hp with h1 | h1
      · exact hc.1 (List.mem_map.mpr ⟨p, h1, hpk⟩)
      · rw [h1] at hpk
        exact hk hpk.symm

theorem findInfValues_eq_none (xs : List Value) :
    findInfValues xs = none ↔ ∀ x ∈ xs, findInf x = none := by
  induction xs with
  | nil => simp [findInfValues]
  | cons v vs ih =>
    cases hv : findInf v with
    | none => simp [findInfValues, hv, ih]
    | some lit => simp [findInfValues, hv]

theorem findInfFields_eq_none (m : List (String × Value)) :
    findInfFields m = none ↔ ∀ p ∈ m, findInf p.2 = none := by
  induction m with
  | nil => simp [findInfFields]
  | cons q rest ih =>
    obtain ⟨k, v⟩ := q
    cases hv : findInf v with
    | none => simp [findInfFields, hv, ih]
    | some lit => simp [findInfFields, hv]

theorem findInfNetworks_eq_none (xs : List (Option Object)) :
    findInfNetworks xs = none ↔ ∀ m, some m ∈ xs → findInfFields m = none := by
  induction xs with
  | nil => simp [findInfNetworks]
  | cons n rest ih =>
    cases n with
    | none => simp [findInfNetworks, ih]
    | some m =>
      cases hm : findInfFields m with
      | none =>
        simp only [findInfNetworks, hm, ih, List.mem_cons, Option.some.injEq]
        constructor
        · rintro h m2 (rfl | h2)
          · exact hm
          · exact h m2 h2
        · intro h m2 h2
          exact h m2 (Or.inr h2)
      | some lit =>
        simp only [findInfNetworks, hm, List.mem_cons, Option.some.injEq]
        constructor
        · intro h
          exact absurd h (by simp)
        · intro h
          have := h m (Or.inl rfl)
          rw [hm] at this
          exact absurd this (by simp)

/-- A stored value without an infinite number is one that the writer
accepts. -/
theorem Stored.wf (v : Value) (h : Stored v) : findInf v = none → Wf v := by
  induction h with
  | null => exact fun _ => Wf.null
  | bool b => exact fun _ => Wf.bool b
  | number lit hlit =>
    intro hinf
    rcases hlit with hi | ⟨hv, hc⟩
    · simp [findInf, hi] at hinf
    · exact Wf.number lit hv hc
  | str s => exact fun _ => Wf.str s
  | slice xs _ ih =>
    intro hinf
    simp only [findInf] at hinf
    exact Wf.slice xs (fun x hx => ih x hx ((findInfValues_eq_none xs).mp hinf x hx))
  | map m _ hnodup ih =>
    intro hinf
    simp only [findInf] at hinf
    exact Wf.map m (fun p hp => ih p hp ((findInfFields_eq_none m).mp hinf p hp)) hnodup
  | strings xs => exact fun _ => Wf.strings xs

theorem validNumber_ne_inf (lit : String) (h : ValidNumber lit.toList) :
    ¬ (lit = "+Inf" ∨ lit = "-Inf") := by
  rintro (rfl | rfl)
  · obtain ⟨⟨c, t, hct, hc⟩, -⟩ := h
    have h1 : c = '+' := by
      have : "+Inf".toList = c :: t := hct
      simp only [String.toList, List.cons.injEq] at this
      exact this.1.symm
    subst h1
    rcases hc with hc | hc
    · exact absurd hc (by decide)
    · exact absurd hc (by decide)
  · have h2 := h.2 [] trivial
    rw [List.append_nil] at h2
    exact absurd h2 (by decide)

/-- A value that the writer accepts is stored and holds no infinite
number. -/
theorem Wf.finite (v : Value) (h : Wf v) : Stored v ∧ findInf v = none := by
  induction h with
  | null => exact ⟨Stored.null, rfl⟩
  | bool b => exact ⟨Stored.bool b, rfl⟩
  | number lit hv hc =>
    refine ⟨Stored.number lit (Or.inr ⟨hv, hc⟩), ?_⟩
    simp only [findInf, validNumber_ne_inf lit hv, if_false]
  | str s => exact ⟨Stored.str s, rfl⟩
  | slice xs _ ih =>
    refine ⟨Stored.slice xs (fun x hx => (ih x hx).1), ?_⟩
    simp only [findInf]
    exact (findInfValues_eq_none xs).mpr (fun x hx => (ih x hx).2)
  | map m _ hnodup ih =>
    refine ⟨Stored.map m (fun p hp => (ih p hp).1) hnodup, ?_⟩
    simp only [findInf]
    exact (findInfFields_eq_none m).mpr (fun p hp => (ih p hp).2)
  | strings xs => exact ⟨Stored.strings xs, rfl⟩

theorem stored_mapSet (m : Object) (k : String) (v : Value) (hm : Stored (Value.map m))
    (hv : Stored v) : Stored (Value.map (mapSet m k v)) := by
  cases hm with
  | map _ hvals hnodup =>
    refine Stored.map _ ?_ (mapSet_keys_nodup m k v hnodup)
    intro p hp
    rcases mem_mapSet m k v p hp with h | h
    · exact hvals p h
    · rw [h]
      exact hv

theorem Wf.mapSet (m : Object) (k : String) (v : Value) (hm : Wf (Value.map m)) (hv : Wf v) :
    Wf (Value.map (mapSet m k v)) := by
  cases hm with
  | map _ hvals hnodup =>
    refine Wf.map _ ?_ (mapSet_keys_nodup m k v hnodup)
    intro p hp
    rcases mem_mapSet m k v p hp with h | h
    · exact hvals p h
    · rw [h]
      exact hv

theorem parse_stored (fuel : Nat) :
    (∀ cs v r, parseValue fuel cs = some (v, r) → Stored v) ∧
    (∀ cs acc v r, (∀ x ∈ acc, Stored x) → parseElems fuel cs acc = some (v, r) → Stored v) ∧
    (∀ cs acc v r, Stored (Value.map acc) → parseMembers fuel cs acc = some (v, r) → Stored v) := by
  induction fuel with
  | zero =>
    refine ⟨?_, ?_, ?_⟩
    · intro cs v r h
      simp [parseValue] at h
    · intro cs acc v r _ h
      simp [parseElems] at h
    · intro cs acc v r _ h
      simp [parseMembers] at h
  | succ f ih =>
    obtain ⟨ihv, ihe, ihm⟩ := ih
    refine ⟨?_, ?_, ?_⟩
    · intro cs v r h
      simp only [parseValue] at h
      split at h
      · exact absurd h (by simp)
      · rename_i c rest _
        split at h
        · split at h
          · split at h
            · simp only [Option.some.injEq, Prod.mk.injEq] at h
              rw [← h.1]
              exact Stored.map [] (by simp) (by simp)
            · exact ihm _ _ v r (Stored.map [] (by simp) (by simp)) h
          · exact absurd h (by simp)
        · split at h
          · split at h
            · simp only [Option.some.injEq, Prod.mk.injEq] at h
              rw [← h.1]
              exact Stored.slice [] (by simp)
            · exact ihe _ _ v r (by simp) h
          · split at h
            · split at h
              · simp only [Option.some.injEq, Prod.mk.injEq] at h
                rw [← h.1]
                exact Stored.str _
              · exact absurd h (by simp)
            · split at h
              · simp only [Option.map_eq_some', Prod.mk.injEq] at h
                obtain ⟨_, _, h1, _⟩ := h
                rw [← h1]
                exact Stored.bool true
              · split at h
                · simp only [Option.map_eq_some', Prod.mk.injEq] at h
                  obtain ⟨_, _, h1, _⟩ := h
                  rw [← h1]
                  exact Stored.bool false
                · split at h
                  · simp only [Option.map_eq_some', Prod.mk.injEq] at h
                    obtain ⟨_, _, h1, _⟩ := h
                    rw [← h1]
                    exact Stored.null
                  · split at h
                    · rename_i lit rest1 hnum
                      simp only [Option.some.injEq, Prod.mk.injEq] at h
                      rw [← h.1]
                      apply Stored.number
                      rcases canonNumber_spec lit (parseNumber_valid _ lit rest1 hnum) with
                        hinf | hfin
                      · left
                        rcases hinf with h1 | h1
                        · left; rw [h1]; rfl
                        · right; rw [h1]; rfl
                      · right
                        exact hfin
                    · exact absurd h (by simp)
    · intro cs acc v r hacc h
      simp only [parseElems] at h
      split at h
      · exact absurd h (by simp)
      · rename_i v1 rest hv1
        have hwf1 : Stored v1 := ihv _ _ _ hv1
        have hacc' : ∀ x ∈ acc ++ [v1], Stored x := by
          intro x hx
          rcases List.mem_append.mp hx with hx | hx
          · exact hacc x hx
          · simp only [List.mem_singleton] at hx
            rw [hx]
            exact hwf1
        split at h
        · exact ihe _ _ v r hacc' h
        · simp only [Option.some.injEq, Prod.mk.injEq] at h
          rw [← h.1]
          exact Stored.slice _ hacc'
        · exact absurd h (by simp)
    · intro cs acc v r hacc h
      simp only [parseMembers] at h
      split at h
      · exact absurd h (by simp)
      · split at h
        · split at h
          · exact absurd h (by simp)
          · rename_i k rest1 _
            split at h
            · split at h
              · exact absurd h (by simp)
              · rename_i v1 rest3 hv1
                have hwf1 : Stored (Value.map (mapSet acc k v1)) :=
                  stored_mapSet acc k v1 hacc (ihv _ _ _ hv1)
                split at h
                · exact absurd h (by simp)
                · split at h
                  · exact ihm _ _ v r hwf1 h
                  · split at h
                    · simp only [Option.some.injEq, Prod.mk.injEq] at h
                      rw [← h.1]
                      exact hwf1
                    · exact absurd h (by simp)
            · exact absurd h (by simp)
        · exact absurd h (by simp)

end Json

/-! ## A second pass -/

theorem enrichNetwork_result_has_ips (pod : Pod) (vmis : Option UnstructuredList)
    (n n' : Option Object) (h : enrichNetwork pod vmis n = Except.ok n') :
    ∃ m v, n' = some m ∧ mapGet m "ips" = some v := by
  cases n with
  | none => simp [enrichNetwork] at h
  | some m =>
    cases hi : mapGet m "ips" with
    | some v =>
      rw [enrichNetwork_of_ips pod vmis m v hi] at h
      simp only [Except.ok.injEq] at h
      exact ⟨m, v, h.symm, hi⟩
    | none =>
      rw [enrichNetwork_of_no_ips pod vmis m hi] at h
      simp only [Except.ok.injEq] at h
      exact ⟨_, _, h.symm, mapGet_mapSet_self m "ips" _⟩

theorem enrichNetworks_result_has_ips (pod : Pod) (vmis : Option UnstructuredList)
    (nets nets' : List (Option Object)) (h : enrichNetworks pod vmis nets = Except.ok nets') :
    AllHaveIps nets' := by
  have hall := (enrichNetworks_ok_iff pod vmis nets nets').mp h
  clear h
  induction hall with
  | nil => intro n hn; simp at hn
  | cons hr _ ih =>
    intro n hn
    rcases List.mem_cons.mp hn with rfl | hn
    · exact enrichNetwork_result_has_ips pod vmis _ _ hr
    · exact ih n hn

theorem allHaveIps_of_sameKeys (xs ys : List (Option Object))
    (h : List.Forall₂ SameKeys xs ys) (hx : AllHaveIps xs) : AllHaveIps ys := by
  induction h with
  | nil => intro n hn; simp at hn
  | @cons a b as bs hab _ ih =>
    intro n hn
    rcases List.mem_cons.mp hn with rfl | hn
    · obtain ⟨m, v, rfl, hv⟩ := hx a (by simp)
      cases n with
      | none => exact absurd hab (by simp [SameKeys])
      | some m2 =>
        have hk : (mapGet m2 "ips").isSome = (mapGet m "ips").isSome := hab "ips"
        rw [hv] at hk
        cases h2 : mapGet m2 "ips" with
        | none => simp [h2] at hk
        | some w => exact ⟨m2, w, rfl, h2⟩
    · exact ih (fun n' hn' => hx n' (by simp [hn'])) n hn

/-- Descriptors that all have `ips` pass through the loop untouched. -/
theorem enrichNetworks_of_allHaveIps (pod : Pod) (vmis : Option UnstructuredList)
    (nets : List (Option Object)) (h : AllHaveIps nets) :
    enrichNetworks pod vmis nets = Except.ok nets := by
  induction nets with
  | nil => rfl
  | cons n rest ih =>
    obtain ⟨m, v, rfl, hv⟩ := h n (by simp)
    simp [enrichNetworks, enrichNetwork_of_ips pod vmis m v hv,
      ih (fun n' hn' => h n' (by simp [hn']))]

/-- After a pod's annotation was rewritten to `t`, a text that the library
reads back, the loop body of a second pass changes nothing. -/
theorem transformPod_of_rewritten (J : JsonLib) (vmis : Option UnstructuredList) (pod : Pod)
    (anns : List (String × String)) (networks : Networks) (t : String)
    (hips : ∀ nets, networks = some nets → AllHaveIps nets)
    (hback : ReadsBack J networks t) :
    (∀ nets2, (J.Unmarshal t).1 = some nets2 → AllHaveIps nets2) ∧
    transformPod J vmis { pod with Annotations := some (mapSet anns networkStatusKey t) } =
      Except.ok { pod with Annotations := some (mapSet anns networkStatusKey t) } := by
  obtain ⟨hm, hshape⟩ := hback
  have hall : ∀ nets2, (J.Unmarshal t).1 = some nets2 → AllHaveIps nets2 := by
    intro nets2 h2
    rw [h2] at hshape
    cases networks with
    | none => exact absurd hshape (by simp)
    | some nets => exact allHaveIps_of_sameKeys nets nets2 hshape (hips nets rfl)
  refine ⟨hall, ?_⟩
  simp only [transformPod, mapGet_mapSet_self]
  cases h2 : (J.Unmarshal t).1 with
  | none =>
    rw [h2] at hm
    simp [rangeNetworks, storeNetworks, hm, mapSet_mapSet]
  | some nets2 =>
    rw [h2] at hm
    simp [rangeNetworks, enrichNetworks_of_allHaveIps _ vmis nets2 (hall nets2 h2),
      storeNetworks, hm, mapSet_mapSet]

/-- The loop body is idempotent on a pod for which the library reads back
what the body wrote. -/
theorem transformPod_twice (J : JsonLib) (vmis : Option UnstructuredList) (pod q : Pod)
    (hlib : ∀ anns text networks t, pod.Annotations = some anns →
      mapGet anns networkStatusKey = some text →
      rangeNetworks pod vmis (J.Unmarshal text).1 = Except.ok networks →
      J.Marshal networks = Except.ok t → ReadsBack J networks t)
    (h : transformPod J vmis pod = Except.ok q) :
    transformPod J vmis q = Except.ok q := by
  cases ha : pod.Annotations with
  | none =>
    have hq : q = pod := by simpa [transformPod, ha] using h.symm
    rw [hq]
    simp [transformPod, ha]
  | some anns =>
    cases ht : mapGet anns networkStatusKey with
    | none =>
      have hq : q = pod := by simpa [transformPod, ha, ht] using h.symm
      rw [hq]
      simp [transformPod, ha, ht]
    | some text =>
      cases hr : rangeNetworks pod vmis (J.Unmarshal text).1 with
      | error e => simp [transformPod, ha, ht, hr] at h
      | ok networks =>
        have hq : q = storeNetworks J pod anns networks := by
          simpa [transformPod, ha, ht, hr] using h.symm
        cases hm : J.Marshal networks with
        | error e =>
          have hq2 : q = pod := by simpa [storeNetworks, hm] using hq
          rw [hq2]
          simp [transformPod, ha, ht, hr, storeNetworks, hm]
        | ok t =>
          have hq2 : q = { pod with Annotations := some (mapSet anns networkStatusKey t) } := by
            simpa [storeNetworks, hm] using hq
          have hips : ∀ nets, networks = some nets → AllHaveIps nets := by
            intro nets hn
            subst hn
            cases hl : (J.Unmarshal text).1 with
            | none => simp [hl, rangeNetworks] at hr
            | some nets1 =>
              rw [hl] at hr
              simp only [rangeNetworks] at hr
              cases hloop : enrichNetworks pod vmis nets1 with
              | error e => simp [hloop] at hr
              | ok nets' =>
                simp only [hloop, Except.ok.injEq, Option.some.injEq] at hr
                subst hr
                exact enrichNetworks_result_has_ips pod vmis nets1 nets' hloop
          rw [hq2]
          exact (transformPod_of_rewritten J vmis pod anns networks t hips
            (hlib anns text networks t ha ht hr hm)).2

/-! ## The model library reads back what the pass writes -/

theorem mapGet_isSome_iff {β : Type} (m : List (String × β)) (k : String) :
    (mapGet m k).isSome = true ↔ k ∈ m.map Prod.fst := by
  induction m with
  | nil => simp [mapGet]
  | cons p rest ih =>
    obtain ⟨k', v'⟩ := p
    by_cases hk : k' = k
    · simp [mapGet, hk]
    · have hk' : ¬ k = k' := fun e => hk e.symm
      simp [mapGet, hk, hk', ih]

theorem sameKeys_reread (m : Object) :
    SameKeys (some m) (some (Json.sortMembers (Json.rereadFields m))) := by
  intro k
  have hkeys : k ∈ (Json.sortMembers (Json.rereadFields m)).map Prod.fst ↔
      k ∈ m.map Prod.fst := by
    rw [((Json.sortMembers_perm (Json.rereadFields m)).map Prod.fst).mem_iff,
      Json.rereadFields_eq, List.map_map]
    rfl
  cases h1 : (mapGet (Json.sortMembers (Json.rereadFields m)) k).isSome <;>
    cases h2 : (mapGet m k).isSome
  · rfl
  · exact absurd (hkeys.mpr ((mapGet_isSome_iff m k).mp h2))
      (fun h => by simp [(mapGet_isSome_iff _ k).mpr h] at h1)
  · exact absurd (hkeys.mp ((mapGet_isSome_iff _ k).mp h1))
      (fun h => by simp [(mapGet_isSome_iff _ k).mpr h] at h2)
  · rfl

/-- What `Unmarshal` leaves in `networks` holds stored maps only. -/
theorem Unmarshal_stored (text : String) (nets : List (Option Object))
    (h : (Json.Unmarshal text).1 = some nets) :
    ∀ n ∈ nets, ∀ m, n = some m → Json.Stored (Value.map m) := by
  unfold Json.Unmarshal at h
  cases hp : Json.parse text with
  | none => simp [hp] at h
  | some v =>
    have hwf : Json.Stored v := by
      unfold Json.parse at hp
      split at hp
      · exact absurd hp (by simp)
      · rename_i v' rest hv
        split at hp
        · simp only [Option.some.injEq] at hp
          rw [← hp]
          exact (Json.parse_stored _).1 _ _ _ hv
        · exact absurd hp (by simp)
    cases v with
    | slice xs =>
      simp only [hp, Option.some.injEq] at h
      cases hwf with
      | slice _ hxs =>
        intro n hn m hm
        rw [← h] at hn
        obtain ⟨x, hx, hxn⟩ := List.mem_map.mp hn
        cases x with
        | map m' =>
          simp only [Json.elemToMap, hm, Option.some.injEq] at hxn
          rw [← hxn]
          exact hxs _ hx
        | null => simp [Json.elemToMap, hm] at hxn
        | bool b => simp [Json.elemToMap, hm] at hxn
        | number l => simp [Json.elemToMap, hm] at hxn
        | str s => simp [Json.elemToMap, hm] at hxn
        | slice ys => simp [Json.elemToMap, hm] at hxn
        | strings ys => simp [Json.elemToMap, hm] at hxn
    | null => simp [hp] at h
    | bool b => simp [hp] at h
    | number l => simp [hp] at h
    | str s => simp [hp] at h
    | map m' => simp [hp] at h
    | strings ys => simp [hp] at h

theorem enrichNetwork_stored (pod : Pod) (vmis : Option UnstructuredList) (n n' : Option Object)
    (hwf : ∀ m, n = some m → Json.Stored (Value.map m))
    (h : enrichNetwork pod vmis n = Except.ok n') :
    ∃ m', n' = some m' ∧ Json.Stored (Value.map m') := by
  cases n with
  | none => simp [enrichNetwork] at h
  | some m =>
    cases hi : mapGet m "ips" with
    | some v =>
      rw [enrichNetwork_of_ips pod vmis m v hi] at h
      simp only [Except.ok.injEq] at h
      exact ⟨m, h.symm, hwf m rfl⟩
    | none =>
      rw [enrichNetwork_of_no_ips pod vmis m hi] at h
      simp only [Except.ok.injEq] at h
      exact ⟨_, h.symm, Json.stored_mapSet m "ips" _ (hwf m rfl) (Json.Stored.strings _)⟩

theorem enrichNetworks_stored (pod : Pod) (vmis : Option UnstructuredList)
    (nets nets' : List (Option Object))
    (hwf : ∀ n ∈ nets, ∀ m, n = some m → Json.Stored (Value.map m))
    (h : enrichNetworks pod vmis nets = Except.ok nets') :
    ∃ ms : List Object, nets' = ms.map some ∧ ∀ m ∈ ms, Json.Stored (Value.map m) := by
  have hall := (enrichNetworks_ok_iff pod vmis nets nets').mp h
  clear h
  induction hall with
  | nil => exact ⟨[], rfl, by simp⟩
  | @cons n n' ns ns' hn _ ih =>
    obtain ⟨m', rfl, hm'⟩ := enrichNetwork_stored pod vmis n n' (hwf n (by simp)) hn
    obtain ⟨ms, rfl, hms⟩ := ih (fun x hx => hwf x (by simp [hx]))
    refine ⟨m' :: ms, rfl, ?_⟩
    intro m hm
    rcases List.mem_cons.mp hm with rfl | hm
    · exact hm'
    · exact hms m hm

theorem findInfNetworks_objects (ms : List Object) :
    Json.findInfNetworks (ms.map some) = none ↔ ∀ m ∈ ms, Json.findInf (Value.map m) = none := by
  rw [Json.findInfNetworks_eq_none]
  constructor
  · intro h m hm
    simp only [Json.findInf]
    exact h m (List.mem_map.mpr ⟨m, hm, rfl⟩)
  · intro h m hm
    obtain ⟨m2, hm2, he⟩ := List.mem_map.mp hm
    simp only [Option.some.injEq] at he
    subst he
    have := h m2 hm2
    simpa only [Json.findInf] using this

/-- The text written for descriptors that hold no infinite number. -/
theorem Marshal_objects (ms : List Object)
    (hfin : ∀ m ∈ ms, Json.findInf (Value.map m) = none) :
    Json.Marshal (some (ms.map some)) =
      Except.ok (String.mk (Json.writeValue (Value.slice (ms.map Value.map)))) := by
  simp [Json.Marshal, (findInfNetworks_objects ms).mpr hfin, Json.writeValue,
    Json.writeValues_eq, Json.writeNetwork, Function.comp_def]

/-- The encoder fails exactly on a slice that holds an infinite number. -/
theorem Marshal_error_iff (xs : List (Option Object)) :
    (∃ e, Json.Marshal (some xs) = Except.error e) ↔ Json.findInfNetworks xs ≠ none := by
  cases h : Json.findInfNetworks xs with
  | none => simp [Json.Marshal, h]
  | some lit => simp [Json.Marshal, h]

/-- A value that was written and read again holds no infinite number. -/
theorem findInf_reread (v : Value) (h : Json.Wf v) : Json.findInf (Json.reread v) = none := by
  induction h with
  | null => rfl
  | bool b => rfl
  | number lit hv _ =>
    simp only [Json.reread, Json.findInf, Json.validNumber_ne_inf lit hv, if_false]
  | str s => rfl
  | slice xs _ ih =>
    simp only [Json.reread, Json.findInf, Json.rereadValues_eq]
    rw [Json.findInfValues_eq_none]
    intro x hx
    obtain ⟨y, hy, rfl⟩ := List.mem_map.mp hx
    exact ih y hy
  | map m _ _ ih =>
    simp only [Json.reread, Json.findInf]
    rw [Json.findInfFields_eq_none]
    intro p hp
    have hp2 := (Json.sortMembers_perm (Json.rereadFields m)).mem_iff.mp hp
    rw [Json.rereadFields_eq] at hp2
    obtain ⟨q, hq, rfl⟩ := List.mem_map.mp hp2
    exact ih q hq
  | strings xs =>
    simp only [Json.reread, Json.findInf]
    rw [Json.findInfValues_eq_none]
    intro x hx
    obtain ⟨y, -, rfl⟩ := List.mem_map.mp hx
    rfl

theorem Unmarshal_written (ms : List Object) (hwf : ∀ m ∈ ms, Json.Wf (Value.map m)) :
    (Json.Unmarshal (String.mk (Json.writeValue (Value.slice (ms.map Value.map))))).1 =
      some (ms.map (fun m => some (Json.sortMembers (Json.rereadFields m)))) := by
  have hV : Json.Wf (Value.slice (ms.map Value.map)) := by
    apply Json.Wf.slice
    intro x hx
    obtain ⟨m, hm, rfl⟩ := List.mem_map.mp hx
    exact hwf m hm
  have hread := Json.readsAs_of_wf _ hV
    (2 * (Json.writeValue (Value.slice (ms.map Value.map))).length + 2) [] (by omega) trivial
  simp only [List.append_nil] at hread
  have hparse : Json.parse (String.mk (Json.writeValue (Value.slice (ms.map Value.map)))) =
      some (Json.reread (Value.slice (ms.map Value.map))) := by
    simp only [Json.parse, String.length, String.toList, hread, Json.skipWs, if_true]
  simp only [Json.Unmarshal, hparse, Json.reread, Json.rereadValues_eq, List.map_map]
  rfl

/-- Stored descriptors that the encoder accepts hold no infinite number, and
the text is their written form. -/
theorem Marshal_ok_stored (ms : List Object) (t : String)
    (hst : ∀ m ∈ ms, Json.Stored (Value.map m))
    (hm : Json.Marshal (some (ms.map some)) = Except.ok t) :
    (∀ m ∈ ms, Json.Wf (Value.map m)) ∧
      t = String.mk (Json.writeValue (Value.slice (ms.map Value.map))) := by
  have hfin : ∀ m ∈ ms, Json.findInf (Value.map m) = none := by
    apply (findInfNetworks_objects ms).mp
    cases h : Json.findInfNetworks (ms.map some) with
    | none => rfl
    | some lit => simp [Json.Marshal, h] at hm
  refine ⟨fun m hmem => Json.Stored.wf _ (hst m hmem) (hfin m hmem), ?_⟩
  rw [Marshal_objects ms hfin] at hm
  simpa using hm.symm

/-- The model of `encoding/json` reads back every text that the pass writes. -/
theorem encodingJson_readsBack (pod : Pod) (vmis : Option UnstructuredList) (text : String)
    (networks : Networks) (t : String)
    (hr : rangeNetworks pod vmis (encodingJson.Unmarshal text).1 = Except.ok networks)
    (hm : encodingJson.Marshal networks = Except.ok t) : ReadsBack encodingJson networks t := by
  cases hu : (encodingJson.Unmarshal text).1 with
  | none =>
    rw [hu] at hr
    simp only [rangeNetworks, Except.ok.injEq] at hr
    subst hr
    have ht : t = "null" := by
      have : (Except.ok "null" : Except String String) = Except.ok t := hm
      simpa using this.symm
    subst ht
    exact ⟨rfl, trivial⟩
  | some nets =>
    rw [hu] at hr
    simp only [rangeNetworks] at hr
    cases hloop : enrichNetworks pod vmis nets with
    | error e => simp [hloop] at hr
    | ok nets' =>
      simp only [hloop, Except.ok.injEq] at hr
      subst hr
      obtain ⟨ms, rfl, hst⟩ := enrichNetworks_stored pod vmis nets nets'
        (Unmarshal_stored text nets hu) hloop
      obtain ⟨hms, ht⟩ := Marshal_ok_stored ms t hst hm
      subst ht
      have hback : (encodingJson.Unmarshal
          (String.mk (Json.writeValue (Value.slice (ms.map Value.map))))).1 =
          some (ms.map (fun m => some (Json.sortMembers (Json.rereadFields m)))) :=
        Unmarshal_written ms hms
      have hV : Json.Wf (Value.slice (ms.map Value.map)) := by
        apply Json.Wf.slice
        intro x hx
        obtain ⟨m, hm, rfl⟩ := List.mem_map.mp hx
        exact hms m hm
      refine ⟨?_, ?_⟩
      · rw [hback]
        have h2 := Marshal_objects (ms.map (fun m => Json.sortMembers (Json.rereadFields m)))
          (fun m2 hm2 => by
            obtain ⟨m0, hm0, rfl⟩ := List.mem_map.mp hm2
            exact findInf_reread _ (hms m0 hm0))
        simp only [List.map_map, Function.comp_def] at h2
        have h4 := Json.writeValue_reread _ hV
        simp only [Json.reread, Json.rereadValues_eq, List.map_map, Function.comp_def] at h4
        rw [h4] at h2
        exact h2
      · rw [hback]
        show List.Forall₂ SameKeys (ms.map some) _
        clear hback hV hms hloop hm hu hst
        induction ms with
        | nil => exact List.Forall₂.nil
        | cons m rest ih => exact List.Forall₂.cons (sameKeys_reread m) ih

theorem forall₂_mem_right {α β : Type} {R : α → β → Prop} {xs : List α} {ys : List β}
    (h : List.Forall₂ R xs ys) (y : β) (hy : y ∈ ys) : ∃ x ∈ xs, R x y := by
  induction h with
  | nil => simp at hy
  | cons hr _ ih =>
    rcases List.mem_cons.mp hy with rfl | hy
    · exact ⟨_, by simp, hr⟩
    · obtain ⟨x, hx, hxy⟩ := ih hy
      exact ⟨x, by simp [hx], hxy⟩

/-- The three ways in which the loop body completes on a pod. -/
theorem transformPod_cases (J : JsonLib) (vmis : Option UnstructuredList) (pod q : Pod)
    (h : transformPod J vmis pod = Except.ok q) :
    ((∀ anns, pod.Annotations = some anns → mapGet anns networkStatusKey = none) ∧ q = pod) ∨
    (∃ anns text networks e, pod.Annotations = some anns ∧
      mapGet anns networkStatusKey = some text ∧
      rangeNetworks pod vmis (J.Unmarshal text).1 = Except.ok networks ∧
      J.Marshal networks = Except.error e ∧ q = pod) ∨
    (∃ anns text networks t, pod.Annotations = some anns ∧
      mapGet anns networkStatusKey = some text ∧
      rangeNetworks pod vmis (J.Unmarshal text).1 = Except.ok networks ∧
      J.Marshal networks = Except.ok t ∧
      q = { pod with Annotations := some (mapSet anns networkStatusKey t) }) := by
  cases ha : pod.Annotations with
  | none =>
    left
    refine ⟨fun anns h' => by simp at h', ?_⟩
    simpa [transformPod, ha] using h.symm
  | some anns =>
    cases ht : mapGet anns networkStatusKey with
    | none =>
      left
      refine ⟨fun anns' h' => ?_, by simpa [transformPod, ha, ht] using h.symm⟩
      simp only [Option.some.injEq] at h'
      rw [← h']
      exact ht
    | some text =>
      cases hr : rangeNetworks pod vmis (J.Unmarshal text).1 with
      | error e => simp [transformPod, ha, ht, hr] at h
      | ok networks =>
        have hq : q = storeNetworks J pod anns networks := by
          simpa [transformPod, ha, ht, hr] using h.symm
        cases hm : J.Marshal networks with
        | error e =>
          right; left
          exact ⟨anns, text, networks, e, rfl, ht, hr, hm, by simpa [storeNetworks, hm] using hq⟩
        | ok t =>
          right; right
          exact ⟨anns, text, networks, t, rfl, ht, hr, hm, by simpa [storeNetworks, hm] using hq⟩

theorem rangeNetworks_result_has_ips (pod : Pod) (vmis : Option UnstructuredList)
    (networks0 networks : Networks)
    (hr : rangeNetworks pod vmis networks0 = Except.ok networks) :
    ∀ nets, networks = some nets → AllHaveIps nets := by
  intro nets hn
  subst hn
  cases networks0 with
  | none => simp [rangeNetworks] at hr
  | some nets1 =>
    simp only [rangeNetworks] at hr
    cases hloop : enrichNetworks pod vmis nets1 with
    | error e => simp [hloop] at hr
    | ok nets' =>
      simp only [hloop, Except.ok.injEq, Option.some.injEq] at hr
      subst hr
      exact enrichNetworks_result_has_ips pod vmis nets1 nets' hloop

/-- A pass that completes on a pod list completes with the same result on
that result, for a JSON library that reads back what the pass wrote. -/
theorem transformPods_twice (J : JsonLib) (vmis : Option UnstructuredList)
    (podList out : List Pod)
    (hlib : ∀ pod ∈ podList, ∀ anns text networks t, pod.Annotations = some anns →
      mapGet anns networkStatusKey = some text →
      rangeNetworks pod vmis (J.Unmarshal text).1 = Except.ok networks →
      J.Marshal networks = Except.ok t → ReadsBack J networks t)
    (hrun : transformPods J vmis podList = Except.ok out) :
    transformPods J vmis out = Except.ok out := by
  have hall := (transformPods_ok_iff J vmis podList out).mp hrun
  apply (transformPods_ok_iff J vmis out out).mpr
  clear hrun
  induction hall with
  | nil => exact List.Forall₂.nil
  | @cons p q ps qs hpq _ ih =>
    refine List.Forall₂.cons ?_ (ih (fun pod hpod => hlib pod (by simp [hpod])))
    exact transformPod_twice J vmis p q (hlib p (by simp)) hpq

/-! ## Claims -/

/-- The loop on the decoded descriptors, for any JSON library: in a pod
whose network-status annotation decodes to a sequence of objects, a
descriptor without an `ips` key is handed to the encoder with `ips` equal to `[ip]`
when the instance list is available, `findVmiForPod` finds an owning instance,
the descriptor has a non-empty string `mac` and the instance's mapping sends
that mac to `ip`; in every other case, and so for a pod without owner
references, with `ips` equal to `[]`.  What the encoder makes of the
descriptors is `storeNetworks`. -/
theorem transformPodList_fills_ips (J : JsonLib) (listed : Except String UnstructuredList)
    (pod : Pod) (anns : List (String × String)) (text : String) (objs : List Object)
    (hann : pod.Annotations = some anns) (htext : mapGet anns networkStatusKey = some text)
    (hdec : (J.Unmarshal text).1 = some (objs.map some)) :
    ∃ objs' : List Object,
      objs'.length = objs.length ∧
      transformPodList J listed [pod] =
        Except.ok [storeNetworks J pod anns (some (objs'.map some))] ∧
      (∀ (podList out : List Pod) (i : Nat), transformPodList J listed podList = Except.ok out →
        podList[i]? = some pod →
        out[i]? = some (storeNetworks J pod anns (some (objs'.map some)))) ∧
      ∀ (j : Nat) (m : Object), objs[j]? = some m → mapGet m "ips" = none →
        ∃ ips, objs'[j]? = some (mapSet m "ips" (Value.strings ips)) ∧
          (∀ ip, Resolves (vmisOf listed) pod m ip → ips = [ip]) ∧
          ((∀ ip, ¬ Resolves (vmisOf listed) pod m ip) → ips = []) ∧
          (pod.OwnerReferences = [] → ips = []) := by
  obtain ⟨objs', hloop, hall⟩ := enrichNetworks_objects pod (vmisOf listed) objs
  have hbody := transformPod_of_objects J (vmisOf listed) pod anns text objs objs'
    hann htext hdec hloop
  refine ⟨objs', hall.length_eq.symm, transformPodList_singleton J listed pod _ hbody, ?_, ?_⟩
  · intro podList out i hrun hpod
    exact transformPodList_getElem? J listed podList out i pod _ hrun hpod hbody
  · intro j m hj hips
    obtain ⟨m', hm', hr⟩ := forall₂_getElem? hall j m hj
    rw [enrichNetwork_of_no_ips pod (vmisOf listed) m hips] at hr
    simp only [Except.ok.injEq, Option.some.injEq] at hr
    refine ⟨_, by rw [hm', ← hr], ?_, ?_, ?_⟩
    · intro ip hres
      rw [(lookupIp_eq_some_iff pod (vmisOf listed) m ip).mpr hres]
    · intro hno
      cases hl : lookupIp pod (vmisOf listed) m with
      | none => rfl
      | some ip => exact absurd ((lookupIp_eq_some_iff pod (vmisOf listed) m ip).mp hl) (hno ip)
    · intro hown
      cases hl : lookupIp pod (vmisOf listed) m with
      | none => rfl
      | some ip =>
        obtain ⟨items, vmi, _, _, _, hf, _⟩ :=
          (lookupIp_eq_some_iff pod (vmisOf listed) m ip).mp hl
        rw [findVmiForPod_no_owner pod (vmisOf listed) hown] at hf
        exact absurd hf (by simp)

theorem transformPodList_fills_ips_witness :
    (encodingJson.Unmarshal twoMacsText).1 = some (twoMacs.map some) ∧
    ∃ objs' : List Object,
      transformPodList encodingJson (Except.ok [sampleVmi]) [samplePod twoMacsText] =
        Except.ok [storeNetworks encodingJson (samplePod twoMacsText)
          (sampleAnnotations twoMacsText) (some (objs'.map some))] ∧
      objs'[0]? = some [("mac", Value.str "aa:bb"), ("ips", Value.strings ["10.0.0.5"])] ∧
      objs'[1]? = some [("mac", Value.str "cc:dd"), ("ips", Value.strings [])] := by
  refine ⟨rfl, ?_⟩
  obtain ⟨objs', -, hrun, -, hdesc⟩ :=
    transformPodList_fills_ips encodingJson (Except.ok [sampleVmi]) (samplePod twoMacsText)
      (sampleAnnotations twoMacsText) twoMacsText twoMacs rfl rfl rfl
  refine ⟨objs', hrun, ?_, ?_⟩
  · obtain ⟨ips, h0, hyes, -, -⟩ := hdesc 0 [("mac", Value.str "aa:bb")] rfl rfl
    rw [h0, hyes "10.0.0.5"
      ⟨[sampleVmi], sampleVmi, [("aa:bb", "10.0.0.5")], "aa:bb", rfl, rfl, rfl, rfl,
        by decide, rfl⟩]
    rfl
  · obtain ⟨ips, h1, -, hno, -⟩ := hdesc 1 [("mac", Value.str "cc:dd")] rfl rfl
    have hnone : ∀ ip, ¬ Resolves (vmisOf (Except.ok [sampleVmi])) (samplePod twoMacsText)
        [("mac", Value.str "cc:dd")] ip := by
      intro ip hres
      have hl := (lookupIp_eq_some_iff _ _ _ ip).mpr hres
      exact absurd (show (none : Option String) = some ip from hl) (by simp)
    rw [h1, hno hnone]
    rfl

/-- The loop on the decoded descriptors, for any JSON library, on an
annotation that decodes to objects: for a pod whose first owner reference of kind VirtualMachineInstance
has the non-empty name `name`, an available instance list whose first well
formed instance with that name in the pod's namespace has an interface entry
with mac `mac` and address `ip`, no later valid entry giving `mac` another
address, and a descriptor of the pod's annotation with that `mac` and no
`ips` key: the descriptor handed to the encoder is the decoded one plus
`ips = [ip]`. -/
theorem transformPodList_enriches_owned_descriptor (J : JsonLib) (pod : Pod)
    (anns : List (String × String)) (text : String) (objs : List Object)
    (name : String) (before after : List OwnerReference)
    (earlier later : UnstructuredList) (vmi status : Object)
    (ifsBefore ifsAfter : List Value) (entry : Value) (mac ip : String) (j : Nat) (d : Object)
    (hann : pod.Annotations = some anns) (htext : mapGet anns networkStatusKey = some text)
    (hdec : (J.Unmarshal text).1 = some (objs.map some))
    (hown : pod.OwnerReferences = before ++ ⟨"VirtualMachineInstance", name⟩ :: after)
    (hfirst : ∀ r ∈ before, r.Kind ≠ "VirtualMachineInstance")
    (hname : name ≠ "")
    (hvmi : VmiNamed pod.Namespace name vmi)
    (hearlier : ∀ o ∈ earlier, ¬ VmiNamed pod.Namespace name o)
    (hstatus : mapGet vmi "status" = some (Value.map status))
    (hifs : mapGet status "interfaces" = some (Value.slice (ifsBefore ++ entry :: ifsAfter)))
    (hentry : ReportsPair entry mac ip)
    (hafter : ∀ v ∈ ifsAfter, ∀ ip', ReportsPair v mac ip' → ip' = ip)
    (hd : objs[j]? = some d) (hmac : mapGet d "mac" = some (Value.str mac))
    (hips : mapGet d "ips" = none) :
    ∃ objs' : List Object,
      objs'.length = objs.length ∧
      objs'[j]? = some (mapSet d "ips" (Value.strings [ip])) ∧
      transformPodList J (Except.ok (earlier ++ vmi :: later)) [pod] =
        Except.ok [storeNetworks J pod anns (some (objs'.map some))] ∧
      ∀ (podList out : List Pod) (i : Nat),
        transformPodList J (Except.ok (earlier ++ vmi :: later)) podList = Except.ok out →
        podList[i]? = some pod →
        out[i]? = some (storeNetworks J pod anns (some (objs'.map some))) := by
  obtain ⟨objs', hloop, hall⟩ := enrichNetworks_objects pod (some (earlier ++ vmi :: later)) objs
  have hbody := transformPod_of_objects J (some (earlier ++ vmi :: later)) pod anns text objs objs'
    hann htext hdec hloop
  refine ⟨objs', hall.length_eq.symm, ?_,
    transformPodList_singleton J (Except.ok (earlier ++ vmi :: later)) pod _ hbody, ?_⟩
  · obtain ⟨m', hm', hr⟩ := forall₂_getElem? hall j d hd
    rw [enrichNetwork_of_no_ips pod _ d hips,
      lookupIp_of_owner pod name before after earlier later vmi status ifsBefore ifsAfter
        entry mac ip d hown hfirst hname hvmi hearlier hstatus hifs hentry hafter hmac] at hr
    simp only [Except.ok.injEq, Option.some.injEq] at hr
    rw [hm', ← hr]
  · intro podList out i hrun hpod
    exact transformPodList_getElem? J _ podList out i pod _ hrun hpod hbody

theorem transformPodList_enriches_owned_descriptor_witness :
    transformPodList encodingJson (Except.ok [sampleVmi]) [samplePod oneMacText] =
      Except.ok [samplePod "[\x7b\"ips\":[\"10.0.0.5\"],\"mac\":\"aa:bb\"\x7d]"] := by
  obtain ⟨objs', hlen, h0, hrun, -⟩ :=
    transformPodList_enriches_owned_descriptor encodingJson (samplePod oneMacText)
      (sampleAnnotations oneMacText) oneMacText [[("mac", Value.str "aa:bb")]]
      "vmi-a" [] [] [] [] sampleVmi
      [("interfaces",
        Value.slice [Value.map [("mac", Value.str "aa:bb"), ("ipAddress", Value.str "10.0.0.5")]])]
      [] [] (Value.map [("mac", Value.str "aa:bb"), ("ipAddress", Value.str "10.0.0.5")])
      "aa:bb" "10.0.0.5" 0 [("mac", Value.str "aa:bb")]
      rfl rfl rfl rfl (by simp) (by decide) ⟨_, rfl, rfl, rfl⟩ (by simp) rfl rfl
      ⟨_, rfl, rfl, rfl, by decide, by decide⟩ (by simp) rfl rfl rfl
  rw [eq_singleton_of_getElem? objs' _ hlen h0] at hrun
  exact hrun

/-- The loop on the decoded descriptors, for any JSON library: a descriptor
that already has an `ips` key, with any value, is left as it is by the loop
body, and the encoder is handed that same map at the same place. -/
theorem transformPodList_keeps_descriptor_with_ips (J : JsonLib)
    (listed : Except String UnstructuredList) (pod : Pod) (anns : List (String × String))
    (text : String) (nets : List (Option Object)) (j : Nat) (m : Object) (v : Value)
    (hann : pod.Annotations = some anns) (htext : mapGet anns networkStatusKey = some text)
    (hdec : (J.Unmarshal text).1 = some nets)
    (hj : nets[j]? = some (some m)) (hips : mapGet m "ips" = some v) :
    enrichNetwork pod (vmisOf listed) (some m) = Except.ok (some m) ∧
    ∀ (podList out : List Pod) (i : Nat),
      transformPodList J listed podList = Except.ok out → podList[i]? = some pod →
      ∃ nets' : List (Option Object),
        nets'.length = nets.length ∧ nets'[j]? = some (some m) ∧
        out[i]? = some (storeNetworks J pod anns (some nets')) := by
  have hbody := enrichNetwork_of_ips pod (vmisOf listed) m v hips
  refine ⟨hbody, ?_⟩
  intro podList out i hrun hpod
  obtain ⟨q, hq, hr⟩ :=
    forall₂_getElem? ((transformPods_ok_iff J (vmisOf listed) podList out).mp hrun) i pod hpod
  obtain ⟨nets', hloop, hqe⟩ :=
    transformPod_of_decoded J (vmisOf listed) pod q anns text nets hann htext hdec hr
  have hall := (enrichNetworks_ok_iff pod (vmisOf listed) nets nets').mp hloop
  obtain ⟨n', hn', hn⟩ := forall₂_getElem? hall j (some m) hj
  rw [hbody] at hn
  simp only [Except.ok.injEq] at hn
  exact ⟨nets', hall.length_eq.symm, by rw [hn', ← hn], by rw [hq, hqe]⟩

theorem transformPodList_keeps_descriptor_with_ips_witness :
    (encodingJson.Unmarshal emptyIpsText).1 =
      some [some [("ips", Value.slice []), ("mac", Value.str "aa:bb")]] ∧
    transformPodList encodingJson (Except.ok [sampleVmi]) [samplePod emptyIpsText] =
      Except.ok [samplePod emptyIpsText] ∧
    ∃ nets' : List (Option Object),
      nets'.length = 1 ∧
      nets'[0]? = some (some [("ips", Value.slice []), ("mac", Value.str "aa:bb")]) ∧
      [samplePod emptyIpsText][0]? =
        some (storeNetworks encodingJson (samplePod emptyIpsText)
          (sampleAnnotations emptyIpsText) (some nets')) :=
  ⟨rfl, rfl,
    (transformPodList_keeps_descriptor_with_ips encodingJson (Except.ok [sampleVmi])
      (samplePod emptyIpsText) (sampleAnnotations emptyIpsText) emptyIpsText
      [some [("ips", Value.slice []), ("mac", Value.str "aa:bb")]] 0
      [("ips", Value.slice []), ("mac", Value.str "aa:bb")] (Value.slice [])
      rfl rfl rfl rfl rfl).2 [samplePod emptyIpsText] [samplePod emptyIpsText] 0 rfl rfl⟩

/-- C4: the claim fails on the code.  On the annotation `not json` the
decoder reports an error, which line 256 drops, and leaves `networks` nil;
the pass then stores the encoding of the nil slice, so the annotation is
rewritten to `null` instead of being left as it was. -/
theorem transformPodList_rewrites_invalid_annotation
    (listed : Except String UnstructuredList) :
    (encodingJson.Unmarshal "not json").1 = none ∧
    (encodingJson.Unmarshal "not json").2 = some "invalid character" ∧
    mapGet (sampleAnnotations "not json") networkStatusKey = some "not json" ∧
    transformPodList encodingJson listed [samplePod "not json"] =
      Except.ok [samplePod "null"] := by
  cases listed <;> exact ⟨rfl, rfl, rfl, rfl⟩

/-- C5: the claim fails on the code.  The annotation `[null]` decodes
without error to a slice holding one nil map, and the assignment of line 264
into that map panics: the pass ends there, whatever the listing returned and
whichever pods follow. -/
theorem transformPodList_panics_on_null_descriptor
    (listed : Except String UnstructuredList) (rest : List Pod) :
    encodingJson.Unmarshal "[null]" = (some [none], none) ∧
    transformPodList encodingJson listed (samplePod "[null]" :: rest) =
      Except.error "assignment to entry in nil map" := by
  cases listed <;> exact ⟨rfl, rfl⟩

/-- C6: the claim fails on the code.  With the instance list unavailable, a
pod whose annotation holds an object and a `null` makes the pass panic at
line 264 on the second element, so the pass does not complete. -/
theorem transformPodList_unavailable_panics (e : String) (rest : List Pod) :
    (encodingJson.Unmarshal "[\x7b\"name\":\"eth0\"\x7d,null]").1 =
      some [some [("name", Value.str "eth0")], none] ∧
    transformPodList encodingJson (Except.error e)
        (samplePod "[\x7b\"name\":\"eth0\"\x7d,null]" :: rest) =
      Except.error "assignment to entry in nil map" :=
  ⟨rfl, rfl⟩

/-- C8: a pod that lacks the network-status key, and so a pod with no
annotations at all, is returned as it is: the pass on that pod alone gives
the same pod, and in every pass that completes the pod at its index is the
same pod. -/
theorem transformPodList_skips_pod_without_key (J : JsonLib)
    (listed : Except String UnstructuredList) (pod : Pod)
    (hno : ∀ anns, pod.Annotations = some anns → mapGet anns networkStatusKey = none) :
    transformPodList J listed [pod] = Except.ok [pod] ∧
    ∀ (podList out : List Pod) (i : Nat),
      transformPodList J listed podList = Except.ok out → podList[i]? = some pod →
      out[i]? = some pod := by
  have hbody := transformPod_of_no_key J (vmisOf listed) pod hno
  exact ⟨transformPodList_singleton J listed pod pod hbody,
    fun podList out i hrun hpod =>
      transformPodList_getElem? J listed podList out i pod pod hrun hpod hbody⟩

theorem transformPodList_skips_pod_without_key_witness :
    transformPodList encodingJson (Except.ok [sampleVmi]) [barePod] = Except.ok [barePod] ∧
    transformPodList encodingJson (Except.ok [sampleVmi]) [otherPod] = Except.ok [otherPod] :=
  ⟨(transformPodList_skips_pod_without_key encodingJson (Except.ok [sampleVmi]) barePod
      (fun _ h => absurd h (by simp [barePod]))).1,
    (transformPodList_skips_pod_without_key encodingJson (Except.ok [sampleVmi]) otherPod
      (fun anns h => by
        have h1 : some [("app", "demo")] = some anns := h
        cases h1
        rfl)).1⟩

/-- The loop on the decoded descriptors, for any JSON library: in a pod
whose annotation decodes to a sequence of objects, every descriptor is handed
to the encoder with, under every key other than `ips`, the value that the
decoder stored (and no value there if it stored none). -/
theorem transformPodList_keeps_other_fields (J : JsonLib)
    (listed : Except String UnstructuredList) (pod : Pod) (anns : List (String × String))
    (text : String) (objs : List Object)
    (hann : pod.Annotations = some anns) (htext : mapGet anns networkStatusKey = some text)
    (hdec : (J.Unmarshal text).1 = some (objs.map some)) :
    ∃ objs' : List Object,
      objs'.length = objs.length ∧
      transformPodList J listed [pod] =
        Except.ok [storeNetworks J pod anns (some (objs'.map some))] ∧
      (∀ (podList out : List Pod) (i : Nat), transformPodList J listed podList = Except.ok out →
        podList[i]? = some pod →
        out[i]? = some (storeNetworks J pod anns (some (objs'.map some)))) ∧
      ∀ (j : Nat) (m : Object), objs[j]? = some m →
        ∃ m', objs'[j]? = some m' ∧ ∀ k, k ≠ "ips" → mapGet m' k = mapGet m k := by
  obtain ⟨objs', hloop, hall⟩ := enrichNetworks_objects pod (vmisOf listed) objs
  have hbody := transformPod_of_objects J (vmisOf listed) pod anns text objs objs'
    hann htext hdec hloop
  refine ⟨objs', hall.length_eq.symm, transformPodList_singleton J listed pod _ hbody, ?_, ?_⟩
  · intro podList out i hrun hpod
    exact transformPodList_getElem? J listed podList out i pod _ hrun hpod hbody
  · intro j m hj
    obtain ⟨m', hm', hr⟩ := forall₂_getElem? hall j m hj
    exact ⟨m', hm', fun k hk => enrichNetwork_other_fields pod (vmisOf listed) m m' hr k hk⟩

theorem transformPodList_keeps_other_fields_witness :
    (encodingJson.Unmarshal twoMacsText).1 = some (twoMacs.map some) ∧
    ∃ objs' : List Object,
      objs'.length = twoMacs.length ∧
      transformPodList encodingJson (Except.ok [sampleVmi]) [samplePod twoMacsText] =
        Except.ok [storeNetworks encodingJson (samplePod twoMacsText)
          (sampleAnnotations twoMacsText) (some (objs'.map some))] ∧
      (∀ (podList out : List Pod) (i : Nat),
        transformPodList encodingJson (Except.ok [sampleVmi]) podList = Except.ok out →
        podList[i]? = some (samplePod twoMacsText) →
        out[i]? = some (storeNetworks encodingJson (samplePod twoMacsText)
          (sampleAnnotations twoMacsText) (some (objs'.map some)))) ∧
      ∀ (j : Nat) (m : Object), twoMacs[j]? = some m →
        ∃ m', objs'[j]? = some m' ∧ ∀ k, k ≠ "ips" → mapGet m' k = mapGet m k :=
  ⟨rfl, transformPodList_keeps_other_fields encodingJson (Except.ok [sampleVmi])
    (samplePod twoMacsText) (sampleAnnotations twoMacsText) twoMacsText twoMacs rfl rfl rfl⟩

/-- The loop on the decoded descriptors, for any JSON library, on an
annotation that decodes to objects: for a descriptor without `ips` whose
`mac` string equals no key of the mapping of the owning instance, the
descriptor handed to the encoder has `ips = []`; this holds in particular for
a mac that differs from a reported one in letter case only. -/
theorem transformPodList_unmatched_mac (J : JsonLib)
    (listed : Except String UnstructuredList) (pod : Pod) (anns : List (String × String))
    (text : String) (objs : List Object) (j : Nat) (d : Object) (mac : String)
    (hann : pod.Annotations = some anns) (htext : mapGet anns networkStatusKey = some text)
    (hdec : (J.Unmarshal text).1 = some (objs.map some))
    (hd : objs[j]? = some d) (hmac : mapGet d "mac" = some (Value.str mac))
    (hips : mapGet d "ips" = none)
    (hkeys : ∀ vmi mapping, findVmiForPod pod (vmisOf listed) = some vmi →
      getMacToIPMappingForVMI vmi = some mapping → ∀ p ∈ mapping, p.1 ≠ mac) :
    ∃ objs' : List Object,
      objs'.length = objs.length ∧
      objs'[j]? = some (mapSet d "ips" (Value.strings [])) ∧
      transformPodList J listed [pod] =
        Except.ok [storeNetworks J pod anns (some (objs'.map some))] ∧
      ∀ (podList out : List Pod) (i : Nat), transformPodList J listed podList = Except.ok out →
        podList[i]? = some pod →
        out[i]? = some (storeNetworks J pod anns (some (objs'.map some))) := by
  obtain ⟨objs', hloop, hall⟩ := enrichNetworks_objects pod (vmisOf listed) objs
  have hbody := transformPod_of_objects J (vmisOf listed) pod anns text objs objs'
    hann htext hdec hloop
  refine ⟨objs', hall.length_eq.symm, ?_, transformPodList_singleton J listed pod _ hbody, ?_⟩
  · obtain ⟨m', hm', hr⟩ := forall₂_getElem? hall j d hd
    have hnone : lookupIp pod (vmisOf listed) d = none := by
      cases hl : lookupIp pod (vmisOf listed) d with
      | none => rfl
      | some ip =>
        obtain ⟨items, vmi, mapping, mac', hv, hf, hg, hm, -, hget⟩ :=
          (lookupIp_eq_some_iff pod (vmisOf listed) d ip).mp hl
        rw [hmac] at hm
        simp only [Option.some.injEq, Value.str.injEq] at hm
        subst hm
        rw [mapGet_eq_none_of_keys mapping mac (hkeys vmi mapping hf hg)] at hget
        exact absurd hget (by simp)
    rw [enrichNetwork_of_no_ips pod _ d hips, hnone] at hr
    simp only [Except.ok.injEq, Option.some.injEq] at hr
    rw [hm', ← hr]
  · intro podList out i hrun hpod
    exact transformPodList_getElem? J listed podList out i pod _ hrun hpod hbody

theorem transformPodList_unmatched_mac_witness :
    transformPodList encodingJson (Except.ok [sampleVmi])
        [samplePod "[\x7b\"mac\":\"cc:dd\"\x7d]"] =
      Except.ok [samplePod "[\x7b\"ips\":[],\"mac\":\"cc:dd\"\x7d]"] ∧
    transformPodList encodingJson (Except.ok [sampleVmi])
        [samplePod "[\x7b\"mac\":\"AA:BB\"\x7d]"] =
      Except.ok [samplePod "[\x7b\"ips\":[],\"mac\":\"AA:BB\"\x7d]"] := by
  have hkeys : ∀ (text mac : String), mac ≠ "aa:bb" →
      ∀ vmi mapping, findVmiForPod (samplePod text) (vmisOf (Except.ok [sampleVmi])) = some vmi →
      getMacToIPMappingForVMI vmi = some mapping → ∀ p ∈ mapping, p.1 ≠ mac := by
    intro text mac hne vmi mapping hf hg p hp
    have h1 : some sampleVmi = some vmi := hf
    cases h1
    have h2 : some [("aa:bb", "10.0.0.5")] = some mapping := hg
    cases h2
    simp only [List.mem_singleton] at hp
    subst hp
    exact fun h => hne h.symm
  constructor
  · obtain ⟨objs', hlen, h0, hrun, -⟩ :=
      transformPodList_unmatched_mac encodingJson (Except.ok [sampleVmi])
        (samplePod "[\x7b\"mac\":\"cc:dd\"\x7d]") (sampleAnnotations "[\x7b\"mac\":\"cc:dd\"\x7d]")
        "[\x7b\"mac\":\"cc:dd\"\x7d]" [[("mac", Value.str "cc:dd")]] 0
        [("mac", Value.str "cc:dd")] "cc:dd" rfl rfl rfl rfl rfl rfl
        (hkeys _ "cc:dd" (by decide))
    rw [eq_singleton_of_getElem? objs' _ hlen h0] at hrun
    exact hrun
  · obtain ⟨objs', hlen, h0, hrun, -⟩ :=
      transformPodList_unmatched_mac encodingJson (Except.ok [sampleVmi])
        (samplePod "[\x7b\"mac\":\"AA:BB\"\x7d]") (sampleAnnotations "[\x7b\"mac\":\"AA:BB\"\x7d]")
        "[\x7b\"mac\":\"AA:BB\"\x7d]" [[("mac", Value.str "AA:BB")]] 0
        [("mac", Value.str "AA:BB")] "AA:BB" rfl rfl rfl rfl rfl rfl
        (hkeys _ "AA:BB" (by decide))
    rw [eq_singleton_of_getElem? objs' _ hlen h0] at hrun
    exact hrun

/-! ## Claims on the owner resolver, the instance matcher and the address mapper -/

theorem ownerVmiName_of_no_kind (ownerRefs : List OwnerReference)
    (h : ∀ r ∈ ownerRefs, r.Kind ≠ "VirtualMachineInstance") : ownerVmiName ownerRefs = "" := by
  induction ownerRefs with
  | nil => rfl
  | cons r rest ih =>
    have hr : r.Kind ≠ "VirtualMachineInstance" := h r (by simp)
    simp only [ownerVmiName, hr, if_false]
    exact ih (fun r' hr' => h r' (by simp [hr']))

theorem findVmiLoop_none (ns name : String) (items : UnstructuredList)
    (h : ∀ o ∈ items, ¬ VmiNamed ns name o) : findVmiLoop ns name items = none := by
  induction items with
  | nil => rfl
  | cons o rest ih =>
    rw [findVmiLoop_cons_of_not_named ns name o rest (h o (by simp))]
    exact ih (fun o' ho' => h o' (by simp [ho']))

/-- C11: the owner name that `findVmiForPod` matches with is the name of the
first owner reference of kind VirtualMachineInstance: the search runs with
that name alone (and not at all when it is empty), so the references after it
change nothing; with no reference of that kind the name is empty and
`findVmiForPod` returns not found. -/
theorem findVmiForPod_first_owner (pod : Pod) (vmis : Option UnstructuredList) :
    (∀ (before after : List OwnerReference) (name : String),
      pod.OwnerReferences = before ++ ⟨"VirtualMachineInstance", name⟩ :: after →
      (∀ r ∈ before, r.Kind ≠ "VirtualMachineInstance") →
      ownerVmiName pod.OwnerReferences = name ∧
      findVmiForPod pod vmis =
        (match vmis with
         | none => none
         | some items => if name = "" then none else findVmiLoop pod.Namespace name items) ∧
      findVmiForPod pod vmis =
        findVmiForPod { pod with OwnerReferences := [⟨"VirtualMachineInstance", name⟩] } vmis) ∧
    ((∀ r ∈ pod.OwnerReferences, r.Kind ≠ "VirtualMachineInstance") →
      ownerVmiName pod.OwnerReferences = "" ∧ findVmiForPod pod vmis = none) := by
  constructor
  · intro before after name hown hbefore
    have hname : ownerVmiName pod.OwnerReferences = name := by
      rw [hown]
      exact ownerVmiName_first before after name hbefore
    refine ⟨hname, ?_, ?_⟩
    · cases vmis with
      | none => rfl
      | some items => simp only [findVmiForPod, hname]
    · cases vmis with
      | none => rfl
      | some items => simp [findVmiForPod, hname, ownerVmiName]
  · intro hnone
    have hname := ownerVmiName_of_no_kind pod.OwnerReferences hnone
    refine ⟨hname, ?_⟩
    cases vmis with
    | none => rfl
    | some items => simp [findVmiForPod, hname]

theorem findVmiForPod_first_owner_witness :
    ownerVmiName twoOwnersPod.OwnerReferences = "vmi-x" ∧
    findVmiForPod twoOwnersPod (some [sampleVmi]) = none ∧
    findVmiForPod { twoOwnersPod with OwnerReferences := [⟨"VirtualMachineInstance", "vmi-a"⟩] }
      (some [sampleVmi]) = some sampleVmi ∧
    findVmiForPod otherPod (some [sampleVmi]) = none := by
  have h := (findVmiForPod_first_owner twoOwnersPod (some [sampleVmi])).1
    [⟨"ReplicaSet", "rs"⟩] [⟨"VirtualMachineInstance", "vmi-a"⟩] "vmi-x" rfl (by decide)
  have h2 := (findVmiForPod_first_owner otherPod (some [sampleVmi])).2 (by decide)
  exact ⟨h.1, h.2.1.trans rfl, rfl, h2.2⟩

/-- C12: for a pod whose resolved owner name `name` is not empty,
`findVmiForPod` returns not found on an absent collection, returns the first
object of the collection whose metadata is a map with the string `name` as
`name` and the pod's namespace as `namespace`, whatever the objects before it
look like, and returns not found when no object of the collection is such. -/
theorem findVmiForPod_first_match (pod : Pod) (name : String)
    (howner : ownerVmiName pod.OwnerReferences = name) (hname : name ≠ "") :
    findVmiForPod pod none = none ∧
    ∀ items : UnstructuredList,
      (∀ (earlier later : UnstructuredList) (vmi : Object),
        items = earlier ++ vmi :: later → VmiNamed pod.Namespace name vmi →
        (∀ o ∈ earlier, ¬ VmiNamed pod.Namespace name o) →
        findVmiForPod pod (some items) = some vmi) ∧
      ((∀ o ∈ items, ¬ VmiNamed pod.Namespace name o) →
        findVmiForPod pod (some items) = none) := by
  refine ⟨rfl, fun items => ⟨?_, ?_⟩⟩
  · intro earlier later vmi hitems hvmi hearlier
    simp only [findVmiForPod, howner, hname, if_false, hitems]
    exact findVmiLoop_first pod.Namespace name earlier later vmi hvmi hearlier
  · intro hnone
    simp only [findVmiForPod, howner, hname, if_false]
    exact findVmiLoop_none pod.Namespace name items hnone

theorem findVmiForPod_first_match_witness :
    findVmiForPod (samplePod oneMacText) none = none ∧
    findVmiForPod (samplePod oneMacText) (some (malformedVmis ++ sampleVmi :: [mixedVmi, sampleVmi])) =
      some sampleVmi ∧
    findVmiForPod (samplePod oneMacText) (some malformedVmis) = none := by
  have h := findVmiForPod_first_match (samplePod oneMacText) "vmi-a" rfl (by decide)
  have hmal : ∀ o ∈ malformedVmis, ¬ VmiNamed (samplePod oneMacText).Namespace "vmi-a" o := by
    intro o ho hn
    have hfound : findVmiLoop "ns1" "vmi-a" (o :: []) = some o :=
      findVmiLoop_cons_of_named "ns1" "vmi-a" o [] hn
    simp only [malformedVmis, List.mem_cons, List.mem_singleton, List.not_mem_nil,
      or_false] at ho
    rcases ho with rfl | rfl | rfl | rfl | rfl <;>
      exact absurd (show (none : Option Object) = some _ from hfound) (by simp)
  exact ⟨h.1,
    ((h.2 (malformedVmis ++ sampleVmi :: [mixedVmi, sampleVmi])).1 malformedVmis
      [mixedVmi, sampleVmi] sampleVmi rfl ⟨_, rfl, rfl, rfl⟩ hmal),
    (h.2 malformedVmis).2 hmal⟩

/-- The binding of `mac` after the loop of lines 212-229: either no entry
reports `mac` and the binding is the one before the loop, or the binding is
the address of the last entry that reports `mac`. -/
theorem macLoop_get (ifs : List Value) (mapping : List (String × String)) (mac : String) :
    (mapGet (macLoop ifs mapping) mac = mapGet mapping mac ∧
        ∀ v ∈ ifs, ∀ ip, ¬ ReportsPair v mac ip) ∨
      ∃ before entry after ip, ifs = before ++ entry :: after ∧ ReportsPair entry mac ip ∧
        (∀ v ∈ after, ∀ ip', ¬ ReportsPair v mac ip') ∧
        mapGet (macLoop ifs mapping) mac = some ip := by
  induction ifs generalizing mapping with
  | nil => exact Or.inl ⟨rfl, by simp⟩
  | cons v rest ih =>
    rcases macLoop_cons v rest mapping with ⟨mac', ip', hp, h⟩ | ⟨hn, h⟩
    · rcases ih (mapSet mapping mac' ip') with ⟨hget, hnone⟩ | ⟨before, entry, after, ip, hd, he, ha, hg⟩
      · by_cases hm : mac' = mac
        · subst hm
          right
          refine ⟨[], v, rest, ip', rfl, hp, hnone, ?_⟩
          rw [h, hget]
          exact mapGet_mapSet_self mapping mac' ip'
        · left
          refine ⟨?_, ?_⟩
          · rw [h, hget]
            exact mapGet_mapSet_ne mapping mac' mac ip' (fun e => hm e.symm)
          · intro w hw ip hr
            rcases List.mem_cons.mp hw with rfl | hw
            · exact hm (ReportsPair_unique _ mac' mac ip' ip hp hr).1.symm
            · exact hnone w hw ip hr
      · right
        exact ⟨v :: before, entry, after, ip, by rw [hd]; rfl, he, ha, by rw [h]; exact hg⟩
    · rcases ih mapping with ⟨hget, hnone⟩ | ⟨before, entry, after, ip, hd, he, ha, hg⟩
      · left
        refine ⟨by rw [h]; exact hget, ?_⟩
        intro w hw ip hr
        rcases List.mem_cons.mp hw with rfl | hw
        · exact hn mac ip hr
        · exact hnone w hw ip hr
      · right
        exact ⟨v :: before, entry, after, ip, by rw [hd]; rfl, he, ha, by rw [h]; exact hg⟩

/-- C13: for an instance whose `status.interfaces` is a sequence,
`getMacToIPMappingForVMI` returns a mapping in which `mac` is present exactly
when some entry is an object with the non-empty string `mac` as `mac` and a
non-empty string `ipAddress`, and the value for `mac` is the `ipAddress` of
the last such entry; every other entry is skipped. -/
theorem getMacToIPMappingForVMI_last_wins (vmi status : Object) (ifs : List Value)
    (hstatus : mapGet vmi "status" = some (Value.map status))
    (hifs : mapGet status "interfaces" = some (Value.slice ifs)) :
    ∃ mapping, getMacToIPMappingForVMI vmi = some mapping ∧
      (∀ mac, (∃ ip, mapGet mapping mac = some ip) ↔ ∃ v ∈ ifs, ∃ ip, ReportsPair v mac ip) ∧
      ∀ mac ip, mapGet mapping mac = some ip ↔
        ∃ before entry after, ifs = before ++ entry :: after ∧ ReportsPair entry mac ip ∧
          ∀ v ∈ after, ∀ ip', ¬ ReportsPair v mac ip' := by
  refine ⟨macLoop ifs [], by simp [getMacToIPMappingForVMI, hstatus, asMap, hifs, asSlice],
    ?_, ?_⟩
  · intro mac
    constructor
    · rintro ⟨ip, hget⟩
      rcases macLoop_get ifs [] mac with ⟨h0, -⟩ | ⟨before, entry, after, ip0, hd, he, -, -⟩
      · rw [hget] at h0
        exact absurd h0 (by simp [mapGet])
      · exact ⟨entry, by rw [hd]; simp, ip0, he⟩
    · rintro ⟨v, hv, ip, hr⟩
      rcases macLoop_get ifs [] mac with ⟨-, hnone⟩ | ⟨-, -, -, ip0, -, -, -, hg⟩
      · exact absurd hr (hnone v hv ip)
      · exact ⟨ip0, hg⟩
  · intro mac ip
    constructor
    · intro hget
      rcases macLoop_get ifs [] mac with ⟨h0, -⟩ | ⟨before, entry, after, ip0, hd, he, ha, hg⟩
      · rw [hget] at h0
        exact absurd h0 (by simp [mapGet])
      · rw [hget] at hg
        simp only [Option.some.injEq] at hg
        subst hg
        exact ⟨before, entry, after, hd, he, ha⟩
    · rintro ⟨before, entry, after, hd, he, ha⟩
      subst hd
      obtain ⟨mapping', hm', hg'⟩ :=
        getMacToIPMappingForVMI_of_pair vmi status before after entry mac ip hstatus hifs he
          (fun v hv ip' hr => absurd hr (ha v hv ip'))
      have : mapping' = macLoop (before ++ entry :: after) [] := by
        simp [getMacToIPMappingForVMI, hstatus, asMap, hifs, asSlice] at hm'
        exact hm'.symm
      rw [← this]
      exact hg'

theorem getMacToIPMappingForVMI_last_wins_witness :
    getMacToIPMappingForVMI mixedVmi = some [("aa:bb", "10.0.0.7")] ∧
    ∃ mapping, getMacToIPMappingForVMI mixedVmi = some mapping ∧
      (∀ mac, (∃ ip, mapGet mapping mac = some ip) ↔
        ∃ v ∈ mixedInterfaces, ∃ ip, ReportsPair v mac ip) ∧
      ∀ mac ip, mapGet mapping mac = some ip ↔
        ∃ before entry after, mixedInterfaces = before ++ entry :: after ∧
          ReportsPair entry mac ip ∧ ∀ v ∈ after, ∀ ip', ¬ ReportsPair v mac ip' :=
  ⟨rfl, getMacToIPMappingForVMI_last_wins mixedVmi
    [("interfaces", Value.slice mixedInterfaces)] mixedInterfaces rfl rfl⟩

/-! ## Claims on the pass as a whole -/

theorem transformPods_append (J : JsonLib) (vmis : Option UnstructuredList)
    (xs ys : List Pod) :
    transformPods J vmis (xs ++ ys) =
      (transformPods J vmis xs).bind
        (fun a => (transformPods J vmis ys).map (fun b => a ++ b)) := by
  induction xs with
  | nil =>
    cases h : transformPods J vmis ys <;> simp [transformPods, Except.bind, Except.map, h]
  | cons p rest ih =>
    simp only [List.cons_append, transformPods, List.append_eq]
    rw [ih]
    cases hp : transformPod J vmis p with
    | error e => rfl
    | ok q =>
      cases hr : transformPods J vmis rest with
      | error e => rfl
      | ok rest' =>
        cases hy : transformPods J vmis ys with
        | error e => rfl
        | ok ys' => rfl

theorem mapSet_keys_of_some {β : Type} (m : List (String × β)) (k : String) (v w : β)
    (h : mapGet m k = some v) : (mapSet m k w).map Prod.fst = m.map Prod.fst := by
  induction m with
  | nil => simp [mapGet] at h
  | cons p rest ih =>
    obtain ⟨k', v'⟩ := p
    by_cases hk : k' = k
    · simp [mapSet, hk]
    · simp only [mapGet, hk, if_false] at h
      simp [mapSet, hk, ih h]

/-- What the loop body may change in a pod: nothing but the value bound to
the network-status key, and that only when the key is bound. -/
theorem transformPod_frame (J : JsonLib) (vmis : Option UnstructuredList) (pod q : Pod)
    (h : transformPod J vmis pod = Except.ok q) :
    q.Name = pod.Name ∧ q.Namespace = pod.Namespace ∧
    q.OwnerReferences = pod.OwnerReferences ∧
    (pod.Annotations = none → q.Annotations = none) ∧
    ∀ anns, pod.Annotations = some anns →
      ∃ anns', q.Annotations = some anns' ∧
        (anns' = anns ∨
          ∃ text t, mapGet anns networkStatusKey = some text ∧
            anns' = mapSet anns networkStatusKey t) ∧
        anns'.map Prod.fst = anns.map Prod.fst ∧
        ∀ k, k ≠ networkStatusKey → mapGet anns' k = mapGet anns k := by
  rcases transformPod_cases J vmis pod q h with
    ⟨-, rfl⟩ | ⟨_, _, _, _, _, _, _, _, rfl⟩ | ⟨anns0, text, networks, t, ha, ht, -, -, rfl⟩
  · exact ⟨rfl, rfl, rfl, fun h0 => h0, fun anns ha =>
      ⟨anns, ha, Or.inl rfl, rfl, fun _ _ => rfl⟩⟩
  · exact ⟨rfl, rfl, rfl, fun h0 => h0, fun anns ha =>
      ⟨anns, ha, Or.inl rfl, rfl, fun _ _ => rfl⟩⟩
  · refine ⟨rfl, rfl, rfl, fun h0 => by simp [ha] at h0, fun anns ha' => ?_⟩
    rw [ha] at ha'
    simp only [Option.some.injEq] at ha'
    subst ha'
    exact ⟨_, rfl, Or.inr ⟨text, t, ht, rfl⟩, mapSet_keys_of_some _ _ text t ht,
      fun k hk => mapGet_mapSet_ne _ _ k t hk⟩

/-- C16: the pass acts pod by pod and on one annotation only.  Running it on
a concatenation is running it on the first list and then on the second; a
pass that completes gives a list of the same length whose pod at each index
is what the pass makes of the input pod at that index alone, with the same
name, namespace and owner references, the same annotation keys, and the same
value under every key but the network-status key. -/
theorem transformPodList_pointwise (J : JsonLib) (listed : Except String UnstructuredList)
    (xs ys : List Pod) :
    transformPodList J listed (xs ++ ys) =
      (transformPodList J listed xs).bind
        (fun a => (transformPodList J listed ys).map (fun b => a ++ b)) ∧
    ∀ podList out : List Pod, transformPodList J listed podList = Except.ok out →
      out.length = podList.length ∧
      ∀ (i : Nat) (p : Pod), podList[i]? = some p →
        ∃ q, out[i]? = some q ∧ transformPodList J listed [p] = Except.ok [q] ∧
          q.Name = p.Name ∧ q.Namespace = p.Namespace ∧
          q.OwnerReferences = p.OwnerReferences ∧
          (p.Annotations = none → q.Annotations = none) ∧
          ∀ anns, p.Annotations = some anns →
            ∃ anns', q.Annotations = some anns' ∧
              (anns' = anns ∨
                ∃ text t, mapGet anns networkStatusKey = some text ∧
                  anns' = mapSet anns networkStatusKey t) ∧
              anns'.map Prod.fst = anns.map Prod.fst ∧
              ∀ k, k ≠ networkStatusKey → mapGet anns' k = mapGet anns k := by
  refine ⟨transformPods_append J (vmisOf listed) xs ys, ?_⟩
  intro podList out hrun
  have hall := (transformPods_ok_iff J (vmisOf listed) podList out).mp hrun
  refine ⟨hall.length_eq.symm, ?_⟩
  intro i p hp
  obtain ⟨q, hq, hbody⟩ := forall₂_getElem? hall i p hp
  exact ⟨q, hq, transformPodList_singleton J listed p q hbody,
    transformPod_frame J (vmisOf listed) p q hbody⟩

theorem transformPodList_pointwise_witness :
    transformPodList encodingJson (Except.ok [sampleVmi])
        ([samplePod oneMacText, barePod] ++ [otherPod, samplePod emptyIpsText]) =
      Except.ok ([samplePod oneMacEnriched, barePod] ++ [otherPod, samplePod emptyIpsText]) ∧
    transformPodList encodingJson (Except.ok [sampleVmi])
        ([samplePod "[null]"] ++ [otherPod]) =
      Except.error "assignment to entry in nil map" := by
  have h1 := (transformPodList_pointwise encodingJson (Except.ok [sampleVmi])
    [samplePod oneMacText, barePod] [otherPod, samplePod emptyIpsText]).1
  have h2 := (transformPodList_pointwise encodingJson (Except.ok [sampleVmi])
    [samplePod "[null]"] [otherPod]).1
  exact ⟨h1.trans rfl, h2.trans rfl⟩

/-- The loop body on a pod whose decoded annotation holds no nil map
completes. -/
theorem transformPod_total (J : JsonLib) (vmis : Option UnstructuredList) (pod : Pod)
    (hobjs : ∀ anns text nets, pod.Annotations = some anns →
      mapGet anns networkStatusKey = some text → (J.Unmarshal text).1 = some nets →
      ∀ n ∈ nets, n ≠ none) :
    ∃ q, transformPod J vmis pod = Except.ok q := by
  cases ha : pod.Annotations with
  | none => exact ⟨pod, by simp [transformPod, ha]⟩
  | some anns =>
    cases ht : mapGet anns networkStatusKey with
    | none => exact ⟨pod, by simp [transformPod, ha, ht]⟩
    | some text =>
      cases hu : (J.Unmarshal text).1 with
      | none =>
        exact ⟨storeNetworks J pod anns none, by simp [transformPod, ha, ht, hu, rangeNetworks]⟩
      | some nets =>
        have hsome : ∃ objs : List Object, nets = objs.map some := by
          have hn := hobjs anns text nets ha ht hu
          clear hu
          induction nets with
          | nil => exact ⟨[], rfl⟩
          | cons n rest ih =>
            obtain ⟨objs, rfl⟩ := ih (fun x hx => hn x (by simp [hx]))
            cases n with
            | none => exact absurd rfl (hn none (by simp))
            | some m => exact ⟨m :: objs, rfl⟩
        obtain ⟨objs, rfl⟩ := hsome
        obtain ⟨objs', hloop, -⟩ := enrichNetworks_objects pod vmis objs
        exact ⟨_, transformPod_of_objects J vmis pod anns text objs objs' ha ht hu hloop⟩

theorem transformPods_total (J : JsonLib) (vmis : Option UnstructuredList)
    (podList : List Pod)
    (hobjs : ∀ pod ∈ podList, ∀ anns text nets, pod.Annotations = some anns →
      mapGet anns networkStatusKey = some text → (J.Unmarshal text).1 = some nets →
      ∀ n ∈ nets, n ≠ none) :
    ∃ out, transformPods J vmis podList = Except.ok out := by
  induction podList with
  | nil => exact ⟨[], rfl⟩
  | cons p rest ih =>
    obtain ⟨q, hq⟩ := transformPod_total J vmis p (hobjs p (by simp))
    obtain ⟨out, hout⟩ := ih (fun pod hpod => hobjs pod (by simp [hpod]))
    exact ⟨q :: out, by simp [transformPods, hq, hout]⟩

/-- C17: on a pod list in which every network-status annotation is absent or
decodes to a slice without nil map, and with an instance list of any shape,
the pass completes.  The loop body fails on a nil map only: on a map it
returns a map, so the type assertion of line 290 never fails, the `ips` it
reads being the `[]string` stored at line 264.  The type checks of
`findVmiForPod` and `getMacToIPMappingForVMI` are all of the two-result
form, which has no failing branch: the two functions return on every
input. -/
theorem transformPodList_no_panic (J : JsonLib) (listed : Except String UnstructuredList)
    (podList : List Pod)
    (hobjs : ∀ pod ∈ podList, ∀ anns text nets, pod.Annotations = some anns →
      mapGet anns networkStatusKey = some text → (J.Unmarshal text).1 = some nets →
      ∀ n ∈ nets, n ≠ none) :
    (∃ out, transformPodList J listed podList = Except.ok out) ∧
    (∀ (pod : Pod) (vmis : Option UnstructuredList) (m : Object),
      ∃ m', enrichNetwork pod vmis (some m) = Except.ok (some m')) ∧
    ∀ (pod : Pod) (vmis : Option UnstructuredList) (n : Option Object) (e : String),
      enrichNetwork pod vmis n = Except.error e →
      n = none ∧ e = "assignment to entry in nil map" := by
  have hbody : ∀ (pod : Pod) (vmis : Option UnstructuredList) (m : Object),
      ∃ m', enrichNetwork pod vmis (some m) = Except.ok (some m') := by
    intro pod vmis m
    cases hi : mapGet m "ips" with
    | some v => exact ⟨m, enrichNetwork_of_ips pod vmis m v hi⟩
    | none => exact ⟨_, enrichNetwork_of_no_ips pod vmis m hi⟩
  refine ⟨transformPods_total J (vmisOf listed) podList hobjs, hbody, ?_⟩
  intro pod vmis n e he
  cases n with
  | none =>
    simp only [enrichNetwork, Except.error.injEq] at he
    exact ⟨rfl, he.symm⟩
  | some m =>
    obtain ⟨m', hm'⟩ := hbody pod vmis m
    rw [hm'] at he
    exact absurd he (by simp)

theorem transformPodList_no_panic_witness :
    ∃ out, transformPodList encodingJson
      (Except.ok (malformedVmis ++ [mixedVmi, sampleVmi]))
      [samplePod twoMacsText, barePod, samplePod "not json"] = Except.ok out := by
  refine (transformPodList_no_panic encodingJson
    (Except.ok (malformedVmis ++ [mixedVmi, sampleVmi]))
    [samplePod twoMacsText, barePod, samplePod "not json"] ?_).1
  intro pod hpod anns text nets ha ht hu n hn
  simp only [List.mem_cons, List.mem_singleton, List.not_mem_nil, or_false] at hpod
  rcases hpod with rfl | rfl | rfl
  · have h1 : some (sampleAnnotations twoMacsText) = some anns := ha
    cases h1
    have h2 : some twoMacsText = some text := ht
    cases h2
    have h3 : some (twoMacs.map some) = some nets := hu
    cases h3
    simp only [twoMacs, List.map_cons, List.map_nil, List.mem_cons, List.mem_singleton,
      List.not_mem_nil, or_false] at hn
    rcases hn with rfl | rfl <;> simp
  · have h1 : (none : Option (List (String × String))) = some anns := ha
    cases h1
  · have h1 : some (sampleAnnotations "not json") = some anns := ha
    cases h1
    have h2 : some "not json" = some text := ht
    cases h2
    have h3 : (none : Networks) = some nets := hu
    cases h3

/-! ## The rewritten annotation -/

theorem mapGet_eq_some_iff_mem {β : Type} (l : List (String × β))
    (hnd : (l.map Prod.fst).Nodup) (k : String) (v : β) :
    mapGet l k = some v ↔ (k, v) ∈ l := by
  induction l with
  | nil => simp [mapGet]
  | cons p rest ih =>
    obtain ⟨k', v'⟩ := p
    simp only [List.map_cons, List.nodup_cons] at hnd
    by_cases hk : k' = k
    · subst hk
      have hnot : (k', v) ∉ rest := fun hmem =>
        hnd.1 (List.mem_map.mpr ⟨(k', v), hmem, rfl⟩)
      simp only [mapGet, if_true, Option.some.injEq, List.mem_cons, Prod.mk.injEq, true_and,
        hnot, or_false]
      exact eq_comm
    · have hk' : ¬ k = k' := fun e => hk e.symm
      simp only [mapGet, hk, if_false, List.mem_cons, Prod.mk.injEq, hk', false_and, false_or]
      exact ih hnd.2

theorem mapGet_of_perm {β : Type} (l l2 : List (String × β)) (hp : l.Perm l2)
    (hnd : (l2.map Prod.fst).Nodup) (k : String) : mapGet l k = mapGet l2 k := by
  have hnd1 : (l.map Prod.fst).Nodup := ((hp.map Prod.fst).nodup_iff).mpr hnd
  apply Option.ext
  intro v
  simp only [Option.mem_def]
  rw [mapGet_eq_some_iff_mem l hnd1, mapGet_eq_some_iff_mem l2 hnd, hp.mem_iff]

theorem mapGet_map_snd {β γ : Type} (f : β → γ) (l : List (String × β)) (k : String) :
    mapGet (l.map (fun p => (p.1, f p.2))) k = (mapGet l k).map f := by
  induction l with
  | nil => rfl
  | cons p rest ih =>
    obtain ⟨k', v'⟩ := p
    by_cases hk : k' = k
    · simp [mapGet, hk]
    · simp only [List.map_cons, mapGet, hk, if_false]
      exact ih

/-- A field of a descriptor after it was written and read again. -/
theorem mapGet_reread (m : Object) (hnd : (m.map Prod.fst).Nodup) (k : String) :
    mapGet (Json.sortMembers (Json.rereadFields m)) k = (mapGet m k).map Json.reread := by
  have hkeys : ((Json.rereadFields m).map Prod.fst).Nodup := by
    rw [Json.rereadFields_eq, List.map_map]
    exact hnd
  rw [mapGet_of_perm _ _ (Json.sortMembers_perm (Json.rereadFields m)) hkeys k,
    Json.rereadFields_eq]
  exact mapGet_map_snd Json.reread m k

/-- Decoding the text written for a slice of maps stores one map for each and
reports no error. -/
theorem Unmarshal_written_objects (ms : List Object) (hwf : ∀ m ∈ ms, Json.Wf (Value.map m)) :
    Json.Unmarshal (String.mk (Json.writeValue (Value.slice (ms.map Value.map)))) =
      (some ((ms.map (fun m => Json.sortMembers (Json.rereadFields m))).map some), none) := by
  have hV : Json.Wf (Value.slice (ms.map Value.map)) := by
    apply Json.Wf.slice
    intro x hx
    obtain ⟨m, hm, rfl⟩ := List.mem_map.mp hx
    exact hwf m hm
  have hread := Json.readsAs_of_wf _ hV
    (2 * (Json.writeValue (Value.slice (ms.map Value.map))).length + 2) [] (by omega) trivial
  simp only [List.append_nil] at hread
  have hparse : Json.parse (String.mk (Json.writeValue (Value.slice (ms.map Value.map)))) =
      some (Json.reread (Value.slice (ms.map Value.map))) := by
    simp only [Json.parse, String.length, String.toList, hread, Json.skipWs, if_true]
  have hno : (ms.map (Json.reread ∘ Value.map)).any Json.elemMismatch = false := by
    rw [List.any_eq_false]
    intro x hx
    simp only [List.mem_map] at hx
    obtain ⟨m, -, rfl⟩ := hx
    simp [Json.reread, Json.elemMismatch]
  have hfin : Json.findInfNetworks
      (ms.map (Json.elemToMap ∘ Json.reread ∘ Value.map)) = none := by
    rw [Json.findInfNetworks_eq_none]
    intro m hm
    obtain ⟨m0, hm0, he⟩ := List.mem_map.mp hm
    have h0 := findInf_reread _ (hwf m0 hm0)
    simp only [Function.comp, Json.reread, Json.elemToMap, Option.some.injEq] at he
    rw [← he]
    simpa only [Json.reread, Json.findInf] using h0
  simp only [Json.Unmarshal, hparse, Json.reread, Json.rereadValues_eq, List.map_map, hno, hfin]
  rfl

theorem forall₂_getElem?_right {α β : Type} {R : α → β → Prop} {xs : List α} {ys : List β}
    (h : List.Forall₂ R xs ys) (i : Nat) (x : α) (y : β)
    (hx : xs[i]? = some x) (hy : ys[i]? = some y) : R x y := by
  obtain ⟨y', hy', hr⟩ := forall₂_getElem? h i x hx
  rw [hy] at hy'
  simp only [Option.some.injEq] at hy'
  rw [hy']
  exact hr

/-! ## checkAuth -/

theorem decodeRune_of_ascii (b : Nat) (t : Bytes) (hb : b < 0x80) :
    Utf8.DecodeRuneInString (b :: t) = (b, 1) := by
  simp [Utf8.DecodeRuneInString, hb]

theorem acceptLo_ge (b : Nat) :
    0x80 ≤ Utf8.acceptLo b ∧ (b = 0xE0 → Utf8.acceptLo b = 0xA0) ∧
      (b = 0xF0 → Utf8.acceptLo b = 0x90) := by
  unfold Utf8.acceptLo
  split_ifs <;> omega

theorem acceptHi_le (b : Nat) : Utf8.acceptHi b ≤ 0xBF := by
  unfold Utf8.acceptHi
  split_ifs <;> omega

theorem firstSize_of_high (b : Nat) (hb : 0x80 ≤ b) :
    (Utf8.firstSize b = 0 ∧ (b < 0xC2 ∨ 0xF5 ≤ b)) ∨
    (Utf8.firstSize b = 2 ∧ 0xC2 ≤ b ∧ b < 0xE0) ∨
    (Utf8.firstSize b = 3 ∧ 0xE0 ≤ b ∧ b < 0xF0) ∨
    (Utf8.firstSize b = 4 ∧ 0xF0 ≤ b ∧ b < 0xF5) := by
  unfold Utf8.firstSize
  split_ifs <;> omega

/-- A sequence that starts with a byte outside ASCII decodes to a rune
outside ASCII, of width one at least. -/
theorem decodeRune_of_high (b : Nat) (t : Bytes) (hb : 0x80 ≤ b) :
    0x80 ≤ (Utf8.DecodeRuneInString (b :: t)).1 ∧ 1 ≤ (Utf8.DecodeRuneInString (b :: t)).2 := by
  have hnb : ¬ b < 0x80 := by omega
  obtain ⟨hlo, hloE, hloF⟩ := acceptLo_ge b
  have hhi := acceptHi_le b
  have herr : (0x80 : Nat) ≤ Utf8.RuneError := by decide
  rcases firstSize_of_high b hb with ⟨hf, -⟩ | ⟨hf, h1, h2⟩ | ⟨hf, h1, h2⟩ | ⟨hf, h1, h2⟩
  · simp only [Utf8.DecodeRuneInString, hnb, if_false, hf, if_true]
    exact ⟨herr, le_refl _⟩
  · rcases t with _ | ⟨s1, t1⟩
    · simp only [Utf8.DecodeRuneInString, hnb, if_false, hf]
      exact ⟨herr, le_refl _⟩
    · simp only [Utf8.DecodeRuneInString, hnb, if_false, hf, List.length_cons,
        Nat.reduceEqDiff, Nat.reduceLeDiff, if_true]
      split_ifs
      all_goals first
        | exact ⟨herr, le_refl _⟩
        | (constructor <;> dsimp only <;> omega)
  · rcases t with _ | ⟨s1, _ | ⟨s2, t2⟩⟩
    · simp only [Utf8.DecodeRuneInString, hnb, if_false, hf]
      exact ⟨herr, le_refl _⟩
    · simp only [Utf8.DecodeRuneInString, hnb, if_false, hf, List.length_cons,
        Nat.reduceEqDiff, Nat.reduceLeDiff, if_true]
      split_ifs
      all_goals exact ⟨herr, le_refl _⟩
    · simp only [Utf8.DecodeRuneInString, hnb, if_false, hf, List.length_cons,
        Nat.reduceEqDiff, Nat.reduceLeDiff, if_true]
      split_ifs
      all_goals first
        | exact ⟨herr, le_refl _⟩
        | (constructor <;> dsimp only <;> omega)
  · rcases t with _ | ⟨s1, _ | ⟨s2, _ | ⟨s3, t3⟩⟩⟩
    · simp only [Utf8.DecodeRuneInString, hnb, if_false, hf]
      exact ⟨herr, le_refl _⟩
    · simp only [Utf8.DecodeRuneInString, hnb, if_false, hf, List.length_cons,
        Nat.reduceEqDiff, Nat.reduceLeDiff, if_true]
      split_ifs
      all_goals exact ⟨herr, le_refl _⟩
    · simp only [Utf8.DecodeRuneInString, hnb, if_false, hf, List.length_cons,
        Nat.reduceEqDiff, Nat.reduceLeDiff, if_true]
      split_ifs
      all_goals exact ⟨herr, le_refl _⟩
    · simp only [Utf8.DecodeRuneInString, hnb, if_false, hf, List.length_cons,
        Nat.reduceEqDiff, Nat.reduceLeDiff, if_true]
      split_ifs
      all_goals first
        | exact ⟨herr, le_refl _⟩
        | (constructor <;> dsimp only <;> omega)

theorem decodeRune_width_pos (b : Nat) (t : Bytes) :
    1 ≤ (Utf8.DecodeRuneInString (b :: t)).2 := by
  by_cases hb : b < 0x80
  · rw [decodeRune_of_ascii b t hb]
  · exact (decodeRune_of_high b t (by omega)).2

theorem acceptHi_of_bound (b : Nat) :
    (b = 0xED → Utf8.acceptHi b = 0x9F) ∧ (b = 0xF4 → Utf8.acceptHi b = 0x8F) := by
  unfold Utf8.acceptHi
  split_ifs <;> omega

/-- The rune that decoding returns is a scalar value: at most U+10FFFF and
no surrogate, so that `utf8.RuneLen` is its encoded length. -/
theorem decodeRune_scalar (s : Bytes) :
    (Utf8.DecodeRuneInString s).1 ≤ 0x10FFFF ∧
      ¬ (0xD800 ≤ (Utf8.DecodeRuneInString s).1 ∧ (Utf8.DecodeRuneInString s).1 ≤ 0xDFFF) := by
  have herr : Utf8.RuneError ≤ 0x10FFFF ∧
      ¬ (0xD800 ≤ Utf8.RuneError ∧ Utf8.RuneError ≤ 0xDFFF) := by decide
  cases s with
  | nil => exact herr
  | cons b t =>
    by_cases hb : b < 0x80
    · rw [decodeRune_of_ascii b t hb]
      constructor <;> dsimp only <;> omega
    · obtain ⟨hlo, hloE, hloF⟩ := acceptLo_ge b
      have hhi := acceptHi_le b
      obtain ⟨hhiE, hhiF⟩ := acceptHi_of_bound b
      rcases firstSize_of_high b (by omega) with
        ⟨hf, -⟩ | ⟨hf, h1, h2⟩ | ⟨hf, h1, h2⟩ | ⟨hf, h1, h2⟩
      · simp only [Utf8.DecodeRuneInString, hb, if_false, hf, if_true]
        exact herr
      · rcases t with _ | ⟨s1, t1⟩
        · simp only [Utf8.DecodeRuneInString, hb, if_false, hf]
          exact herr
        · simp only [Utf8.DecodeRuneInString, hb, if_false, hf, List.length_cons,
            Nat.reduceEqDiff, Nat.reduceLeDiff, if_true]
          split_ifs
          all_goals first
            | exact herr
            | (constructor <;> dsimp only <;> omega)
      · rcases t with _ | ⟨s1, _ | ⟨s2, t2⟩⟩
        · simp only [Utf8.DecodeRuneInString, hb, if_false, hf]
          exact herr
        · simp only [Utf8.DecodeRuneInString, hb, if_false, hf, List.length_cons,
            Nat.reduceEqDiff, Nat.reduceLeDiff, if_true]
          split_ifs
          all_goals exact herr
        · simp only [Utf8.DecodeRuneInString, hb, if_false, hf, List.length_cons,
            Nat.reduceEqDiff, Nat.reduceLeDiff, if_true]
          split_ifs
          all_goals first
            | exact herr
            | (constructor <;> dsimp only <;> omega)
      · rcases t with _ | ⟨s1, _ | ⟨s2, _ | ⟨s3, t3⟩⟩⟩
        · simp only [Utf8.DecodeRuneInString, hb, if_false, hf]
          exact herr
        · simp only [Utf8.DecodeRuneInString, hb, if_false, hf, List.length_cons,
            Nat.reduceEqDiff, Nat.reduceLeDiff, if_true]
          split_ifs
          all_goals exact herr
        · simp only [Utf8.DecodeRuneInString, hb, if_false, hf, List.length_cons,
            Nat.reduceEqDiff, Nat.reduceLeDiff, if_true]
          split_ifs
          all_goals exact herr
        · simp only [Utf8.DecodeRuneInString, hb, if_false, hf, List.length_cons,
            Nat.reduceEqDiff, Nat.reduceLeDiff, if_true]
          split_ifs
          all_goals first
            | exact herr
            | (constructor <;> dsimp only <;> omega)

theorem runeLen_pos (r : Nat) : 1 ≤ Utf8.RuneLen r := by
  unfold Utf8.RuneLen
  split_ifs <;> omega

/-- The second loop of `strings.Map` gives the same string for every number
of iterations that is at least the length of its input. -/
theorem mapRest_fuel (mapping : Nat → Nat) :
    ∀ (fuel fuel2 : Nat) (s : Bytes), s.length ≤ fuel → s.length ≤ fuel2 →
      Strings.mapRest mapping fuel s = Strings.mapRest mapping fuel2 s := by
  intro fuel
  induction fuel with
  | zero =>
    intro fuel2 s hs _
    have : s = [] := List.length_eq_zero.mp (by omega)
    subst this
    cases fuel2 <;> rfl
  | succ fuel ih =>
    intro fuel2 s hs hs2
    cases s with
    | nil => cases fuel2 <;> rfl
    | cons b t =>
      cases fuel2 with
      | zero => simp at hs2
      | succ fuel2 =>
        have hw := decodeRune_width_pos b t
        have hlen : (List.drop (Utf8.DecodeRuneInString (b :: t)).2 (b :: t)).length
            ≤ t.length := by
          rw [List.length_drop, List.length_cons]
          omega
        simp only [List.length_cons] at hs hs2
        simp only [Strings.mapRest]
        rw [ih fuel2 _ (by omega) (by omega)]

/-- The first loop of `strings.Map` likewise: `len(s)` iterations are
enough. -/
theorem mapFirst_fuel (mapping : Nat → Nat) :
    ∀ (fuel fuel2 : Nat) (kept s : Bytes), s.length ≤ fuel → s.length ≤ fuel2 →
      Strings.mapFirst mapping fuel kept s = Strings.mapFirst mapping fuel2 kept s := by
  intro fuel
  induction fuel with
  | zero =>
    intro fuel2 kept s hs _
    have : s = [] := List.length_eq_zero.mp (by omega)
    subst this
    cases fuel2 <;> rfl
  | succ fuel ih =>
    intro fuel2 kept s hs hs2
    cases s with
    | nil => cases fuel2 <;> rfl
    | cons b t =>
      cases fuel2 with
      | zero => simp at hs2
      | succ fuel2 =>
        have hw := decodeRune_width_pos b t
        have hr := runeLen_pos (Utf8.DecodeRuneInString (b :: t)).1
        have hlen : ∀ w, 1 ≤ w → (List.drop w (b :: t)).length ≤ t.length := by
          intro w hw1
          rw [List.length_drop, List.length_cons]
          omega
        simp only [List.length_cons] at hs hs2
        have hcont := ih fuel2
          (kept ++ List.take (Utf8.DecodeRuneInString (b :: t)).2 (b :: t))
          (List.drop (Utf8.DecodeRuneInString (b :: t)).2 (b :: t))
          (by have := hlen _ hw; omega) (by have := hlen _ hw; omega)
        simp only [Strings.mapFirst]
        split_ifs
        all_goals first
          | exact hcont
          | (rw [mapRest_fuel mapping fuel fuel2 _
              (by have := hlen _ hw; have := hlen _ hr; omega)
              (by have := hlen _ hw; have := hlen _ hr; omega)])

theorem appendRune_of_ascii (r : Nat) (hr : r < 0x80) : Utf8.AppendRune r = [r] := by
  have h : r ≤ 0x7F := by omega
  simp [Utf8.AppendRune, h]

theorem appendRune_of_high (r : Nat) (hr : 0x80 ≤ r) :
    ∃ x rest, Utf8.AppendRune r = x :: rest ∧ 0x80 ≤ x := by
  have h : ¬ r ≤ 0x7F := by omega
  simp only [Utf8.AppendRune, h, if_false]
  split_ifs
  · exact ⟨_, _, rfl, by omega⟩
  · exact ⟨_, _, rfl, by omega⟩
  · exact ⟨_, _, rfl, by omega⟩
  · exact ⟨_, _, rfl, by omega⟩

theorem unicodeToLower_of_ascii (table : Nat → Nat) (b : Nat) (hb : b < 0x80) :
    unicodeToLower table b = Strings.lowerByte b := by
  have h : b ≤ 0x7F := by omega
  simp [unicodeToLower, Strings.lowerByte, h]

theorem lowerByte_lt (b : Nat) (hb : b < 0x80) : Strings.lowerByte b < 0x80 := by
  unfold Strings.lowerByte
  split_ifs <;> omega

theorem lowerByte_of_high (b : Nat) (hb : 0x80 ≤ b) : Strings.lowerByte b = b := by
  unfold Strings.lowerByte
  split_ifs
  · omega
  · rfl

/-- The first byte written for a rune outside ASCII. -/
theorem appendRune_lower_of_high (table : Nat → Nat)
    (htable : ∀ r, 0x7F < r → table r < 0x80 → table r = 0x69 ∨ table r = 0x6B)
    (c : Nat) (hc : 0x80 ≤ c) :
    ∃ x rest, Utf8.AppendRune (unicodeToLower table c) = x :: rest ∧
      (0x80 ≤ x ∨ x = 0x69 ∨ x = 0x6B) := by
  have h : ¬ c ≤ 0x7F := by omega
  have hlow : unicodeToLower table c = table c := by simp [unicodeToLower, h]
  rw [hlow]
  by_cases hr : table c < 0x80
  · exact ⟨table c, [], appendRune_of_ascii _ hr, Or.inr (htable c (by omega) hr)⟩
  · obtain ⟨x, rest, hx, hx2⟩ := appendRune_of_high (table c) (by omega)
    exact ⟨x, rest, hx, Or.inl hx2⟩

theorem mapRest_lowerOut (table : Nat → Nat)
    (htable : ∀ r, 0x7F < r → table r < 0x80 → table r = 0x69 ∨ table r = 0x6B) :
    ∀ (fuel : Nat) (s : Bytes), s.length ≤ fuel →
      LowerOut s (Strings.mapRest (unicodeToLower table) fuel s) := by
  intro fuel
  induction fuel with
  | zero =>
    intro s hs
    have : s = [] := List.length_eq_zero.mp (by omega)
    subst this
    exact LowerOut.nil
  | succ fuel ih =>
    intro s hs
    cases s with
    | nil => exact LowerOut.nil
    | cons b t =>
      simp only [Strings.mapRest]
      by_cases hb : b < 0x80
      · rw [decodeRune_of_ascii b t hb]
        simp only [unicodeToLower_of_ascii table b hb,
          appendRune_of_ascii _ (lowerByte_lt b hb), List.drop_succ_cons, List.drop_zero,
          List.singleton_append]
        exact LowerOut.ascii b t _ hb (ih t (by simpa using hs))
      · obtain ⟨hc, -⟩ := decodeRune_of_high b t (by omega)
        obtain ⟨x, rest, hx, hx2⟩ := appendRune_lower_of_high table htable _ hc
        rw [hx]
        exact LowerOut.other b t x _ (by omega) hx2

theorem mapFirst_kept (mapping : Nat → Nat) :
    ∀ (fuel : Nat) (kept rest : Bytes),
      Strings.mapFirst mapping fuel kept rest = kept ++ Strings.mapFirst mapping fuel [] rest := by
  intro fuel
  induction fuel with
  | zero => intro kept rest; simp [Strings.mapFirst]
  | succ fuel ih =>
    intro kept rest
    cases rest with
    | nil => simp [Strings.mapFirst]
    | cons b t =>
      simp only [Strings.mapFirst, List.nil_append]
      split_ifs
      all_goals first
        | rw [ih (kept ++ _), ih (List.take _ _), List.append_assoc]
        | rw [List.append_assoc]

theorem mapFirst_lowerOut (table : Nat → Nat)
    (htable : ∀ r, 0x7F < r → table r < 0x80 → table r = 0x69 ∨ table r = 0x6B) :
    ∀ (fuel : Nat) (s : Bytes), s.length ≤ fuel →
      LowerOut s (Strings.mapFirst (unicodeToLower table) fuel [] s) := by
  intro fuel
  induction fuel with
  | zero =>
    intro s hs
    have : s = [] := List.length_eq_zero.mp (by omega)
    subst this
    exact LowerOut.nil
  | succ fuel ih =>
    intro s hs
    cases s with
    | nil => exact LowerOut.nil
    | cons b t =>
      have ht : t.length ≤ fuel := by simpa using hs
      by_cases hb : b < 0x80
      · have hne : b ≠ Utf8.RuneError := by
          unfold Utf8.RuneError
          omega
        simp only [Strings.mapFirst, decodeRune_of_ascii b t hb,
          unicodeToLower_of_ascii table b hb, hne, if_false, false_and, List.nil_append,
          List.take_succ_cons, List.take_zero, List.drop_succ_cons, List.drop_zero,
          ne_eq, not_false_eq_true, and_true]
        have hlen : Utf8.RuneLen b = 1 := by
          have h : b ≤ 0x7F := by omega
          simp [Utf8.RuneLen, h]
        split_ifs with hsame
        · rw [mapFirst_kept]
          have h2 := LowerOut.ascii b t _ hb (ih t ht)
          rw [hsame] at h2
          exact h2
        · rw [appendRune_of_ascii _ (lowerByte_lt b hb), hlen]
          exact LowerOut.ascii b t _ hb (mapRest_lowerOut table htable fuel t ht)
      · obtain ⟨hc, hw⟩ := decodeRune_of_high b t (by omega)
        have htake : ∀ rest2 : Bytes,
            ∃ out, List.take (Utf8.DecodeRuneInString (b :: t)).2 (b :: t) ++ rest2 = b :: out := by
          intro rest2
          obtain ⟨w, hw2⟩ : ∃ w, (Utf8.DecodeRuneInString (b :: t)).2 = w + 1 :=
            ⟨(Utf8.DecodeRuneInString (b :: t)).2 - 1, by omega⟩
          rw [hw2]
          exact ⟨_, rfl⟩
        have hcont : LowerOut (b :: t) (Strings.mapFirst (unicodeToLower table) fuel
            (List.take (Utf8.DecodeRuneInString (b :: t)).2 (b :: t))
            (List.drop (Utf8.DecodeRuneInString (b :: t)).2 (b :: t))) := by
          rw [mapFirst_kept]
          obtain ⟨out, hout⟩ := htake (Strings.mapFirst (unicodeToLower table) fuel []
            (List.drop (Utf8.DecodeRuneInString (b :: t)).2 (b :: t)))
          rw [hout]
          exact LowerOut.other b t b out (by omega) (Or.inl (by omega))
        obtain ⟨x, rest, hx, hx2⟩ := appendRune_lower_of_high table htable _ hc
        simp only [Strings.mapFirst, List.nil_append]
        split_ifs
        all_goals first
          | exact hcont
          | (rw [hx]
             exact LowerOut.other b t x _ (by omega) hx2)

theorem map_lowerByte_lowerOut (s : Bytes) (hs : ∀ c ∈ s, c < 0x80) :
    LowerOut s (s.map Strings.lowerByte) := by
  induction s with
  | nil => exact LowerOut.nil
  | cons b t ih =>
    exact LowerOut.ascii b t _ (hs b (by simp)) (ih (fun c hc => hs c (by simp [hc])))

theorem map_lowerByte_of_no_upper (s : Bytes)
    (hs : ∀ c ∈ s, ¬ (0x41 ≤ c ∧ c ≤ 0x5A)) : s.map Strings.lowerByte = s := by
  induction s with
  | nil => rfl
  | cons b t ih =>
    have hb : Strings.lowerByte b = b := by
      simp only [Strings.lowerByte, hs b (by simp), if_false]
    rw [List.map_cons, hb, ih (fun c hc => hs c (by simp [hc]))]

/-- The output of `strings.ToLower`, seen from the front of its input. -/
theorem ToLower_lowerOut (table : Nat → Nat)
    (htable : ∀ r, 0x7F < r → table r < 0x80 → table r = 0x69 ∨ table r = 0x6B)
    (s : Bytes) : LowerOut s (Strings.ToLower table s) := by
  unfold Strings.ToLower
  split_ifs with hascii hupper
  · exact map_lowerByte_lowerOut s (by simpa using hascii)
  · have h := map_lowerByte_lowerOut s (by simpa using hascii)
    rw [map_lowerByte_of_no_upper s (by simpa using hupper)] at h
    exact h
  · exact mapFirst_lowerOut table htable s.length s (le_refl _)

theorem hasPrefix_nil (out : Bytes) : Strings.HasPrefix out [] = true := by
  simp [Strings.HasPrefix]

theorem hasPrefix_cons (a x : Nat) (out w : Bytes) :
    Strings.HasPrefix (a :: out) (x :: w) = true ↔ a = x ∧ Strings.HasPrefix out w = true := by
  simp [Strings.HasPrefix, and_assoc, and_left_comm]

/-- A word of ASCII bytes other than `i` and `k` starts the lowered string
exactly when the string starts with bytes that lower, one by one, to the
word. -/
theorem hasPrefix_of_lowerOut (w : Bytes) (hw : ∀ x ∈ w, x < 0x80 ∧ x ≠ 0x69 ∧ x ≠ 0x6B) :
    ∀ s out : Bytes, LowerOut s out →
      (Strings.HasPrefix out w = true ↔
        ∃ p rest, s = p ++ rest ∧ p.map Strings.lowerByte = w) := by
  induction w with
  | nil =>
    intro s out _
    exact ⟨fun _ => ⟨[], s, rfl, rfl⟩, fun _ => hasPrefix_nil out⟩
  | cons x w ih =>
    intro s out h
    have hx := hw x (by simp)
    have ih2 := ih (fun y hy => hw y (by simp [hy]))
    cases h with
    | nil =>
      constructor
      · intro h1
        simp [Strings.HasPrefix] at h1
      · rintro ⟨p, rest, hs, hp⟩
        cases p with
        | nil => simp at hp
        | cons b p2 => simp at hs
    | ascii b t out2 hb ht =>
      rw [hasPrefix_cons, ih2 t out2 ht]
      constructor
      · rintro ⟨hbx, p, rest, rfl, hp⟩
        exact ⟨b :: p, rest, rfl, by simp [hbx, hp]⟩
      · rintro ⟨p, rest, hs, hp⟩
        cases p with
        | nil => simp at hp
        | cons b2 p2 =>
          simp only [List.cons_append, List.cons.injEq] at hs
          simp only [List.map_cons, List.cons.injEq] at hp
          obtain ⟨rfl, rfl⟩ := hs
          exact ⟨hp.1, p2, rest, rfl, hp.2⟩
    | other b t y out2 hb hy =>
      rw [hasPrefix_cons]
      constructor
      · rintro ⟨hyx, -⟩
        omega
      · rintro ⟨p, rest, hs, hp⟩
        cases p with
        | nil => simp at hp
        | cons b2 p2 =>
          simp only [List.cons_append, List.cons.injEq] at hs
          simp only [List.map_cons, List.cons.injEq] at hp
          obtain ⟨rfl, -⟩ := hs
          rw [lowerByte_of_high b hb] at hp
          omega

theorem bearerPrefix_plain : ∀ x ∈ bearerPrefix, x < 0x80 ∧ x ≠ 0x69 ∧ x ≠ 0x6B := by
  decide

/-- C15: with a non-empty `API_KEY`, `checkAuth` returns without panic for
every request, and returns true exactly when the `Authorization` header is
seven bytes that read `bearer ` once upper-case ASCII letters are lowered,
followed by the bytes of `API_KEY` and nothing else.  A request without the
header, an empty header and a header that does not start with such seven
bytes are rejected.  The case table of `unicode` enters through the one fact
that U+0130 and U+212A alone lower to ASCII, to `i` and to `k`. -/
theorem checkAuth_accepts_iff (table : Nat → Nat)
    (htable : ∀ r, 0x7F < r → table r < 0x80 → table r = 0x69 ∨ table r = 0x6B)
    (apiKey : Bytes) (hkey : apiKey ≠ []) :
    (∀ authorization : List Bytes, ∃ b : Bool,
      checkAuth table apiKey authorization = Except.ok b ∧
      (b = true ↔ ∃ p, p.map Strings.lowerByte = bearerPrefix ∧
        headerGet authorization = p ++ apiKey)) ∧
    checkAuth table apiKey [] = Except.ok false ∧
    (∀ others : List Bytes, checkAuth table apiKey ([] :: others) = Except.ok false) ∧
    ∀ (bearer : Bytes) (others : List Bytes),
      (¬ ∃ p rest, bearer = p ++ rest ∧ p.map Strings.lowerByte = bearerPrefix) →
      checkAuth table apiKey (bearer :: others) = Except.ok false := by
  have hchar : ∀ bearer : Bytes,
      (Strings.HasPrefix (Strings.ToLower table bearer) bearerPrefix = true ↔
        ∃ p rest, bearer = p ++ rest ∧ p.map Strings.lowerByte = bearerPrefix) :=
    fun bearer => hasPrefix_of_lowerOut bearerPrefix bearerPrefix_plain bearer _
      (ToLower_lowerOut table htable bearer)
  have hrej : ∀ authorization : List Bytes,
      (¬ ∃ p rest, headerGet authorization = p ++ rest ∧
        p.map Strings.lowerByte = bearerPrefix) →
      checkAuth table apiKey authorization = Except.ok false := by
    intro authorization hno
    have h1 : ¬ Strings.HasPrefix (Strings.ToLower table (headerGet authorization))
        bearerPrefix = true := fun h => hno ((hchar _).mp h)
    have h2 : ¬ ([] : Bytes) = apiKey := fun h => hkey h.symm
    simp [checkAuth, h1, h2]
  have hshort : ∀ rest : Bytes, ¬ ∃ p rest2 : Bytes, ([] : Bytes) = p ++ rest2 ∧
      p.map Strings.lowerByte = bearerPrefix := by
    rintro rest ⟨p, rest2, hs, hp⟩
    cases p with
    | nil => simp [bearerPrefix] at hp
    | cons b p2 => simp at hs
  refine ⟨?_, hrej [] (hshort []), fun others => hrej ([] :: others) (hshort []),
    fun bearer others hno => hrej (bearer :: others) hno⟩
  intro authorization
  by_cases hp : ∃ p rest, headerGet authorization = p ++ rest ∧
      p.map Strings.lowerByte = bearerPrefix
  · obtain ⟨p, rest, hs, hpm⟩ := hp
    have hlen : p.length = 7 := by
      have := congrArg List.length hpm
      simpa [bearerPrefix] using this
    have h1 : Strings.HasPrefix (Strings.ToLower table (headerGet authorization))
        bearerPrefix = true := (hchar _).mpr ⟨p, rest, hs, hpm⟩
    have h7 : bearerPrefix.length = 7 := rfl
    have hle : 7 ≤ (headerGet authorization).length := by
      rw [hs, List.length_append]
      omega
    have hdrop : (headerGet authorization).drop 7 = rest := by
      rw [hs, ← hlen, List.drop_left]
    refine ⟨decide (rest = apiKey), ?_, ?_⟩
    · simp only [checkAuth, h1, if_true, h7, hle, hdrop]
    · simp only [decide_eq_true_eq]
      constructor
      · rintro rfl
        exact ⟨p, hpm, hs⟩
      · rintro ⟨p2, hp2, hs2⟩
        have hlen2 : p2.length = 7 := by
          have := congrArg List.length hp2
          simpa [bearerPrefix] using this
        rw [hs] at hs2
        exact (List.append_inj hs2 (by omega)).2
  · refine ⟨false, hrej authorization hp, ?_⟩
    constructor
    · intro h
      exact absurd h (by simp)
    · rintro ⟨p, hpm, hs⟩
      exact absurd ⟨p, apiKey, hs, hpm⟩ hp

theorem sampleCaseTable_ascii (r : Nat) (h1 : 0x7F < r) (h2 : sampleCaseTable r < 0x80) :
    sampleCaseTable r = 0x69 ∨ sampleCaseTable r = 0x6B := by
  unfold sampleCaseTable at h2 ⊢
  split_ifs at h2 ⊢ <;> omega

theorem checkAuth_accepts_iff_witness :
    checkAuth sampleCaseTable sampleKey [sampleHeader] = Except.ok true ∧
    (∃ p, p.map Strings.lowerByte = bearerPrefix ∧
      headerGet [sampleHeader] = p ++ sampleKey) ∧
    checkAuth sampleCaseTable sampleKey [kelvinHeader] = Except.ok false ∧
    checkAuth sampleCaseTable sampleKey [] = Except.ok false ∧
    checkAuth sampleCaseTable sampleKey [[], sampleHeader] = Except.ok false := by
  have h := checkAuth_accepts_iff sampleCaseTable sampleCaseTable_ascii sampleKey (by decide)
  obtain ⟨b, hb, hiff⟩ := h.1 [sampleHeader]
  have hrun : checkAuth sampleCaseTable sampleKey [sampleHeader] = Except.ok true := rfl
  rw [hrun] at hb
  simp only [Except.ok.injEq] at hb
  exact ⟨hrun, hiff.mp hb.symm, rfl, h.2.1, h.2.2.1 [sampleHeader]⟩

/-! ## The pass with the model of encoding/json -/

/-- On a text that decodes to objects, the decoder reports an error exactly
when it stored an infinite number. -/
theorem Unmarshal_error_iff (text : String) (objs : List Object)
    (hdec : (Json.Unmarshal text).1 = some (objs.map some)) :
    (Json.Unmarshal text).2 = none ↔ Json.findInfNetworks (objs.map some) = none := by
  unfold Json.Unmarshal at hdec ⊢
  cases hp : Json.parse text with
  | none => simp [hp] at hdec
  | some v =>
    cases v with
    | slice xs =>
      simp only [hp, Option.some.injEq] at hdec
      have hany : xs.any Json.elemMismatch = false := by
        rw [List.any_eq_false]
        intro x hx
        have hmem : Json.elemToMap x ∈ objs.map some := by
          rw [← hdec]
          exact List.mem_map.mpr ⟨x, hx, rfl⟩
        obtain ⟨m, -, hm⟩ := List.mem_map.mp hmem
        cases x <;> simp [Json.elemToMap, Json.elemMismatch] at hm ⊢
      simp only [hdec, hany]
      cases hf : Json.findInfNetworks (objs.map some) <;> simp
    | null => simp [hp] at hdec
    | bool b => simp [hp] at hdec
    | number l => simp [hp] at hdec
    | str t => simp [hp] at hdec
    | map m => simp [hp] at hdec
    | strings ys => simp [hp] at hdec

/-- The loop body adds no infinite number to a descriptor and removes
none. -/
theorem enrichNetwork_findInf (pod : Pod) (vmis : Option UnstructuredList) (m m' : Object)
    (h : enrichNetwork pod vmis (some m) = Except.ok (some m')) :
    Json.findInfFields m' = none ↔ Json.findInfFields m = none := by
  cases hi : mapGet m "ips" with
  | some v =>
    rw [enrichNetwork_of_ips pod vmis m v hi] at h
    simp only [Except.ok.injEq, Option.some.injEq] at h
    rw [h]
  | none =>
    rw [enrichNetwork_of_no_ips pod vmis m hi] at h
    simp only [Except.ok.injEq, Option.some.injEq] at h
    rw [← h, Json.mapSet_of_none m "ips" _ hi, Json.findInfFields_eq_none,
      Json.findInfFields_eq_none]
    constructor
    · intro h2 p hp
      exact h2 p (List.mem_append.mpr (Or.inl hp))
    · intro h2 p hp
      rcases List.mem_append.mp hp with hp | hp
      · exact h2 p hp
      · simp only [List.mem_singleton] at hp
        rw [hp]
        rfl

theorem enrichNetworks_findInf (pod : Pod) (vmis : Option UnstructuredList)
    (nets nets' : List (Option Object))
    (h : enrichNetworks pod vmis nets = Except.ok nets') :
    Json.findInfNetworks nets' = none ↔ Json.findInfNetworks nets = none := by
  have hall := (enrichNetworks_ok_iff pod vmis nets nets').mp h
  clear h
  induction hall with
  | nil => exact Iff.rfl
  | @cons n n' ns ns' hn _ ih =>
    cases n with
    | none => simp [enrichNetwork] at hn
    | some m =>
      obtain ⟨m', v, rfl, -⟩ := enrichNetwork_result_has_ips pod vmis _ _ hn
      have hiff := enrichNetwork_findInf pod vmis m m' hn
      cases h1 : Json.findInfFields m with
      | none =>
        have h2 := hiff.mpr h1
        simp only [Json.findInfNetworks, h1, h2]
        exact ih
      | some lit =>
        cases h2 : Json.findInfFields m' with
        | none => exact absurd (hiff.mp h2) (by simp [h1])
        | some lit2 => simp [Json.findInfNetworks, h1, h2]

/-- The pass on a pod whose annotation decodes without error to objects: the
annotation becomes the written form of the descriptors that the loop leaves,
and that text decodes without error to those descriptors as they read
back. -/
theorem transformPod_written (vmis : Option UnstructuredList) (pod : Pod)
    (anns : List (String × String)) (text : String) (objs : List Object)
    (hann : pod.Annotations = some anns) (htext : mapGet anns networkStatusKey = some text)
    (hdec : encodingJson.Unmarshal text = (some (objs.map some), none)) :
    ∃ objs' : List Object,
      List.Forall₂ (fun m m' => enrichNetwork pod vmis (some m) = Except.ok (some m'))
        objs objs' ∧
      (∀ m' ∈ objs', (m'.map Prod.fst).Nodup) ∧
      transformPod encodingJson vmis pod = Except.ok
        { pod with Annotations := some (mapSet anns networkStatusKey
          (String.mk (Json.writeValue (Value.slice (objs'.map Value.map))))) } ∧
      encodingJson.Unmarshal (String.mk (Json.writeValue (Value.slice (objs'.map Value.map)))) =
        (some ((objs'.map (fun m => Json.sortMembers (Json.rereadFields m))).map some),
          none) := by
  have hdec1 : (encodingJson.Unmarshal text).1 = some (objs.map some) := by rw [hdec]
  have hdec2 : (Json.Unmarshal text).2 = none := by
    have : (encodingJson.Unmarshal text).2 = none := by rw [hdec]
    exact this
  obtain ⟨objs', hloop, hall⟩ := enrichNetworks_objects pod vmis objs
  have hst0 : ∀ m ∈ objs, Json.Stored (Value.map m) := fun m hm =>
    Unmarshal_stored text (objs.map some) hdec1 (some m) (List.mem_map.mpr ⟨m, hm, rfl⟩) m rfl
  have hst : ∀ m' ∈ objs', Json.Stored (Value.map m') := by
    intro m' hm'
    obtain ⟨m, hm, hmm⟩ := forall₂_mem_right hall m' hm'
    obtain ⟨m2, h2, hw⟩ := enrichNetwork_stored pod vmis (some m) (some m')
      (fun x hx => by
        simp only [Option.some.injEq] at hx
        rw [← hx]
        exact hst0 m hm) hmm
    simp only [Option.some.injEq] at h2
    rw [h2]
    exact hw
  have hfin : ∀ m' ∈ objs', Json.findInf (Value.map m') = none := by
    apply (findInfNetworks_objects objs').mp
    exact (enrichNetworks_findInf pod vmis _ _ hloop).mpr
      ((Unmarshal_error_iff text objs hdec1).mp hdec2)
  have hwf : ∀ m' ∈ objs', Json.Wf (Value.map m') := fun m' hm' =>
    Json.Stored.wf _ (hst m' hm') (hfin m' hm')
  refine ⟨objs', hall, ?_, ?_, Unmarshal_written_objects objs' hwf⟩
  · intro m' hm'
    cases hwf m' hm' with
    | map _ _ h => exact h
  · rw [transformPod_of_objects encodingJson vmis pod anns text objs objs' hann htext hdec1 hloop]
    have hm : encodingJson.Marshal (some (objs'.map some)) = Except.ok
        (String.mk (Json.writeValue (Value.slice (objs'.map Value.map)))) :=
      Marshal_objects objs' hfin
    simp only [storeNetworks, hm]

/-- The pass on a pod whose annotation decodes to objects with an error:
the encoder fails and the pod is left as it was. -/
theorem transformPod_unwritten (vmis : Option UnstructuredList) (pod : Pod)
    (anns : List (String × String)) (text : String) (objs : List Object)
    (hann : pod.Annotations = some anns) (htext : mapGet anns networkStatusKey = some text)
    (hdec : (encodingJson.Unmarshal text).1 = some (objs.map some))
    (herr : (encodingJson.Unmarshal text).2 ≠ none) :
    transformPod encodingJson vmis pod = Except.ok pod := by
  obtain ⟨objs', hloop, -⟩ := enrichNetworks_objects pod vmis objs
  rw [transformPod_of_objects encodingJson vmis pod anns text objs objs' hann htext hdec hloop]
  have hinf : Json.findInfNetworks (objs'.map some) ≠ none := fun h =>
    herr ((Unmarshal_error_iff text objs hdec).mpr
      ((enrichNetworks_findInf pod vmis _ _ hloop).mp h))
  obtain ⟨e, he⟩ := (Marshal_error_iff (objs'.map some)).mpr hinf
  have hm : encodingJson.Marshal (some (objs'.map some)) = Except.error e := he
  simp only [storeNetworks, hm]

/-! ## Claims on the rewritten annotation -/

/-- C1, as amended: for a pod whose network-status annotation decodes to a
sequence of objects.  When the decoder reports no error, the pass stores a
text `t` that decodes without error to as many descriptors, and a descriptor
that had no `ips` key has, in `t`, an `ips` key whose value is `[ip]` when
the instance list is available, `findVmiForPod` finds an owning instance, the
descriptor has a non-empty string `mac` and the mapping of that instance
sends that mac to `ip`, and `[]` in every other case, as for a pod without
owner references.  When the decoder reports an error (a number beyond
`float64`), the encoder fails and the pass leaves the pod as it was. -/
theorem transformPodList_writes_ips (listed : Except String UnstructuredList) (pod : Pod)
    (anns : List (String × String)) (text : String) (objs : List Object)
    (hann : pod.Annotations = some anns) (htext : mapGet anns networkStatusKey = some text)
    (hdec : (encodingJson.Unmarshal text).1 = some (objs.map some)) :
    ((encodingJson.Unmarshal text).2 = none →
      ∃ (t : String) (objs2 : List Object),
        transformPodList encodingJson listed [pod] =
          Except.ok [{ pod with Annotations := some (mapSet anns networkStatusKey t) }] ∧
        (∀ (podList out : List Pod) (i : Nat),
          transformPodList encodingJson listed podList = Except.ok out →
          podList[i]? = some pod →
          out[i]? = some { pod with Annotations := some (mapSet anns networkStatusKey t) }) ∧
        encodingJson.Unmarshal t = (some (objs2.map some), none) ∧
        objs2.length = objs.length ∧
        ∀ (j : Nat) (m : Object), objs[j]? = some m → mapGet m "ips" = none →
          ∃ (m2 : Object) (ips : List String), objs2[j]? = some m2 ∧
            mapGet m2 "ips" = some (Value.slice (ips.map Value.str)) ∧
            (∀ ip, Resolves (vmisOf listed) pod m ip → ips = [ip]) ∧
            ((∀ ip, ¬ Resolves (vmisOf listed) pod m ip) → ips = []) ∧
            (pod.OwnerReferences = [] → ips = [])) ∧
    ((encodingJson.Unmarshal text).2 ≠ none →
      transformPodList encodingJson listed [pod] = Except.ok [pod] ∧
      ∀ (podList out : List Pod) (i : Nat),
        transformPodList encodingJson listed podList = Except.ok out →
        podList[i]? = some pod → out[i]? = some pod) := by
  constructor
  · intro hok
    have hfull : encodingJson.Unmarshal text = (some (objs.map some), none) :=
      Prod.ext hdec hok
    obtain ⟨objs', hall, hnd, hbody, hback⟩ :=
      transformPod_written (vmisOf listed) pod anns text objs hann htext hfull
    refine ⟨_, objs'.map (fun m => Json.sortMembers (Json.rereadFields m)),
      transformPodList_singleton encodingJson listed pod _ hbody,
      fun podList out i hrun hpod =>
        transformPodList_getElem? encodingJson listed podList out i pod _ hrun hpod hbody,
      hback, ?_, ?_⟩
    · rw [List.length_map]
      exact hall.length_eq.symm
    · intro j m hj hips
      obtain ⟨m', hm', hr⟩ := forall₂_getElem? hall j m hj
      rw [enrichNetwork_of_no_ips pod (vmisOf listed) m hips] at hr
      simp only [Except.ok.injEq, Option.some.injEq] at hr
      refine ⟨Json.sortMembers (Json.rereadFields m'),
        (match lookupIp pod (vmisOf listed) m with
         | some ip => [ip]
         | none => []), ?_, ?_, ?_, ?_, ?_⟩
      · rw [List.getElem?_map, hm']
        rfl
      · rw [mapGet_reread m' (hnd m' (List.getElem?_mem hm')) "ips", ← hr,
          mapGet_mapSet_self]
        rfl
      · intro ip hres
        rw [(lookupIp_eq_some_iff pod (vmisOf listed) m ip).mpr hres]
      · intro hno
        cases hl : lookupIp pod (vmisOf listed) m with
        | none => rfl
        | some ip =>
          exact absurd ((lookupIp_eq_some_iff pod (vmisOf listed) m ip).mp hl) (hno ip)
      · intro hown
        cases hl : lookupIp pod (vmisOf listed) m with
        | none => rfl
        | some ip =>
          obtain ⟨items, vmi, _, _, _, hf, _⟩ :=
            (lookupIp_eq_some_iff pod (vmisOf listed) m ip).mp hl
          rw [findVmiForPod_no_owner pod (vmisOf listed) hown] at hf
          exact absurd hf (by simp)
  · intro herr
    have hbody := transformPod_unwritten (vmisOf listed) pod anns text objs hann htext hdec herr
    exact ⟨transformPodList_singleton encodingJson listed pod pod hbody,
      fun podList out i hrun hpod =>
        transformPodList_getElem? encodingJson listed podList out i pod pod hrun hpod hbody⟩

theorem transformPodList_writes_ips_witness :
    transformPodList encodingJson (Except.ok [sampleVmi]) [samplePod twoMacsText] =
      Except.ok [samplePod
        "[\x7b\"ips\":[\"10.0.0.5\"],\"mac\":\"aa:bb\"\x7d,\x7b\"ips\":[],\"mac\":\"cc:dd\"\x7d]"] ∧
    ∃ (t : String) (objs2 : List Object),
      transformPodList encodingJson (Except.ok [sampleVmi]) [samplePod twoMacsText] =
        Except.ok [{ samplePod twoMacsText with
          Annotations := some (mapSet (sampleAnnotations twoMacsText) networkStatusKey t) }] ∧
      encodingJson.Unmarshal t = (some (objs2.map some), none) ∧
      objs2.length = twoMacs.length := by
  refine ⟨rfl, ?_⟩
  obtain ⟨t, objs2, h1, -, h3, h4, -⟩ :=
    (transformPodList_writes_ips (Except.ok [sampleVmi]) (samplePod twoMacsText)
      (sampleAnnotations twoMacsText) twoMacsText twoMacs rfl rfl rfl).1 rfl
  exact ⟨t, objs2, h1, h3, h4⟩

/-- C1 fails as stated: the annotation `overflowText` decodes to a sequence
of one object, which has no `ips` key and whose mac the owning instance maps
to `10.0.0.5`; the decoder stores `+Inf` for `1e400`, the encoder refuses it,
and lines 294-297 leave the annotation as it was, so that the descriptor has
no `ips` key after the pass. -/
theorem transformPodList_encode_failure_leaves_no_ips :
    (encodingJson.Unmarshal overflowText).1 =
      some [some [("mac", Value.str "aa:bb"), ("n", Value.number "+Inf")]] ∧
    mapGet [("mac", Value.str "aa:bb"), ("n", Value.number "+Inf")] "ips" = none ∧
    Resolves (some [sampleVmi]) (samplePod overflowText)
      [("mac", Value.str "aa:bb"), ("n", Value.number "+Inf")] "10.0.0.5" ∧
    encodingJson.Marshal (some [some [("mac", Value.str "aa:bb"),
        ("n", Value.number "+Inf"), ("ips", Value.strings ["10.0.0.5"])]]) =
      Except.error "json: unsupported value: +Inf" ∧
    transformPodList encodingJson (Except.ok [sampleVmi]) [samplePod overflowText] =
      Except.ok [samplePod overflowText] :=
  ⟨rfl, rfl, ⟨[sampleVmi], sampleVmi, [("aa:bb", "10.0.0.5")], "aa:bb", rfl, rfl, rfl, rfl,
    by decide, rfl⟩, rfl, rfl⟩

/-- C14, as amended: for a pod whose network-status annotation decodes
without error to a sequence of objects, and for every instance list
(available or not), one pass stores a text `t` that decodes without error to
a sequence of objects again, as many as before; every one of them has an
`ips` key, and the one at index `i` holds, under every other key, the value
that the descriptor at index `i` held (as it reads back). -/
theorem transformPodList_normalises (listed : Except String UnstructuredList) (pod : Pod)
    (anns : List (String × String)) (text : String) (objs : List Object)
    (hann : pod.Annotations = some anns) (htext : mapGet anns networkStatusKey = some text)
    (hdec : encodingJson.Unmarshal text = (some (objs.map some), none)) :
    ∃ (t : String) (objs2 : List Object),
      transformPodList encodingJson listed [pod] =
        Except.ok [{ pod with Annotations := some (mapSet anns networkStatusKey t) }] ∧
      (∀ (podList out : List Pod) (i : Nat),
        transformPodList encodingJson listed podList = Except.ok out →
        podList[i]? = some pod →
        out[i]? = some { pod with Annotations := some (mapSet anns networkStatusKey t) }) ∧
      encodingJson.Unmarshal t = (some (objs2.map some), none) ∧
      objs2.length = objs.length ∧
      (∀ m2 ∈ objs2, ∃ v, mapGet m2 "ips" = some v) ∧
      ∀ (i : Nat) (m m2 : Object), objs[i]? = some m → objs2[i]? = some m2 →
        ∀ k, k ≠ "ips" → mapGet m2 k = (mapGet m k).map Json.reread := by
  obtain ⟨objs', hall, hnd, hbody, hback⟩ :=
    transformPod_written (vmisOf listed) pod anns text objs hann htext hdec
  refine ⟨_, objs'.map (fun m => Json.sortMembers (Json.rereadFields m)),
    transformPodList_singleton encodingJson listed pod _ hbody,
    fun podList out i hrun hpod =>
      transformPodList_getElem? encodingJson listed podList out i pod _ hrun hpod hbody,
    hback, ?_, ?_, ?_⟩
  · rw [List.length_map]
    exact hall.length_eq.symm
  · intro m2 hm2
    obtain ⟨m', hm', rfl⟩ := List.mem_map.mp hm2
    obtain ⟨m, -, hmm⟩ := forall₂_mem_right hall m' hm'
    obtain ⟨m3, v, h3, hv⟩ := enrichNetwork_result_has_ips pod (vmisOf listed) _ _ hmm
    simp only [Option.some.injEq] at h3
    subst h3
    rw [mapGet_reread m' (hnd m' hm') "ips", hv]
    exact ⟨_, rfl⟩
  · intro i m m2 hm hm2 k hk
    rw [List.getElem?_map] at hm2
    cases hi : objs'[i]? with
    | none => simp [hi] at hm2
    | some m' =>
      simp only [hi, Option.map_some', Option.some.injEq] at hm2
      subst hm2
      have hmm := forall₂_getElem?_right hall i m m' hm hi
      rw [mapGet_reread m' (hnd m' (List.getElem?_mem hi)) k,
        enrichNetwork_other_fields pod (vmisOf listed) m m' hmm k hk]

theorem transformPodList_normalises_witness :
    ∃ (t : String) (objs2 : List Object),
      transformPodList encodingJson (Except.ok [sampleVmi]) [samplePod twoMacsText] =
        Except.ok [{ samplePod twoMacsText with
          Annotations := some (mapSet (sampleAnnotations twoMacsText) networkStatusKey t) }] ∧
      encodingJson.Unmarshal t = (some (objs2.map some), none) ∧
      objs2.length = twoMacs.length ∧
      ∀ m2 ∈ objs2, ∃ v, mapGet m2 "ips" = some v := by
  obtain ⟨t, objs2, h1, -, h3, h4, h5, -⟩ :=
    transformPodList_normalises (Except.ok [sampleVmi]) (samplePod twoMacsText)
      (sampleAnnotations twoMacsText) twoMacsText twoMacs rfl rfl rfl
  exact ⟨t, objs2, h1, h3, h4, h5⟩

/-- C14 fails as stated: the annotation `negOverflowText` decodes to a
sequence of one object, and with the instance list unavailable the pass
leaves it as it was, because the encoder refuses the `-Inf` that the decoder
stored: the descriptor of the annotation has no `ips` key after the pass. -/
theorem transformPodList_not_normalised :
    (encodingJson.Unmarshal negOverflowText).1 =
      some [some [("name", Value.str "eth0"), ("mtu", Value.number "-Inf")]] ∧
    transformPodList encodingJson (Except.error "unavailable") [samplePod negOverflowText] =
      Except.ok [samplePod negOverflowText] ∧
    ¬ AllHaveIps [some [("name", Value.str "eth0"), ("mtu", Value.number "-Inf")]] := by
  refine ⟨rfl, rfl, ?_⟩
  intro h
  obtain ⟨m, v, hm, hv⟩ := h _ (List.mem_singleton.mpr rfl)
  simp only [Option.some.injEq] at hm
  subst hm
  exact absurd (show (none : Option Value) = some v from hv) (by simp)

/-- A decoding without error stored no infinite number. -/
theorem Unmarshal_no_error (text : String) (nets : List (Option Object))
    (h : encodingJson.Unmarshal text = (some nets, none)) :
    Json.findInfNetworks nets = none := by
  have h0 : Json.Unmarshal text = (some nets, none) := h
  unfold Json.Unmarshal at h0
  cases hp : Json.parse text with
  | none => simp [hp] at h0
  | some v =>
    cases v with
    | slice xs =>
      simp only [hp, Prod.mk.injEq, Option.some.injEq] at h0
      obtain ⟨h1, h2⟩ := h0
      rw [← h1]
      cases hf : Json.findInfNetworks (xs.map Json.elemToMap) with
      | none => rfl
      | some lit =>
        rw [hf] at h2
        split at h2
        · exact absurd h2 (by simp)
        · simp at h2
    | null => simp [hp] at h0
    | bool b => simp [hp] at h0
    | number l => simp [hp] at h0
    | str t => simp [hp] at h0
    | map m => simp [hp] at h0
    | strings ys => simp [hp] at h0

/-- C7, as amended: idempotence.  Running the pass on its own result gives
that result again: the pass composed with itself is the pass (a pass that
panics has no result to run on).  In the result, every annotation that a
second pass decodes without error holds descriptors with an `ips` key only,
so that none of them is processed again. -/
theorem transformPodList_idempotent (listed : Except String UnstructuredList)
    (podList : List Pod) :
    (transformPodList encodingJson listed podList).bind (transformPodList encodingJson listed) =
      transformPodList encodingJson listed podList ∧
    ∀ out, transformPodList encodingJson listed podList = Except.ok out →
      transformPodList encodingJson listed out = Except.ok out ∧
      ∀ q ∈ out, ∀ anns t nets2, q.Annotations = some anns →
        mapGet anns networkStatusKey = some t →
        encodingJson.Unmarshal t = (some nets2, none) → AllHaveIps nets2 := by
  have hlib : ∀ pod ∈ podList, ∀ anns text networks t, pod.Annotations = some anns →
      mapGet anns networkStatusKey = some text →
      rangeNetworks pod (vmisOf listed) (encodingJson.Unmarshal text).1 = Except.ok networks →
      encodingJson.Marshal networks = Except.ok t → ReadsBack encodingJson networks t :=
    fun pod _ _ text networks t _ _ hr hm =>
      encodingJson_readsBack pod (vmisOf listed) text networks t hr hm
  have htwice : ∀ out, transformPodList encodingJson listed podList = Except.ok out →
      transformPodList encodingJson listed out = Except.ok out :=
    fun out hrun => transformPods_twice encodingJson (vmisOf listed) podList out hlib hrun
  refine ⟨?_, fun out hrun => ⟨htwice out hrun, ?_⟩⟩
  · cases hrun : transformPodList encodingJson listed podList with
    | error e => rfl
    | ok out => exact htwice out hrun
  · intro q hq anns t nets2 ha ht hn
    have hn1 : (encodingJson.Unmarshal t).1 = some nets2 := by rw [hn]
    have hall := (transformPods_ok_iff encodingJson (vmisOf listed) podList out).mp hrun
    obtain ⟨p, -, hpq⟩ := forall₂_mem_right hall q hq
    rcases transformPod_cases encodingJson (vmisOf listed) p q hpq with
      ⟨hno, rfl⟩ | ⟨anns0, text, networks, e, ha0, ht0, hr, hm, rfl⟩ |
      ⟨anns0, text, networks, t0, -, -, hr, hm, rfl⟩
    · rw [hno anns ha] at ht
      exact absurd ht (by simp)
    · rw [ha] at ha0
      simp only [Option.some.injEq] at ha0
      subst ha0
      rw [ht] at ht0
      simp only [Option.some.injEq] at ht0
      subst ht0
      rw [hn1] at hr
      simp only [rangeNetworks] at hr
      cases hloop : enrichNetworks q (vmisOf listed) nets2 with
      | error e2 => simp [hloop] at hr
      | ok nets' =>
        simp only [hloop, Except.ok.injEq] at hr
        subst hr
        have hfin := (enrichNetworks_findInf q (vmisOf listed) _ _ hloop).mpr
          (Unmarshal_no_error t nets2 hn)
        have hm2 : Json.Marshal (some nets') = Except.error e := hm
        simp [Json.Marshal, hfin] at hm2
    · simp only [Option.some.injEq] at ha
      subst ha
      rw [mapGet_mapSet_self] at ht
      simp only [Option.some.injEq] at ht
      subst ht
      exact (transformPod_of_rewritten encodingJson (vmisOf listed) p anns0 networks t0
        (rangeNetworks_result_has_ips p (vmisOf listed) _ networks hr)
        (encodingJson_readsBack p (vmisOf listed) text networks t0 hr hm)).1 nets2 hn1

theorem transformPodList_idempotent_witness :
    transformPodList encodingJson (Except.ok [sampleVmi]) [samplePod oneMacText, barePod] =
      Except.ok [samplePod oneMacEnriched, barePod] ∧
    transformPodList encodingJson (Except.ok [sampleVmi]) [samplePod oneMacEnriched, barePod] =
      Except.ok [samplePod oneMacEnriched, barePod] ∧
    AllHaveIps [some [("ips", Value.slice [Value.str "10.0.0.5"]), ("mac", Value.str "aa:bb")]] :=
  ⟨rfl,
    ((transformPodList_idempotent (Except.ok [sampleVmi]) [samplePod oneMacText, barePod]).2
      [samplePod oneMacEnriched, barePod] rfl).1,
    ((transformPodList_idempotent (Except.ok [sampleVmi]) [samplePod oneMacText, barePod]).2
      [samplePod oneMacEnriched, barePod] rfl).2 (samplePod oneMacEnriched) (by simp)
      (sampleAnnotations oneMacEnriched) oneMacEnriched _ rfl rfl rfl⟩

/-- C7 fails as stated: on the annotation `bigCostText` the pass gives back
the pod it was given, so that a second pass gives the same result as the
first, but the descriptor still has no `ips` key and the second pass
processes it again, as the first did (setting `ips` in memory, for an
encoder that fails again). -/
theorem transformPodList_reprocesses :
    transformPodList encodingJson (Except.ok [sampleVmi]) [samplePod bigCostText] =
      Except.ok [samplePod bigCostText] ∧
    (encodingJson.Unmarshal bigCostText).1 =
      some [some [("mac", Value.str "cc:dd"), ("cost", Value.number "+Inf")]] ∧
    ¬ AllHaveIps [some [("mac", Value.str "cc:dd"), ("cost", Value.number "+Inf")]] ∧
    enrichNetwork (samplePod bigCostText) (some [sampleVmi])
        (some [("mac", Value.str "cc:dd"), ("cost", Value.number "+Inf")]) =
      Except.ok (some [("mac", Value.str "cc:dd"), ("cost", Value.number "+Inf"),
        ("ips", Value.strings [])]) := by
  refine ⟨rfl, rfl, ?_, rfl⟩
  intro h
  obtain ⟨m, v, hm, hv⟩ := h _ (List.mem_singleton.mpr rfl)
  simp only [Option.some.injEq] at hm
  subst hm
  exact absurd (show (none : Option Value) = some v from hv) (by simp)

/-! ## Claims that fail on the code -/

/-- C3: the claim fails on the code.  A descriptor that has an `ips` key and
a field `id` of value 12345678901234567890 comes out of the pass with `id`
equal to 12345678901234567000: line 256 decodes the number into a `float64`
and line 293 writes that `float64`, so the descriptor of the rewritten
annotation has not the same values. -/
theorem transformPodList_rewrites_kept_descriptor :
    transformPodList encodingJson (Except.ok [sampleVmi])
        [samplePod "[\x7b\"id\":12345678901234567890,\"ips\":[\"10.0.0.9\"]\x7d]"] =
      Except.ok [samplePod "[\x7b\"id\":12345678901234567000,\"ips\":[\"10.0.0.9\"]\x7d]"] := by
  decide!

/-- C9: the claim fails on the code.  A descriptor without `ips` whose field
`serial` is 9007199254740993 comes out of the pass with `ips` set and with
`serial` equal to 9007199254740992: a field other than `ips` is changed,
because line 256 holds every number as a `float64`. -/
theorem transformPodList_changes_other_field :
    transformPodList encodingJson (Except.ok [sampleVmi])
        [samplePod "[\x7b\"mac\":\"aa:bb\",\"serial\":9007199254740993\x7d]"] =
      Except.ok [samplePod
        "[\x7b\"ips\":[\"10.0.0.5\"],\"mac\":\"aa:bb\",\"serial\":9007199254740992\x7d]"] := by
  decide!

/-- C2: the claim fails on the code.  The pod `samplePod` is in `ns1` and is
owned by `vmi-a`, which `sampleVmi` is, with the interface `aa:bb` at
`10.0.0.5`.  When the annotation holds, after the descriptor of mac `aa:bb`,
an element that is not an object, the pass panics at line 264 and the
descriptor gets no `ips`; and when the descriptor has a field `index` of
value 18446744073709551615, the result is not the original descriptor plus
`ips`, since `index` comes out as 18446744073709552000. -/
theorem transformPodList_owned_descriptor_not_enriched :
    transformPodList encodingJson (Except.ok [sampleVmi])
        [samplePod "[\x7b\"mac\":\"aa:bb\"\x7d,5]"] =
      Except.error "assignment to entry in nil map" ∧
    transformPodList encodingJson (Except.ok [sampleVmi])
        [samplePod "[\x7b\"index\":18446744073709551615,\"mac\":\"aa:bb\"\x7d]"] =
      Except.ok [samplePod
        "[\x7b\"index\":18446744073709552000,\"ips\":[\"10.0.0.5\"],\"mac\":\"aa:bb\"\x7d]"] := by
  decide!

/-- C10: the claim fails on the code.  The descriptor of mac `cc:dd` has no
`ips` key and its mac is no key of the mapping of the owning instance, which
holds `aa:bb` only; the annotation holds a `null` after it, which decodes to
a nil map, and the pass panics at line 264: the result has no `ips = []`. -/
theorem transformPodList_unmatched_mac_panics :
    encodingJson.Unmarshal "[\x7b\"mac\":\"cc:dd\"\x7d,null]" =
      (some [some [("mac", Value.str "cc:dd")], none], none) ∧
    getMacToIPMappingForVMI sampleVmi = some [("aa:bb", "10.0.0.5")] ∧
    transformPodList encodingJson (Except.ok [sampleVmi])
        [samplePod "[\x7b\"mac\":\"cc:dd\"\x7d,null]"] =
      Except.error "assignment to entry in nil map" :=
  ⟨rfl, rfl, rfl⟩

end FortiKonnector
